import Mathlib

/-!
# mlpack: periodic hyper-rectangle bound

A shallow embedding of `mlpack::bound::PeriodicHRectBound<2>`
(`src/mlpack/core/tree/periodichrectbound_impl.hpp`) and of the parts of
`mlpack::math::Range` (`src/mlpack/core/math/range.hpp`) it uses.

Conventions of the embedding.

* A `double` is an exact rational number: rounding, infinities and NaN are not
  modelled.  A finite `double` has absolute value at most `DBL_MAX`.
* `arma::vec` and the `bounds_` array are lists; `v[i]` is `v.getD i 0`.
  The theorems assume the lengths that make the indices of the source valid
  wherever the result depends on them.
* The template parameter `t_pow` is 2, as in every instantiation the source
  names (`PeriodicHRectBound<2>`).
* `abs` and `fabs` are the absolute value of a `double`; `fmod` is the C
  remainder, with the sign of its first argument.
* `Log::Assert` is the assertion of a debug build: a function that asserts
  returns an `Option`, and `none` is the failed assertion.
* Loops are folds over `List.range`; the variables a loop body assigns are
  carried as the fold's state.

Further parts embed the ball bound and the binary space tree (from their
description, their sources being absent), `RemoveRows` of
`src/mlpack/methods/sparse_coding/sparse_coding.cpp`,
`MaxVarianceNewCluster::EmptyCluster` of
`src/mlpack/methods/kmeans/max_variance_new_cluster.cpp`, and the test
functions of
`src/mlpack/core/optimizers/aug_lagrangian/aug_lagrangian_test_functions.cc`.
-/

namespace mlpack

/-- The largest finite `double`, `DBL_MAX = 2^1024 - 2^971`. -/
def DBL_MAX : ℚ := 2 ^ 1024 - 2 ^ 971

/-- A coordinate is a finite `double` when its absolute value is at most `DBL_MAX`. -/
def IsDouble (x : ℚ) : Prop := |x| ≤ DBL_MAX

/-- The metric exponent `t_pow` of `PeriodicHRectBound<t_pow>`. -/
def t_pow : ℕ := 2

/-- The call `pow(x, (double) t_pow)`. -/
def powT (x : ℚ) : ℚ := x ^ t_pow

/-- The call `pow(s, 2.0 / (double) t_pow)`; for `t_pow = 2` the exponent is 1. -/
def powInvT (s : ℚ) : ℚ := s ^ (2 / t_pow)

/-- Rounding towards zero, the integer part used by C `fmod`. -/
def trunc (q : ℚ) : ℤ := if 0 ≤ q then ⌊q⌋ else ⌈q⌉

/-- C `fmod(x, y)`: `x - n * y` with `n` the quotient `x / y` rounded towards zero. -/
def fmod (x y : ℚ) : ℚ := x - (trunc (x / y) : ℚ) * y

namespace math

/-- The class `Range` of range.hpp: a lower and an upper bound. -/
structure Range where
  /-- The lower bound. -/
  lo : ℚ
  /-- The upper bound. -/
  hi : ℚ
deriving DecidableEq

namespace Range

/-- Modelled from the spec: `Range::Range()` is declared in range.hpp
("Initialize to an empty set (where lo > hi)") and defined in range.cpp, which
is missing.  The spec gives it as `lo = +∞, hi = -∞` conceptually, realised as
`lo > hi`; over finite doubles these are `DBL_MAX` and `-DBL_MAX`. -/
def empty : Range := ⟨DBL_MAX, -DBL_MAX⟩

/-- Modelled from the spec: `Range::operator|=(const Range&)` (range.cpp is
missing): `lo := min(lo, rhs.lo)`, `hi := max(hi, rhs.hi)`. -/
def orEq (r rhs : Range) : Range := ⟨min r.lo rhs.lo, max r.hi rhs.hi⟩

/-- Modelled from the spec: `Range::Range(const double point)` (range.cpp is
missing; range.hpp documents it as `lo = point, hi = point`), the conversion
that `bounds_[i] |= vector[i]` applies to the coordinate. -/
def ofPoint (point : ℚ) : Range := ⟨point, point⟩

/-- Modelled from the spec: `Range::Contains(const double)` (range.cpp is
missing): true iff `lo <= d <= hi`. -/
def Contains (r : Range) (d : ℚ) : Bool := decide (r.lo ≤ d) && decide (d ≤ r.hi)

/-- Modelled from the spec: `Range::Width()` (range.cpp is missing; range.hpp
documents it as "the span of the range (hi - lo)"); the spec gives it as
returning `hi - lo` unconditionally, negative for an empty interval. -/
def Width (r : Range) : ℚ := r.hi - r.lo

/-- Modelled from the spec: `Range::Mid()` (range.cpp is missing):
`(lo + hi) / 2`. -/
def Mid (r : Range) : ℚ := (r.lo + r.hi) / 2

/-- Modelled from the spec: `Range::operator|(const Range&)` (range.cpp is
missing): the range with `lo := min(lo, rhs.lo)`, `hi := max(hi, rhs.hi)`. -/
def orOp (r rhs : Range) : Range := ⟨min r.lo rhs.lo, max r.hi rhs.hi⟩

/-- Modelled from the spec: `Range::operator&(const Range&)` (range.cpp is
missing): the range with `lo := max(lo, rhs.lo)`, `hi := min(hi, rhs.hi)`. -/
def andOp (r rhs : Range) : Range := ⟨max r.lo rhs.lo, min r.hi rhs.hi⟩

/-- Modelled from the spec: `Range::operator<(const Range&)` (range.cpp is
missing): true iff `hi < rhs.lo`. -/
def lt (r rhs : Range) : Bool := decide (r.hi < rhs.lo)

/-- Modelled from the spec: `Range::operator>(const Range&)` (range.cpp is
missing): true iff `lo > rhs.hi`. -/
def gt (r rhs : Range) : Bool := decide (r.lo > rhs.hi)

/-- Modelled from the spec: `Range::Contains(const Range&)` (range.cpp is
missing): true iff the two intervals overlap,
`lo <= other.hi && other.lo <= hi`. -/
def ContainsRange (r other : Range) : Bool :=
  decide (r.lo ≤ other.hi) && decide (other.lo ≤ r.hi)

end Range

end math

namespace bound

open math

/-- The data members of `PeriodicHRectBound`: the interval array `bounds_`, the
dimension `dim_` and the box size (period vector) `box_`. -/
structure PeriodicHRectBound where
  /-- One `Range` per axis. -/
  bounds_ : List Range
  /-- The dimension. -/
  dim_ : ℕ
  /-- The period of every axis; 0 means no wrapping. -/
  box_ : List ℚ

namespace PeriodicHRectBound

/-- The `operator[]` of the source: `bounds_[i]`. -/
def get (b : PeriodicHRectBound) (i : ℕ) : Range := b.bounds_.getD i Range.empty

/-- The constructor `PeriodicHRectBound(arma::vec box)`: `box.n_rows` default
ranges. -/
def ofBox (box : List ℚ) : PeriodicHRectBound :=
  { bounds_ := List.replicate box.length Range.empty, dim_ := box.length, box_ := box }

/-- The copy constructor: `dim_` default ranges, each then united with the
range of `other` on the same axis. -/
def copy (other : PeriodicHRectBound) : PeriodicHRectBound :=
  { bounds_ := (List.range other.dim_).foldl
      (fun bs i => bs.set i ((bs.getD i Range.empty).orEq (other.get i)))
      (List.replicate other.dim_ Range.empty),
    dim_ := other.dim_,
    box_ := other.box_ }

/-- Sets `bounds_[i].Lo()`, as `a[i].Lo() = x` does. -/
def setLo (b : PeriodicHRectBound) (i : ℕ) (x : ℚ) : PeriodicHRectBound :=
  { b with bounds_ := b.bounds_.set i ⟨x, (b.get i).hi⟩ }

/-- Sets `bounds_[i].Hi()`, as `a[i].Hi() = x` does. -/
def setHi (b : PeriodicHRectBound) (i : ℕ) (x : ℚ) : PeriodicHRectBound :=
  { b with bounds_ := b.bounds_.set i ⟨(b.get i).lo, x⟩ }

/-- The class invariant the constructors establish: `bounds_` and `box_` both
have `dim_` entries. -/
def WF (b : PeriodicHRectBound) : Prop :=
  b.bounds_.length = b.dim_ ∧ b.box_.length = b.dim_

/-- Every interval end of the bound is a finite `double`. -/
def Finite (b : PeriodicHRectBound) : Prop :=
  ∀ i, i < b.dim_ → IsDouble (b.get i).lo ∧ IsDouble (b.get i).hi

/-- Every period is 0: the plain, non-periodic bound. -/
def Plain (b : PeriodicHRectBound) : Prop :=
  ∀ i, i < b.dim_ → b.box_.getD i 0 = 0

/-- No axis holds an empty interval. -/
def NonEmpty (b : PeriodicHRectBound) : Prop :=
  ∀ i, i < b.dim_ → (b.get i).lo ≤ (b.get i).hi

instance (x : ℚ) : Decidable (IsDouble x) := by
  unfold IsDouble; infer_instance

instance (b : PeriodicHRectBound) : Decidable b.WF := by
  unfold WF; infer_instance

instance (b : PeriodicHRectBound) : Decidable b.Finite := by
  unfold Finite; infer_instance

instance (b : PeriodicHRectBound) : Decidable b.Plain := by
  unfold Plain; infer_instance

instance (b : PeriodicHRectBound) : Decidable b.NonEmpty := by
  unfold NonEmpty; infer_instance

/-- The statement `if (box[i] < 0) box[i] = abs(box[i]);` shared by the four
distance functions. -/
def absBox (box : List ℚ) (i : ℕ) : List ℚ :=
  if box.getD i 0 < 0 then box.set i |box.getD i 0| else box

/-- The coordinate folding of the point forms:
`if (box[i] != 0) if (abs(point[i]) > box[i]) point2[i] = fmod(point2[i], box[i]);`
applied to `point2 = point`. -/
def foldPoint (box point : List ℚ) (i : ℕ) : List ℚ :=
  if box.getD i 0 ≠ 0 then
    if |point.getD i 0| > box.getD i 0 then
      point.set i (fmod (point.getD i 0) (box.getD i 0))
    else point
  else point

/-- The image `point3` of the `k` loop: `point2` itself for `k = 0`, shifted by
`+box[i]` for `k = 1` and by `-box[i]` for `k = 2`. -/
def shiftPoint (box point2 : List ℚ) (i k : ℕ) : List ℚ :=
  if k = 1 then point2.set i (point2.getD i 0 + box.getD i 0)
  else if k = 2 then point2.set i (point2.getD i 0 - box.getD i 0)
  else point2

/-- The expression `pow((x + fabs(x)) + (y + fabs(y)), t_pow)` added to a sum
that starts at 0, then `pow(sum, 2.0 / t_pow) / 4.0`: the value `tempMin` of the
unsplit case, for `lower = x` and `higher = y`. -/
def minTerm (lower higher : ℚ) : ℚ :=
  let sum := 0 + powT ((lower + |lower|) + (higher + |higher|))
  powInvT sum / 4

/-- The body of the `k` loop of `MinDistance(const arma::vec&)`; the state is
`min`. -/
def MinDistance.image (b : PeriodicHRectBound) (box point2 : List ℚ) (i : ℕ)
    (min : ℚ) (k : ℕ) : ℚ :=
  let point3 := shiftPoint box point2 i k
  let lower := (b.get i).lo - point3.getD i 0
  let higher := point3.getD i 0 - (b.get i).hi
  let tempMin := minTerm lower higher
  if tempMin < min then tempMin else min

/-- The body of the `i` loop of `MinDistance(const arma::vec&)`; the state is
`(totalMin, box)`. -/
def MinDistance.axis (b : PeriodicHRectBound) (point : List ℚ) (st : ℚ × List ℚ)
    (i : ℕ) : ℚ × List ℚ :=
  let box := absBox st.2 i
  let point2 := foldPoint box point i
  let min := (List.range 3).foldl (MinDistance.image b box point2 i) 100000000
  (st.1 + min, box)

/-- The function `PeriodicHRectBound::MinDistance(const arma::vec& point)`. -/
def MinDistance (b : PeriodicHRectBound) (point : List ℚ) : ℚ :=
  ((List.range b.dim_).foldl (MinDistance.axis b point) (0, b.box_)).1

/-- The folding of the other bound's interval, shared by the bound forms:
`if (box[i] != 0) { if (abs(other[i].Lo()) > box[i]) a[i].Lo() = fmod(a[i].Lo(), box[i]);`
` if (abs(other[i].Hi()) > box[i]) a[i].Hi() = fmod(a[i].Hi(), box[i]); }`. -/
def foldBound (box : List ℚ) (other a : PeriodicHRectBound) (i : ℕ) : PeriodicHRectBound :=
  if box.getD i 0 ≠ 0 then
    let a1 :=
      if |(other.get i).lo| > box.getD i 0 then
        a.setLo i (fmod (a.get i).lo (box.getD i 0))
      else a
    if |(other.get i).hi| > box.getD i 0 then
      a1.setHi i (fmod (a1.get i).hi (box.getD i 0))
    else a1
  else a

/-- The image `b` of the `k` loop of the bound forms: a copy of `a`, with both
ends of axis `i` shifted by `+box[i]` for `k = 1` and by `-box[i]` for `k = 2`. -/
def shiftBound (box : List ℚ) (a : PeriodicHRectBound) (i k : ℕ) : PeriodicHRectBound :=
  let b := a.copy
  if k = 1 then
    let b1 := b.setLo i ((b.get i).lo + box.getD i 0)
    b1.setHi i ((b1.get i).hi + box.getD i 0)
  else if k = 2 then
    let b1 := b.setLo i ((b.get i).lo - box.getD i 0)
    b1.setHi i ((b1.get i).hi - box.getD i 0)
  else b

/-- The split case of `MinDistance(const PeriodicHRectBound&)`: the image `b`
has `Hi() < Lo()` on axis `i`, is cut into `d` and `c`, and `tempMin` comes from
the smaller of the two sums. -/
def MinDistanceBound.split (self : PeriodicHRectBound) (box : List ℚ)
    (b : PeriodicHRectBound) (i k : ℕ) : ℚ :=
  let d := b.copy
  let c := b.copy
  let d := d.setLo i 0
  let c := c.setHi i (box.getD i 0)
  let d := if k = 1 then d.setLo i ((d.get i).lo + box.getD i 0)
           else if k = 2 then d.setLo i ((d.get i).lo - box.getD i 0) else d
  let c := if k = 1 then c.setHi i ((c.get i).hi + box.getD i 0)
           else if k = 2 then c.setHi i ((c.get i).hi - box.getD i 0) else c
  let d := d.setHi i (b.get i).hi
  let c := c.setLo i (b.get i).lo
  let lowerLower := (d.get i).lo - (self.get i).hi
  let higherLower := (self.get i).lo - (d.get i).hi
  let lowerHigher := (c.get i).lo - (self.get i).hi
  let higherHigher := (self.get i).lo - (c.get i).hi
  let sumLower := 0 + powT ((lowerLower + |lowerLower|) + (higherLower + |higherLower|))
  let sumHigher := 0 + powT ((lowerHigher + |lowerHigher|) + (higherHigher + |higherHigher|))
  if sumLower > sumHigher then powInvT sumHigher / 4 else powInvT sumLower / 4

/-- The body of the `k` loop of `MinDistance(const PeriodicHRectBound&)`; the
state is `min`. -/
def MinDistanceBound.image (self : PeriodicHRectBound) (box : List ℚ)
    (a : PeriodicHRectBound) (i : ℕ) (min : ℚ) (k : ℕ) : ℚ :=
  let b := shiftBound box a i k
  let tempMin :=
    if (b.get i).hi < (b.get i).lo then MinDistanceBound.split self box b i k
    else minTerm ((b.get i).lo - (self.get i).hi) ((self.get i).lo - (b.get i).hi)
  if tempMin < min then tempMin else min

/-- The body of the `i` loop of `MinDistance(const PeriodicHRectBound&)`; the
state is `(totalMin, box, a)`. -/
def MinDistanceBound.axis (self other : PeriodicHRectBound)
    (st : ℚ × List ℚ × PeriodicHRectBound) (i : ℕ) : ℚ × List ℚ × PeriodicHRectBound :=
  let box := absBox st.2.1 i
  let a := foldBound box other st.2.2 i
  let min := (List.range 3).foldl (MinDistanceBound.image self box a i) 100000000
  (st.1 + min, box, a)

/-- The function `PeriodicHRectBound::MinDistance(const PeriodicHRectBound& other)`. -/
def MinDistanceBound (self other : PeriodicHRectBound) : ℚ :=
  ((List.range self.dim_).foldl (MinDistanceBound.axis self other)
    (0, self.box_, other.copy)).1

/-- The value `tempMax` of `MaxDistance(const arma::vec&)` for the image
coordinate `x`: `v = fabs(std::max(x - Lo(), Hi() - x))`, added as
`pow(v, t_pow)` to a sum that starts at 0, then `pow(sum, 2.0 / t_pow) / 4.0`. -/
def maxTermPoint (r : Range) (x : ℚ) : ℚ :=
  let v := |max (x - r.lo) (r.hi - x)|
  let sum := 0 + powT v
  powInvT sum / 4

/-- The body of the `k` loop of `MaxDistance(const arma::vec&)`; the state is
`max`. -/
def MaxDistance.image (b : PeriodicHRectBound) (box point2 : List ℚ) (i : ℕ)
    (max : ℚ) (k : ℕ) : ℚ :=
  let point3 := shiftPoint box point2 i k
  let tempMax := maxTermPoint (b.get i) (point3.getD i 0)
  if tempMax > max then tempMax else max

/-- The body of the `i` loop of `MaxDistance(const arma::vec&)`; the state is
`(totalMax, box)`. -/
def MaxDistance.axis (b : PeriodicHRectBound) (point : List ℚ) (st : ℚ × List ℚ)
    (i : ℕ) : ℚ × List ℚ :=
  let box := absBox st.2 i
  let point2 := foldPoint box point i
  let max := (List.range 3).foldl (MaxDistance.image b box point2 i) 0
  (st.1 + max, box)

/-- The function `PeriodicHRectBound::MaxDistance(const arma::vec& point)`. -/
def MaxDistance (b : PeriodicHRectBound) (point : List ℚ) : ℚ :=
  ((List.range b.dim_).foldl (MaxDistance.axis b point) (0, b.box_)).1

/-- The expression `fabs(std::max(o.Hi() - Lo(), Hi() - o.Lo()))` of
`MaxDistance(const PeriodicHRectBound&)`, for this bound's range `r` and the
other range `o`. -/
def maxV (r o : Range) : ℚ := |max (o.hi - r.lo) (r.hi - o.lo)|

/-- The split case of `MaxDistance(const PeriodicHRectBound&)`.  The source
declares `sumLower` and `sumHigher` without a value and adds to them; `u` holds
the values they start with.  Unlike the minimum form it assigns `a[i].Lo() = 0`
and leaves `d[i].Lo()` as copied.  The result is `(tempMax, a)`. -/
def MaxDistanceBound.split (self : PeriodicHRectBound) (box : List ℚ)
    (a b : PeriodicHRectBound) (i k : ℕ) (u : ℚ × ℚ) : ℚ × PeriodicHRectBound :=
  let d := b.copy
  let c := b.copy
  let a := a.setLo i 0
  let c := c.setHi i (box.getD i 0)
  let d := if k = 1 then d.setLo i ((d.get i).lo + box.getD i 0)
           else if k = 2 then d.setLo i ((d.get i).lo - box.getD i 0) else d
  let c := if k = 1 then c.setHi i ((c.get i).hi + box.getD i 0)
           else if k = 2 then c.setHi i ((c.get i).hi - box.getD i 0) else c
  let d := d.setHi i (b.get i).hi
  let c := c.setLo i (b.get i).lo
  let vLower := maxV (self.get i) (d.get i)
  let vHigher := maxV (self.get i) (c.get i)
  let sumLower := u.1 + powT vLower
  let sumHigher := u.2 + powT vHigher
  (if sumLower > sumHigher then powInvT sumHigher / 4 else powInvT sumLower / 4, a)

/-- The body of the `k` loop of `MaxDistance(const PeriodicHRectBound&)`; the
state is `(max, a)`, and `u` holds the values the uninitialised sums start
with.  The unsplit case does not divide by 4. -/
def MaxDistanceBound.image (self : PeriodicHRectBound) (box : List ℚ) (i : ℕ)
    (u : ℕ → ℚ × ℚ) (st : ℚ × PeriodicHRectBound) (k : ℕ) : ℚ × PeriodicHRectBound :=
  let b := shiftBound box st.2 i k
  let res : ℚ × PeriodicHRectBound :=
    if (b.get i).hi < (b.get i).lo then MaxDistanceBound.split self box st.2 b i k (u k)
    else (powInvT (0 + powT (maxV (self.get i) (b.get i))), st.2)
  (if res.1 > st.1 then res.1 else st.1, res.2)

/-- The body of the `i` loop of `MaxDistance(const PeriodicHRectBound&)`; the
state is `(totalMax, box, a)`. -/
def MaxDistanceBound.axis (self other : PeriodicHRectBound) (u : ℕ → ℕ → ℚ × ℚ)
    (st : ℚ × List ℚ × PeriodicHRectBound) (i : ℕ) : ℚ × List ℚ × PeriodicHRectBound :=
  let box := absBox st.2.1 i
  let a := foldBound box other st.2.2 i
  let res := (List.range 3).foldl (MaxDistanceBound.image self box i (u i)) (0, a)
  (st.1 + res.1, box, res.2)

/-- The function `PeriodicHRectBound::MaxDistance(const PeriodicHRectBound& other)`;
`u i k` holds the values the uninitialised `sumLower` and `sumHigher` start with
on axis `i` and image `k`. -/
def MaxDistanceBound (self other : PeriodicHRectBound) (u : ℕ → ℕ → ℚ × ℚ) : ℚ :=
  ((List.range self.dim_).foldl (MaxDistanceBound.axis self other u)
    (0, self.box_, other.copy)).1

/-- The pair `(v_lo, v_hi)` that `RangeDistance(const arma::vec&)` computes on
one axis, for the range `r = bounds_[d]` and the coordinate `x = point[d]`. -/
def RangeDistance.v (r : Range) (x : ℚ) : ℚ × ℚ :=
  let v1 := r.lo - x
  let v2 := x - r.hi
  if v1 ≥ 0 then (v1, -v2) else (v2, -v1)

/-- The body of the loop of `RangeDistance(const arma::vec&)`; the state is
`(sum_lo, sum_hi)`. -/
def RangeDistance.axis (b : PeriodicHRectBound) (point : List ℚ) (st : ℚ × ℚ)
    (d : ℕ) : ℚ × ℚ :=
  let v := RangeDistance.v (b.get d) (point.getD d 0)
  let v_lo := v.1
  let v_hi := v.2
  (st.1 + powT v_lo, st.2 + powT v_hi)

/-- The function `PeriodicHRectBound::RangeDistance(const arma::vec& point)`;
`none` is the failure of `Log::Assert(point.n_elem == dim_)`. -/
def RangeDistance (b : PeriodicHRectBound) (point : List ℚ) : Option Range :=
  if point.length = b.dim_ then
    let s := (List.range b.dim_).foldl (RangeDistance.axis b point) (0, 0)
    some ⟨powInvT s.1, powInvT s.2⟩
  else none

/-- The pair `(v_lo, v_hi)` that `RangeDistance(const PeriodicHRectBound&)`
computes on one axis, for this bound's range `r` and the other bound's range `o`. -/
def RangeDistanceBound.v (r o : Range) : ℚ × ℚ :=
  let v1 := o.lo - r.hi
  let v2 := r.lo - o.hi
  if v1 ≥ v2 then (if v1 > 0 then v1 else 0, -v2)
  else (if v2 > 0 then v2 else 0, -v1)

/-- The body of the loop of `RangeDistance(const PeriodicHRectBound&)`; the
state is `(sum_lo, sum_hi)`. -/
def RangeDistanceBound.axis (self other : PeriodicHRectBound) (st : ℚ × ℚ)
    (d : ℕ) : ℚ × ℚ :=
  let v := RangeDistanceBound.v (self.get d) (other.get d)
  let v_lo := v.1
  let v_hi := v.2
  (st.1 + powT v_lo, st.2 + powT v_hi)

/-- The function `PeriodicHRectBound::RangeDistance(const PeriodicHRectBound& other)`;
`none` is the failure of `Log::Assert(dim_ == other.dim_)`. -/
def RangeDistanceBound (self other : PeriodicHRectBound) : Option Range :=
  if self.dim_ = other.dim_ then
    let s := (List.range self.dim_).foldl (RangeDistanceBound.axis self other) (0, 0)
    some ⟨powInvT s.1, powInvT s.2⟩
  else none

/-- The function `PeriodicHRectBound::Contains(const arma::vec& point)`: false at
the first axis `i < point.n_elem` whose range does not contain `point(i)`. -/
def Contains (b : PeriodicHRectBound) (point : List ℚ) : Bool :=
  (List.range point.length).all (fun i => (b.get i).Contains (point.getD i 0))

/-- The empty constructor `PeriodicHRectBound()`: no ranges (`bounds_(NULL)`),
`dim_(0)` and an empty `box_`. -/
def construct : PeriodicHRectBound := { bounds_ := [], dim_ := 0, box_ := [] }

/-- The copy operator `operator=(const PeriodicHRectBound& other)`: its body is
the comment `not done yet` and `return *this;`, so this bound is returned as it
is. -/
def assign (self _other : PeriodicHRectBound) : PeriodicHRectBound := self

/-- The function `PeriodicHRectBound::Clear()`: `bounds_[i] = math::Range()` for
every `i < dim_`. -/
def Clear (b : PeriodicHRectBound) : PeriodicHRectBound :=
  { bounds_ := (List.range b.dim_).foldl (fun bs i => bs.set i Range.empty) b.bounds_,
    dim_ := b.dim_,
    box_ := b.box_ }

/-- The operator `operator|=(const arma::vec& vector)`:
`bounds_[i] |= vector[i]` for every `i < dim_`; `none` is the failure of
`Log::Assert(vector.n_elem == dim_)`. -/
def orEqPoint (b : PeriodicHRectBound) (vector : List ℚ) : Option PeriodicHRectBound :=
  if vector.length = b.dim_ then
    some { bounds_ := (List.range b.dim_).foldl
             (fun bs i =>
               bs.set i ((bs.getD i Range.empty).orEq (Range.ofPoint (vector.getD i 0))))
             b.bounds_,
           dim_ := b.dim_,
           box_ := b.box_ }
  else none

/-- The operator `operator|=(const PeriodicHRectBound& other)`:
`bounds_[i] |= other.bounds_[i]` for every `i < dim_`; `none` is the failure of
`Log::Assert(other.dim_ == dim_)`.  The argument `other` is a const reference:
the call cannot change it, and the embedding returns the new value of this
bound only. -/
def orEqBound (b other : PeriodicHRectBound) : Option PeriodicHRectBound :=
  if other.dim_ = b.dim_ then
    some { bounds_ := (List.range b.dim_).foldl
             (fun bs i => bs.set i ((bs.getD i Range.empty).orEq (other.get i)))
             b.bounds_,
           dim_ := b.dim_,
           box_ := b.box_ }
  else none

/-- The function `PeriodicHRectBound::Centroid(arma::vec& centroid)`: the
vector is given `dim_` entries by `set_size` when it has another size, then
`centroid(i) = bounds_[i].Mid()` for every `i < dim_`.  `set_size` leaves the
entries without a value; `junk i` is what entry `i` holds then.  The result is
the vector after the call. -/
def Centroid (b : PeriodicHRectBound) (centroid : List ℚ) (junk : ℕ → ℚ) : List ℚ :=
  let sized := if ¬ (centroid.length = b.dim_) then (List.range b.dim_).map junk else centroid
  (List.range b.dim_).foldl (fun c i => c.set i (b.get i).Mid) sized

end PeriodicHRectBound

/-- The bound `{[0,2],[1,5],[-2,2],[-5,-2],[1,2]}` of the tests, with every
period 0. -/
def testBound : PeriodicHRectBound :=
  { bounds_ := [⟨0, 2⟩, ⟨1, 5⟩, ⟨-2, 2⟩, ⟨-5, -2⟩, ⟨1, 2⟩],
    dim_ := 5,
    box_ := [0, 0, 0, 0, 0] }

/-- The bound `{[-5,-2],[6,7],[-2,2],[2,5],[3,4]}` of the tests, with every
period 0. -/
def testBoundC : PeriodicHRectBound :=
  { bounds_ := [⟨-5, -2⟩, ⟨6, 7⟩, ⟨-2, 2⟩, ⟨2, 5⟩, ⟨3, 4⟩],
    dim_ := 5,
    box_ := [0, 0, 0, 0, 0] }

/-- The query point `(-2, 0, 10, 3, 3)` of the tests. -/
def testPoint : List ℚ := [-2, 0, 10, 3, 3]

/-- The 1-dimension bound `{[0,0]}` with period 0. -/
def originBound : PeriodicHRectBound := { bounds_ := [⟨0, 0⟩], dim_ := 1, box_ := [0] }

/-- The 1-dimension bound `{[20000,20000]}` with period 0. -/
def farBound : PeriodicHRectBound :=
  { bounds_ := [⟨20000, 20000⟩], dim_ := 1, box_ := [0] }

/-- The 1-dimension bound `{[0,2]}` with period 0. -/
def segmentBound : PeriodicHRectBound := { bounds_ := [⟨0, 2⟩], dim_ := 1, box_ := [0] }

/-- The 1-dimension bound `{[5,5]}` with period 1: it lies outside `[0, 1]`. -/
def offCellBound : PeriodicHRectBound := { bounds_ := [⟨5, 5⟩], dim_ := 1, box_ := [1] }

/-- The 2-dimension bound `{[1,3],[0,4]}` with periods 10 and 0. -/
def cellBound : PeriodicHRectBound :=
  { bounds_ := [⟨1, 3⟩, ⟨0, 4⟩], dim_ := 2, box_ := [10, 0] }

/-- The 1-dimension bound `{[0,0]}` with period 1: a single point in its cell. -/
def pointCellBound : PeriodicHRectBound := { bounds_ := [⟨0, 0⟩], dim_ := 1, box_ := [1] }

/-- The 1-dimension bound `{[3,3]}` with period 0: a single point, not periodic. -/
def pointBound : PeriodicHRectBound := { bounds_ := [⟨3, 3⟩], dim_ := 1, box_ := [0] }

/-- The 2-dimension bound `{[2,3],[0,1]}` with periods 4 and 5. -/
def torusBound : PeriodicHRectBound :=
  { bounds_ := [⟨2, 3⟩, ⟨0, 1⟩], dim_ := 2, box_ := [4, 5] }

/-- The 1-dimension bound `{[9,10]}` with period 10, at the upper edge of its cell. -/
def edgeBound : PeriodicHRectBound := { bounds_ := [⟨9, 10⟩], dim_ := 1, box_ := [10] }

/-- The bound `{[0,2],[0,2],[0,2]}` of the containment test, with every period 0. -/
def cubeBound : PeriodicHRectBound :=
  { bounds_ := [⟨0, 2⟩, ⟨0, 2⟩, ⟨0, 2⟩], dim_ := 3, box_ := [0, 0, 0] }

/-- The bound `{[1,3],[2,4],[-2,-1],[0,0],Range()}` of the point expansion test,
with every period 0. -/
def expandBound : PeriodicHRectBound :=
  { bounds_ := [⟨1, 3⟩, ⟨2, 4⟩, ⟨-2, -1⟩, ⟨0, 0⟩, Range.empty],
    dim_ := 5,
    box_ := [0, 0, 0, 0, 0] }

/-- The point `(2, 4, 2, -1, 6)` of the point expansion test. -/
def expandPoint : List ℚ := [2, 4, 2, -1, 6]

/-- The bound `b` of the bound expansion test, with every period 0. -/
def unionBoundB : PeriodicHRectBound :=
  { bounds_ := [⟨1, 3⟩, ⟨2, 4⟩, ⟨-2, -1⟩, ⟨4, 5⟩, ⟨2, 4⟩, ⟨0, 0⟩, Range.empty, ⟨1, 3⟩],
    dim_ := 8,
    box_ := [0, 0, 0, 0, 0, 0, 0, 0] }

/-- The bound `c` of the bound expansion test, with every period 0. -/
def unionBoundC : PeriodicHRectBound :=
  { bounds_ := [⟨-3, -1⟩, ⟨0, 2⟩, ⟨-3, -3 / 2⟩, ⟨4, 5⟩, ⟨1, 5⟩, ⟨2, 2⟩, ⟨1, 3⟩, Range.empty],
    dim_ := 8,
    box_ := [0, 0, 0, 0, 0, 0, 0, 0] }

/-- The bound `{[0,2],[2,3]}` of the copy and assignment tests, with periods 0. -/
def twoBound : PeriodicHRectBound :=
  { bounds_ := [⟨0, 2⟩, ⟨2, 3⟩], dim_ := 2, box_ := [0, 0] }

/-- The bound `{[0,5],[-2,-1],[-10,50]}` of the centroid test, with every
period 0. -/
def centroidBound : PeriodicHRectBound :=
  { bounds_ := [⟨0, 5⟩, ⟨-2, -1⟩, ⟨-10, 50⟩], dim_ := 3, box_ := [0, 0, 0] }

/-- The garbage-free start `(0, 0)` of the uninitialised sums, for evaluation. -/
def zeroInit : ℕ → ℕ → ℚ × ℚ := fun _ _ => (0, 0)

open PeriodicHRectBound

/-! ### Per-axis values

Iteration `i` of each distance loop reads and writes entry `i` of `box`, of the
point and of the bounds only.  The definitions below give, on scalars, what one
iteration contributes; the lemmas of the next part show that the loops above
compute exactly these. -/

/-- The coordinate `point2[i]` after folding, for the period `B = box[i]`. -/
def foldCoord (B v : ℚ) : ℚ :=
  if B ≠ 0 then (if |v| > B then fmod v B else v) else v

/-- The coordinate of image `k`: unshifted, `+B`, `-B`. -/
def shiftCoord (B x : ℚ) (k : ℕ) : ℚ :=
  if k = 1 then x + B else if k = 2 then x - B else x

/-- What axis `i` adds to `totalMin` in `MinDistance(const arma::vec&)`, for the
range `r = bounds_[i]`, the period `P = box_[i]` and the coordinate
`v = point[i]`. -/
def minAxisPoint (r : Range) (P v : ℚ) : ℚ :=
  (List.range 3).foldl (fun m k =>
    let x := shiftCoord |P| (foldCoord |P| v) k
    let t := minTerm (r.lo - x) (x - r.hi)
    if t < m then t else m) 100000000

/-- What axis `i` adds to `totalMax` in `MaxDistance(const arma::vec&)`. -/
def maxAxisPoint (r : Range) (P v : ℚ) : ℚ :=
  (List.range 3).foldl (fun m k =>
    let t := maxTermPoint r (shiftCoord |P| (foldCoord |P| v) k)
    if t > m then t else m) 0

/-- The range `a[i]` after folding, for the period `B`, the other bound's range
`o` (which the tests read) and the current `a[i]`. -/
def foldRange (B : ℚ) (o a : Range) : Range :=
  if B ≠ 0 then
    let a1 : Range := if |o.lo| > B then ⟨fmod a.lo B, a.hi⟩ else a
    if |o.hi| > B then ⟨a1.lo, fmod a1.hi B⟩ else a1
  else a

/-- The range `b[i]` of image `k`: the copy of `a[i]`, shifted. -/
def shiftRange (B : ℚ) (a : Range) (k : ℕ) : Range :=
  let b := Range.empty.orEq a
  if k = 1 then ⟨b.lo + B, b.hi + B⟩ else if k = 2 then ⟨b.lo - B, b.hi - B⟩ else b

/-- The value `tempMin` of the split case of the minimum bound form, on the
ranges of axis `i`. -/
def minSplit (r : Range) (B : ℚ) (b : Range) (k : ℕ) : ℚ :=
  let d : Range := ⟨shiftCoord B 0 k, b.hi⟩
  let c : Range := ⟨b.lo, shiftCoord B B k⟩
  let lowerLower := d.lo - r.hi
  let higherLower := r.lo - d.hi
  let lowerHigher := c.lo - r.hi
  let higherHigher := r.lo - c.hi
  let sumLower := 0 + powT ((lowerLower + |lowerLower|) + (higherLower + |higherLower|))
  let sumHigher := 0 + powT ((lowerHigher + |lowerHigher|) + (higherHigher + |higherHigher|))
  if sumLower > sumHigher then powInvT sumHigher / 4 else powInvT sumLower / 4

/-- One image of the minimum bound form on the ranges of axis `i`. -/
def minImageBound (r : Range) (B : ℚ) (a : Range) (m : ℚ) (k : ℕ) : ℚ :=
  let b := shiftRange B a k
  let t := if b.hi < b.lo then minSplit r B b k
           else minTerm (b.lo - r.hi) (r.lo - b.hi)
  if t < m then t else m

/-- What axis `i` adds to `totalMin` in `MinDistance(const PeriodicHRectBound&)`,
for `r = bounds_[i]`, `P = box_[i]`, `o = other[i]` and the current `a[i]`. -/
def minAxisBound (r : Range) (P : ℚ) (o a : Range) : ℚ :=
  (List.range 3).foldl (minImageBound r |P| (foldRange |P| o a)) 100000000

/-- One image of the maximum bound form on the ranges of axis `i`; the state is
`(max, a[i])`. -/
def maxImageBound (r : Range) (B : ℚ) (u : ℕ → ℚ × ℚ) (st : ℚ × Range) (k : ℕ) :
    ℚ × Range :=
  let b := shiftRange B st.2 k
  let res : ℚ × Range :=
    if b.hi < b.lo then
      let d : Range := ⟨shiftCoord B (Range.empty.orEq b).lo k, b.hi⟩
      let c : Range := ⟨b.lo, shiftCoord B B k⟩
      let sumLower := (u k).1 + powT (maxV r d)
      let sumHigher := (u k).2 + powT (maxV r c)
      (if sumLower > sumHigher then powInvT sumHigher / 4 else powInvT sumLower / 4,
        ⟨0, st.2.hi⟩)
    else (powInvT (0 + powT (maxV r b)), st.2)
  (if res.1 > st.1 then res.1 else st.1, res.2)

/-- What axis `i` adds to `totalMax` in `MaxDistance(const PeriodicHRectBound&)`. -/
def maxAxisBound (r : Range) (P : ℚ) (o a : Range) (u : ℕ → ℚ × ℚ) : ℚ :=
  ((List.range 3).foldl (maxImageBound r |P| u) (0, foldRange |P| o a)).1

/-- The per-axis gap between a range and a coordinate:
`max(lo - v, v - hi, 0)`. -/
def pointGap (r : Range) (v : ℚ) : ℚ := max (max (r.lo - v) (v - r.hi)) 0

/-- The per-axis gap between two ranges: `max(o.lo - r.hi, r.lo - o.hi, 0)`. -/
def boundGap (r o : Range) : ℚ := max (max (o.lo - r.hi) (r.lo - o.hi)) 0

/-- The gap between a range and the periodic image `v + n * P` of a coordinate,
for an integer `n`. -/
def imageGap (r : Range) (P v : ℚ) (n : ℤ) : ℚ := pointGap r (v + n * P)

/-- The smallest of the gaps of the three images `n = 0, 1, -1`. -/
def nearestGap (r : Range) (P v : ℚ) : ℚ :=
  min (imageGap r P v 0) (min (imageGap r P v 1) (imageGap r P v (-1)))

/-! ### Ball bound

The ball bound is not among the source files; only its test is.  Its distances
go through the Euclidean distance of the centres, a square root, which a
rational number does not have in general.  The ball bound is therefore over an
ordered field `α` with the square root function `sqrt` it is computed with; the
theorems take the real numbers and `Real.sqrt`. -/

/-- Modelled from the spec: the ball bound (its source file is missing):
a centre and a radius, `radius >= 0`. -/
structure BallBound (α : Type) where
  /-- The centre. -/
  center : List α
  /-- The radius. -/
  radius : α

/-- The sum over the axes of the squared coordinate differences of two points:
the square of their Euclidean distance. -/
def distSq {α : Type} [LinearOrderedField α] (x y : List α) : α :=
  (List.zipWith (fun a b => (a - b) ^ 2) x y).sum

namespace BallBound

/-- Modelled from the spec: `MinDistanceSq` to another ball (the source file is
missing): the Euclidean centre-to-centre distance minus `r1 + r2`, clamped at 0,
squared. -/
def MinDistanceSq {α : Type} [LinearOrderedField α] (sqrt : α → α) (b other : BallBound α) :
    α :=
  let delta := sqrt (distSq b.center other.center) - (b.radius + other.radius)
  (if delta < 0 then 0 else delta) ^ 2

/-- Modelled from the spec: `MaxDistanceSq` to another ball (the source file is
missing): the Euclidean centre-to-centre distance plus `r1 + r2`, squared. -/
def MaxDistanceSq {α : Type} [LinearOrderedField α] (sqrt : α → α) (b other : BallBound α) :
    α :=
  let delta := sqrt (distSq b.center other.center) + (b.radius + other.radius)
  delta ^ 2

end BallBound

/-- The first ball of the test: centre `(1,2,3)`, radius 0.3. -/
def ballOne (α : Type) [LinearOrderedField α] : BallBound α :=
  { center := [1, 2, 3], radius := 3 / 10 }

/-- The second ball of the test: centre `(1,2,4)`, radius 0.4. -/
def ballTwo (α : Type) [LinearOrderedField α] : BallBound α :=
  { center := [1, 2, 4], radius := 4 / 10 }

/-- Two balls whose centres `(0,0)` and `(1,1)` are at the distance `√2`, with
radii 1 and 2. -/
def ballDiag (α : Type) [LinearOrderedField α] : BallBound α × BallBound α :=
  ({ center := [0, 0], radius := 1 }, { center := [1, 1], radius := 2 })

end bound

/-! ### Binary space tree

The tree is not among the source files; only its tests are. -/

namespace tree

open math

/-- Modelled from the spec: a node of the binary space-partitioning tree (the
source file is missing): the bound, the point range `[begin, begin + len)` into
the reordered dataset, the cached point count, and either no children (a leaf)
or a left and a right child. -/
inductive BinarySpaceTree where
  | leaf (bound : List Range) (begin_ len count_ : ℕ)
  | node (bound : List Range) (begin_ len count_ : ℕ) (left_ right_ : BinarySpaceTree)

namespace BinarySpaceTree

/-- Modelled from the spec: `count()` returns the cached field. -/
def count : BinarySpaceTree → ℕ
  | leaf _ _ _ c => c
  | node _ _ _ c _ _ => c

/-- Modelled from the spec: `left()`, absent on a leaf. -/
def left : BinarySpaceTree → Option BinarySpaceTree
  | leaf _ _ _ _ => none
  | node _ _ _ _ l _ => some l

/-- Modelled from the spec: `right()`, absent on a leaf. -/
def right : BinarySpaceTree → Option BinarySpaceTree
  | leaf _ _ _ _ => none
  | node _ _ _ _ _ r => some r

/-- The count invariant of the spec: a leaf's count is the length of its point
range, an internal node's count is the sum of its children's counts, and so on
below. -/
def CountsOK : BinarySpaceTree → Prop
  | leaf _ _ len c => c = len
  | node _ _ _ c l r => c = l.count + r.count ∧ CountsOK l ∧ CountsOK r

end BinarySpaceTree

/-- Modelled from the spec: the bound "enclosing every point": on each of the
`dim` axes the default empty range united with the coordinate of every point. -/
def enclose (dim : ℕ) (pts : List (List ℚ)) : List Range :=
  (List.range dim).map fun d =>
    pts.foldl (fun r p => r.orEq (Range.ofPoint (p.getD d 0))) Range.empty

/-- Modelled from the spec: the split axis, the first axis of largest range. -/
def splitAxis (bound : List Range) : ℕ :=
  (List.range bound.length).foldl
    (fun best d =>
      if (bound.getD d Range.empty).Width > (bound.getD best Range.empty).Width then d
      else best) 0

/-- Modelled from the spec: construction of the node over the points `pts`
(each with the index it had in the original dataset) that start at position
`begin_`.  The node is a leaf when the point count is at most the leaf size or
when the split would leave one side empty; otherwise the points are reordered
stably, those whose coordinate on the split axis is below the midpoint of that
axis first, and both sides are built in turn.  The result is the node and the
reordered points.  `fuel` bounds the depth of the recursion; `none` means it
ran out. -/
def buildAux : ℕ → ℕ → ℕ → ℕ → List (ℕ × List ℚ) →
    Option (BinarySpaceTree × List (ℕ × List ℚ))
  | 0, _, _, _, _ => none
  | fuel + 1, leafSize, dim, begin_, pts =>
    let bound := enclose dim (pts.map Prod.snd)
    if pts.length ≤ leafSize then
      some (BinarySpaceTree.leaf bound begin_ pts.length pts.length, pts)
    else
      let d := splitAxis bound
      let v := (bound.getD d Range.empty).Mid
      let l := pts.filter fun p => decide (p.2.getD d 0 < v)
      let r := pts.filter fun p => !decide (p.2.getD d 0 < v)
      if l.isEmpty || r.isEmpty then
        some (BinarySpaceTree.leaf bound begin_ pts.length pts.length, pts)
      else
        match buildAux fuel leafSize dim begin_ l,
            buildAux fuel leafSize dim (begin_ + l.length) r with
        | some (tl, pl), some (tr, pr) =>
          some (BinarySpaceTree.node bound begin_ pts.length pts.length tl tr, pl ++ pr)
        | _, _ => none

/-- What tree construction returns: the root, the reordered dataset, and the
two index maps. -/
structure Built where
  /-- The root node. -/
  root : BinarySpaceTree
  /-- The dataset after construction, one column per entry. -/
  dataset : List (List ℚ)
  /-- For each new position, the position the column had. -/
  newToOld : List ℕ
  /-- For each old position, the position the column has now. -/
  oldToNew : List ℕ

/-- Modelled from the spec: tree construction over a dataset of `n_rows`-dimension
columns with a leaf size: the root built over all columns, the reordered
columns, the map from new to old positions recorded with the reordering, and its
inverse. -/
def build (n_rows : ℕ) (dataset : List (List ℚ)) (leafSize : ℕ) : Option Built :=
  (buildAux (dataset.length + 1) leafSize n_rows 0 dataset.enum).map fun res =>
    { root := res.1,
      dataset := res.2.map Prod.snd,
      newToOld := res.2.map Prod.fst,
      oldToNew := (List.range dataset.length).map fun i => (res.2.map Prod.fst).indexOf i }

/-- The dataset of the count test: the six columns `(2,3)`, `(5,4)`, `(9,6)`,
`(4,7)`, `(8,1)`, `(7,2)`. -/
def sixPoints : List (List ℚ) := [[2, 3], [5, 4], [9, 6], [4, 7], [8, 1], [7, 2]]

end tree

/-! ### Test functions of the augmented Lagrangian optimizer

`src/mlpack/core/optimizers/aug_lagrangian/aug_lagrangian_test_functions.cc`.
A coordinate matrix that the functions index as `coordinates[k]` is the list of
its elements in storage order; a matrix read column by column is the list of its
columns.  An output argument is the value the function leaves in it. -/

namespace optimization

namespace AugLagrangianTestFunction

/-- The function `AugLagrangianTestFunction::Evaluate`:
`f(x) = 6 x_1^2 + 4 x_1 x_2 + 3 x_2^2`. -/
def Evaluate (coordinates : List ℚ) : ℚ :=
  (6 * (coordinates.getD 0 0) ^ 2) +
    (4 * (coordinates.getD 0 0 * coordinates.getD 1 0)) +
    (3 * (coordinates.getD 1 0) ^ 2)

/-- The function `AugLagrangianTestFunction::Gradient`: `gradient` is given the
size 2 x 1 and both entries are assigned. -/
def Gradient (coordinates : List ℚ) : List ℚ :=
  [12 * coordinates.getD 0 0 + 4 * coordinates.getD 1 0,
    4 * coordinates.getD 0 0 + 6 * coordinates.getD 1 0]

/-- The function `AugLagrangianTestFunction::EvaluateConstraint`: 0 when the
index is not 0, else `c(x) = x_1 + x_2 - 5`. -/
def EvaluateConstraint (index : ℤ) (coordinates : List ℚ) : ℚ :=
  if index ≠ 0 then 0
  else coordinates.getD 0 0 + coordinates.getD 1 0 - 5

/-- The function `AugLagrangianTestFunction::GradientConstraint`:
`gradient.zeros(2, 1)`, then `gradient.ones(2, 1)` when the index is 0. -/
def GradientConstraint (index : ℤ) (_coordinates : List ℚ) : List ℚ :=
  let gradient : List ℚ := List.replicate 2 0
  if index = 0 then List.replicate 2 1 else gradient

end AugLagrangianTestFunction

namespace GockenbachFunction

/-- The function `GockenbachFunction::Evaluate`:
`f(x) = (x_1 - 1)^2 + 2 (x_2 + 2)^2 + 3 (x_3 + 3)^2`. -/
def Evaluate (coordinates : List ℚ) : ℚ :=
  ((coordinates.getD 0 0 - 1) ^ 2) +
    (2 * (coordinates.getD 1 0 + 2) ^ 2) +
    (3 * (coordinates.getD 2 0 + 3) ^ 2)

/-- The function `GockenbachFunction::Gradient`: `gradient` is given the size
3 x 1 and the three entries are assigned. -/
def Gradient (coordinates : List ℚ) : List ℚ :=
  [2 * (coordinates.getD 0 0 - 1),
    4 * (coordinates.getD 1 0 + 2),
    6 * (coordinates.getD 2 0 + 3)]

/-- The function `GockenbachFunction::EvaluateConstraint`: `constraint` starts
at 0 and the `switch` assigns it for the indices 0 and 1 only. -/
def EvaluateConstraint (index : ℤ) (coordinates : List ℚ) : ℚ :=
  let constraint : ℚ := 0
  if index = 0 then
    coordinates.getD 2 0 - coordinates.getD 1 0 - coordinates.getD 0 0 - 1
  else if index = 1 then
    min 0 (coordinates.getD 2 0 - (coordinates.getD 0 0) ^ 2)
  else constraint

/-- The function `GockenbachFunction::GradientConstraint`: `gradient.zeros(3, 1)`,
then the `switch` assigns entries for the indices 0 and 1 only. -/
def GradientConstraint (index : ℤ) (coordinates : List ℚ) : List ℚ :=
  let gradient : List ℚ := List.replicate 3 0
  if index = 0 then
    ((gradient.set 0 (-1)).set 1 (-1)).set 2 1
  else if index = 1 then
    (gradient.set 0 (-2 * coordinates.getD 0 0)).set 2 1
  else gradient

end GockenbachFunction

namespace LovaszThetaSDP

/-- Armadillo's `dot(a, b)` of two columns: the sum of the products of the
entries. -/
def dot (a b : List ℚ) : ℚ := (List.zipWith (fun x y => x * y) a b).sum

/-- The function `LovaszThetaSDP::Evaluate`: `obj` starts at 0 and the loop
over the columns `i` subtracts `dot(coordinates.col(i), coordinates.col(i))`.
The matrix is the list of its columns. -/
def Evaluate (coordinates : List (List ℚ)) : ℚ :=
  (List.range coordinates.length).foldl
    (fun obj i => obj - dot (coordinates.getD i []) (coordinates.getD i [])) 0

/-- Entry `(i, j)` of `R^T R`: the product of column `i` and column `j` of
`R`. -/
def gram (R : List (List ℚ)) (i j : ℕ) : ℚ := dot (R.getD i []) (R.getD j [])

/-- The objective as the spec states it: the negative of the sum of all
entries of `R^T R`, that is `-Tr(ones * (R^T R))`. -/
def negSumGram (R : List (List ℚ)) : ℚ :=
  -((List.range R.length).map fun i =>
      ((List.range R.length).map fun j => gram R i j).sum).sum

/-- The negative of the trace of `R^T R`. -/
def negTraceGram (R : List (List ℚ)) : ℚ :=
  -((List.range R.length).map fun i => gram R i i).sum

/-- The 1 x 2 matrix `(1 1)`: two columns of one entry. -/
def onesRow : List (List ℚ) := [[1], [1]]

end LovaszThetaSDP

end optimization

/-! ### Empty-cluster policy of k-means

`src/mlpack/methods/kmeans/max_variance_new_cluster.cpp`.  The data and
centroid matrices are the lists of their columns; `size_t` is a natural number
below `2^64`, and the decrement and increment of a count wrap around. -/

namespace kmeans

/-- Armadillo's `var(x)` of a vector, with the default normalisation: the sum of
the squared deviations from the mean over `N - 1`, and 0 for fewer than two
entries. -/
def var (x : List ℚ) : ℚ :=
  if x.length ≥ 2 then
    let mean := x.sum / (x.length : ℚ)
    (x.map fun e => (e - mean) ^ 2).sum / ((x.length : ℚ) - 1)
  else 0

/-- Armadillo's difference of two columns, entry by entry. -/
def colSub (a b : List ℚ) : List ℚ := List.zipWith (fun x y => x - y) a b

/-- Armadillo's `v.max(index)`: the position of the first largest entry. -/
def maxIndex (v : List ℚ) : ℕ :=
  ((List.range v.length).foldl
    (fun (st : ℕ × ℚ) i => if v.getD i 0 > st.2 then (i, v.getD i 0) else st)
    (0, v.getD 0 0)).1

/-- The first loop of `EmptyCluster`: `variances` starts as
`clusterCounts.n_elem` zeros, and every point `i` adds `var(diff)` of its
difference from the centroid of its cluster to `variances[assignments[i]]`. -/
def variances (data centroids : List (List ℚ)) (clusterCounts assignments : List ℕ) :
    List ℚ :=
  (List.range data.length).foldl
    (fun variances i =>
      let diff := colSub (data.getD i []) (centroids.getD (assignments.getD i 0) [])
      variances.set (assignments.getD i 0)
        (variances.getD (assignments.getD i 0) 0 + var diff))
    (List.replicate clusterCounts.length 0)

/-- The second loop of `EmptyCluster`; the state is `(furthestPoint, maxDistance)`,
which starts as `(data.n_cols, 0)`. -/
def furthest (data centroids : List (List ℚ)) (assignments : List ℕ) (maxVarCluster : ℕ) :
    ℕ × ℚ :=
  (List.range data.length).foldl
    (fun (st : ℕ × ℚ) i =>
      if assignments.getD i 0 = maxVarCluster then
        let diff := colSub (data.getD i []) (centroids.getD maxVarCluster [])
        let distance := var diff
        if distance > st.2 then (i, distance) else st
      else st)
    (data.length, 0)

/-- What `EmptyCluster` leaves: the value it returns and the two vectors it
takes by reference. -/
structure Outcome where
  /-- The value returned. -/
  changed : ℕ
  /-- The vector `clusterCounts` after the call. -/
  clusterCounts : List ℕ
  /-- The vector `assignments` after the call. -/
  assignments : List ℕ
deriving DecidableEq

/-- The function `MaxVarianceNewCluster::EmptyCluster`.  The write
`assignments[furthestPoint] = emptyCluster` is unchecked: at an index past the
end it changes no entry of the vector. -/
def EmptyCluster (data : List (List ℚ)) (emptyCluster : ℕ) (centroids : List (List ℚ))
    (clusterCounts assignments : List ℕ) : Outcome :=
  let variances := variances data centroids clusterCounts assignments
  let maxVarCluster := maxIndex variances
  let furthestPoint := (furthest data centroids assignments maxVarCluster).1
  let clusterCounts := clusterCounts.set maxVarCluster
    ((clusterCounts.getD maxVarCluster 0 + 2 ^ 64 - 1) % 2 ^ 64)
  let clusterCounts := clusterCounts.set emptyCluster
    ((clusterCounts.getD emptyCluster 0 + 1) % 2 ^ 64)
  let assignments := assignments.set furthestPoint emptyCluster
  { changed := 1, clusterCounts := clusterCounts, assignments := assignments }

/-- The per-cluster tally of an assignment vector over `k` clusters: for each
cluster, the number of points assigned to it. -/
def tally (assignments : List ℕ) (k : ℕ) : List ℕ :=
  (List.range k).map fun c => assignments.count c

/-- Two points `(1,1)` and `(3,3)`, both in cluster 0. -/
def diagData : List (List ℚ) := [[1, 1], [3, 3]]

/-- The centroids of the example: `(2,2)`, the mean of the two points, for
cluster 0, and `(0,0)` for the empty cluster 1. -/
def diagCentroids : List (List ℚ) := [[2, 2], [0, 0]]

/-- Four points, three in cluster 0 around the centroid `(1,1)` and one in
cluster 1. -/
def spreadData : List (List ℚ) := [[0, 2], [1, 1], [4, -2], [9, 9]]

/-- The centroids of the second example, with cluster 2 empty. -/
def spreadCentroids : List (List ℚ) := [[1, 1], [9, 9], [0, 0]]

end kmeans

/-! ### Row removal of sparse coding

`src/mlpack/methods/sparse_coding/sparse_coding.cpp`.  `RemoveRows` copies
whole rows (`span::all` over the columns), so a matrix is the list of its rows
here.  The `size_t` differences the function takes are not negative for the
inputs of the theorems and are written as differences of natural numbers. -/

namespace sparse_coding

/-- Armadillo's assignment `M(span(a, b), span::all) = X(span(c, d), span::all)`:
rows `a, …, b` of `M` become rows `c, …, d` of `X`.  Armadillo checks that both
spans lie inside their matrix and have the same number of rows; `none` is the
error it reports otherwise. -/
def assignRows (M : List (List ℚ)) (a b : ℕ) (X : List (List ℚ)) (c d : ℕ) :
    Option (List (List ℚ)) :=
  if a ≤ b ∧ b < M.length ∧ c ≤ d ∧ d < X.length ∧ b - a = d - c then
    some (M.take a ++ (X.drop c).take (d - c + 1) ++ M.drop (b + 1))
  else none

/-- The body of the `while` loop of `RemoveRows`: the rows between the row to
remove number `remove_ind` and the next one are copied.  The state is
`(X_mod, cur_row)`, or `none` after an error. -/
def RemoveRows.step (X : List (List ℚ)) (rows_to_remove : List ℕ)
    (st : Option (List (List ℚ) × ℕ)) (remove_ind : ℕ) : Option (List (List ℚ) × ℕ) :=
  st.bind fun s =>
    let height := rows_to_remove.getD (remove_ind + 1) 0 -
      rows_to_remove.getD remove_ind 0 - 1
    if height > 0 then
      (assignRows s.1 s.2 (s.2 + height - 1) X (rows_to_remove.getD remove_ind 0 + 1)
        (rows_to_remove.getD (remove_ind + 1) 0 - 1)).map fun M => (M, s.2 + height)
    else some s

/-- The function `mlpack::sparse_coding::RemoveRows`; the result is `X_mod`.
`set_size` leaves the rows of `X_mod` without a value: `junk i` is what row `i`
holds then.  The `while` loop runs for `remove_ind = 0, …, n_to_remove - 2` and
leaves `remove_ind = n_to_remove - 1`. -/
def RemoveRows (X : List (List ℚ)) (rows_to_remove : List ℕ) (junk : ℕ → List ℚ) :
    Option (List (List ℚ)) :=
  let n_rows := X.length
  let n_to_remove := rows_to_remove.length
  let n_to_keep := n_rows - n_to_remove
  if n_to_remove = 0 then some X
  else
    let X_mod := (List.range n_to_keep).map junk
    let first : Option (List (List ℚ) × ℕ) :=
      if rows_to_remove.getD 0 0 > 0 then
        let height := rows_to_remove.getD 0 0
        (assignRows X_mod 0 (0 + height - 1) X 0 (rows_to_remove.getD 0 0 - 1)).map
          fun M => (M, 0 + height)
      else some (X_mod, 0)
    let looped := (List.range (n_to_remove - 1)).foldl (RemoveRows.step X rows_to_remove) first
    looped.bind fun s =>
      if rows_to_remove.getD (n_to_remove - 1) 0 < n_rows - 1 then
        assignRows s.1 s.2 (n_to_keep - 1) X (rows_to_remove.getD (n_to_remove - 1) 0 + 1)
          (n_rows - 1)
      else some s.1

/-- The row indices below `b` that are not in the list, in increasing order. -/
def keptBelow (rows : List ℕ) (b : ℕ) : List ℕ :=
  (List.range b).filter fun i => !rows.contains i

/-- The rows of `X` whose index is not in the list, in their original order. -/
def rowsKept (X : List (List ℚ)) (rows : List ℕ) : List (List ℚ) :=
  (keptBelow rows X.length).map fun i => X.getD i []

/-- A 5 x 2 matrix, row by row. -/
def fiveRows : List (List ℚ) := [[0, 10], [1, 11], [2, 12], [3, 13], [4, 14]]

/-- The rows that a fresh `X_mod` holds in the examples. -/
def noRows : ℕ → List ℚ := fun _ => []

end sparse_coding

namespace bound

open math PeriodicHRectBound

/-! ### Lists and loops -/

theorem getD_set_self {α : Type} (l : List α) (i : ℕ) (a d : α) (h : i < l.length) :
    (l.set i a).getD i d = a := by
  simp [List.getD_eq_getElem?_getD, h]

theorem getD_set_ne {α : Type} (l : List α) (i j : ℕ) (a d : α) (h : i ≠ j) :
    (l.set i a).getD j d = l.getD j d := by
  simp [List.getD_eq_getElem?_getD, h]

theorem range_three : List.range 3 = [0, 1, 2] := by decide

/-- A loop over `0, …, N-1` whose body adds `f n` to the first component of the
state and keeps an invariant of the rest returns the sum of the `f n`. -/
theorem foldl_range_fst {S : Type} (step : ℚ × S → ℕ → ℚ × S) (f : ℕ → ℚ)
    (Inv : ℕ → S → Prop) (s0 : S) (N : ℕ) (h0 : Inv 0 s0)
    (hstep : ∀ n, n < N → ∀ t s, Inv n s →
      (step (t, s) n).1 = t + f n ∧ Inv (n + 1) (step (t, s) n).2) :
    ((List.range N).foldl step (0, s0)).1 = ∑ i ∈ Finset.range N, f i := by
  have key : ∀ n, n ≤ N →
      ((List.range n).foldl step (0, s0)).1 = ∑ i ∈ Finset.range n, f i ∧
        Inv n ((List.range n).foldl step (0, s0)).2 := by
    intro n
    induction n with
    | zero => intro _; exact ⟨by simp, h0⟩
    | succ n ih =>
      intro hn
      obtain ⟨h1, h2⟩ := ih (Nat.le_of_succ_le hn)
      have hs := hstep n hn ((List.range n).foldl step (0, s0)).1
        ((List.range n).foldl step (0, s0)).2 h2
      rw [List.range_succ, List.foldl_append, Finset.sum_range_succ]
      simp only [List.foldl_cons, List.foldl_nil]
      exact ⟨by rw [hs.1, h1], hs.2⟩
  exact (key N le_rfl).1

/-- The two-accumulator variant for the loops of `RangeDistance`. -/
theorem foldl_range_pair (step : ℚ × ℚ → ℕ → ℚ × ℚ) (f g : ℕ → ℚ) (N : ℕ)
    (hstep : ∀ n, n < N → ∀ s, step s n = (s.1 + f n, s.2 + g n)) :
    (List.range N).foldl step (0, 0) =
      (∑ i ∈ Finset.range N, f i, ∑ i ∈ Finset.range N, g i) := by
  have key : ∀ n, n ≤ N → (List.range n).foldl step (0, 0) =
      (∑ i ∈ Finset.range n, f i, ∑ i ∈ Finset.range n, g i) := by
    intro n
    induction n with
    | zero => intro _; simp
    | succ n ih =>
      intro hn
      rw [List.range_succ, List.foldl_append, ih (Nat.le_of_succ_le hn)]
      simp only [List.foldl_cons, List.foldl_nil]
      rw [hstep n hn, Finset.sum_range_succ, Finset.sum_range_succ]
  exact key N le_rfl

/-! ### The statements shared by the distance loops -/

theorem length_absBox (box : List ℚ) (i : ℕ) : (absBox box i).length = box.length := by
  unfold absBox; split <;> simp

theorem getD_absBox_self (box : List ℚ) (i : ℕ) (h : i < box.length) :
    (absBox box i).getD i 0 = |box.getD i 0| := by
  unfold absBox
  split
  · exact getD_set_self _ _ _ _ h
  · rename_i hneg
    rw [abs_of_nonneg (not_lt.mp hneg)]

theorem getD_absBox_ne (box : List ℚ) (i j : ℕ) (h : i ≠ j) :
    (absBox box i).getD j 0 = box.getD j 0 := by
  unfold absBox
  split
  · exact getD_set_ne _ _ _ _ _ h
  · rfl

theorem length_foldPoint (box point : List ℚ) (i : ℕ) :
    (foldPoint box point i).length = point.length := by
  unfold foldPoint; split_ifs <;> simp

theorem getD_foldPoint (box point : List ℚ) (i : ℕ) (h : i < point.length) :
    (foldPoint box point i).getD i 0 = foldCoord (box.getD i 0) (point.getD i 0) := by
  unfold foldPoint foldCoord
  split_ifs <;> first | rfl | exact getD_set_self _ _ _ _ h

theorem getD_shiftPoint (box point2 : List ℚ) (i k : ℕ) (h : i < point2.length) :
    (shiftPoint box point2 i k).getD i 0 =
      shiftCoord (box.getD i 0) (point2.getD i 0) k := by
  unfold shiftPoint shiftCoord
  split_ifs <;> first | rfl | exact getD_set_self _ _ _ _ h

/-! ### The point forms, axis by axis -/

theorem MinDistance_axis_eq (b : PeriodicHRectBound) (point : List ℚ) (t : ℚ)
    (box : List ℚ) (i : ℕ) (hb : i < box.length) (hp : i < point.length) :
    MinDistance.axis b point (t, box) i =
      (t + minAxisPoint (b.get i) (box.getD i 0) (point.getD i 0), absBox box i) := by
  have himg : MinDistance.image b (absBox box i) (foldPoint (absBox box i) point i) i =
      fun m k =>
        let x := shiftCoord |box.getD i 0| (foldCoord |box.getD i 0| (point.getD i 0)) k
        let t := minTerm ((b.get i).lo - x) (x - (b.get i).hi)
        if t < m then t else m := by
    funext m k
    simp only [MinDistance.image]
    rw [getD_shiftPoint _ _ _ _ (by rw [length_foldPoint]; exact hp), getD_foldPoint _ _ _ hp,
      getD_absBox_self _ _ hb]
  simp only [MinDistance.axis, minAxisPoint, himg]

theorem MaxDistance_axis_eq (b : PeriodicHRectBound) (point : List ℚ) (t : ℚ)
    (box : List ℚ) (i : ℕ) (hb : i < box.length) (hp : i < point.length) :
    MaxDistance.axis b point (t, box) i =
      (t + maxAxisPoint (b.get i) (box.getD i 0) (point.getD i 0), absBox box i) := by
  have himg : MaxDistance.image b (absBox box i) (foldPoint (absBox box i) point i) i =
      fun m k =>
        let t := maxTermPoint (b.get i)
          (shiftCoord |box.getD i 0| (foldCoord |box.getD i 0| (point.getD i 0)) k)
        if t > m then t else m := by
    funext m k
    simp only [MaxDistance.image]
    rw [getD_shiftPoint _ _ _ _ (by rw [length_foldPoint]; exact hp), getD_foldPoint _ _ _ hp,
      getD_absBox_self _ _ hb]
  simp only [MaxDistance.axis, maxAxisPoint, himg]

/-- The point form of `MinDistance` is the sum of the per-axis values. -/
theorem MinDistance_eq_sum (b : PeriodicHRectBound) (point : List ℚ)
    (hbox : b.box_.length = b.dim_) (hlen : point.length = b.dim_) :
    b.MinDistance point =
      ∑ i ∈ Finset.range b.dim_,
        minAxisPoint (b.get i) (b.box_.getD i 0) (point.getD i 0) := by
  unfold MinDistance
  refine foldl_range_fst _ _
    (fun n box => box.length = b.dim_ ∧ ∀ j, n ≤ j → box.getD j 0 = b.box_.getD j 0)
    _ _ ⟨hbox, fun _ _ => rfl⟩ ?_
  intro n hn t box ⟨hl, hj⟩
  rw [MinDistance_axis_eq b point t box n (by omega) (by omega)]
  refine ⟨by rw [hj n le_rfl], by rw [length_absBox]; exact hl, fun j hnj => ?_⟩
  rw [getD_absBox_ne _ _ _ (by omega)]
  exact hj j (by omega)

/-- The point form of `MaxDistance` is the sum of the per-axis values. -/
theorem MaxDistance_eq_sum (b : PeriodicHRectBound) (point : List ℚ)
    (hbox : b.box_.length = b.dim_) (hlen : point.length = b.dim_) :
    b.MaxDistance point =
      ∑ i ∈ Finset.range b.dim_,
        maxAxisPoint (b.get i) (b.box_.getD i 0) (point.getD i 0) := by
  unfold MaxDistance
  refine foldl_range_fst _ _
    (fun n box => box.length = b.dim_ ∧ ∀ j, n ≤ j → box.getD j 0 = b.box_.getD j 0)
    _ _ ⟨hbox, fun _ _ => rfl⟩ ?_
  intro n hn t box ⟨hl, hj⟩
  rw [MaxDistance_axis_eq b point t box n (by omega) (by omega)]
  refine ⟨by rw [hj n le_rfl], by rw [length_absBox]; exact hl, fun j hnj => ?_⟩
  rw [getD_absBox_ne _ _ _ (by omega)]
  exact hj j (by omega)

/-! ### Bounds as values -/

theorem get_setLo_self (b : PeriodicHRectBound) (i : ℕ) (x : ℚ) (h : i < b.bounds_.length) :
    (b.setLo i x).get i = ⟨x, (b.get i).hi⟩ := by
  simp only [setLo, PeriodicHRectBound.get]
  exact getD_set_self _ _ _ _ h

theorem get_setHi_self (b : PeriodicHRectBound) (i : ℕ) (x : ℚ) (h : i < b.bounds_.length) :
    (b.setHi i x).get i = ⟨(b.get i).lo, x⟩ := by
  simp only [setHi, PeriodicHRectBound.get]
  exact getD_set_self _ _ _ _ h

theorem get_setLo_ne (b : PeriodicHRectBound) (i j : ℕ) (x : ℚ) (h : i ≠ j) :
    (b.setLo i x).get j = b.get j := by
  simp only [setLo, PeriodicHRectBound.get]
  exact getD_set_ne _ _ _ _ _ h

theorem get_setHi_ne (b : PeriodicHRectBound) (i j : ℕ) (x : ℚ) (h : i ≠ j) :
    (b.setHi i x).get j = b.get j := by
  simp only [setHi, PeriodicHRectBound.get]
  exact getD_set_ne _ _ _ _ _ h

@[simp] theorem length_setLo (b : PeriodicHRectBound) (i : ℕ) (x : ℚ) :
    (b.setLo i x).bounds_.length = b.bounds_.length := by
  simp [setLo]

@[simp] theorem length_setHi (b : PeriodicHRectBound) (i : ℕ) (x : ℚ) :
    (b.setHi i x).bounds_.length = b.bounds_.length := by
  simp [setHi]

@[simp] theorem dim_setLo (b : PeriodicHRectBound) (i : ℕ) (x : ℚ) :
    (b.setLo i x).dim_ = b.dim_ := rfl

@[simp] theorem dim_setHi (b : PeriodicHRectBound) (i : ℕ) (x : ℚ) :
    (b.setHi i x).dim_ = b.dim_ := rfl

@[simp] theorem dim_copy (a : PeriodicHRectBound) : a.copy.dim_ = a.dim_ := rfl

/-- The loop of the copy constructor, after `n` of its `dim_` iterations. -/
theorem copy_loop (a : PeriodicHRectBound) (n : ℕ) (hn : n ≤ a.dim_) :
    ((List.range n).foldl
        (fun bs i => bs.set i ((bs.getD i Range.empty).orEq (a.get i)))
        (List.replicate a.dim_ Range.empty)).length = a.dim_ ∧
      ∀ j, ((List.range n).foldl
        (fun bs i => bs.set i ((bs.getD i Range.empty).orEq (a.get i)))
        (List.replicate a.dim_ Range.empty)).getD j Range.empty =
          if j < n then Range.empty.orEq (a.get j) else Range.empty := by
  induction n with
  | zero =>
    refine ⟨by simp, fun j => ?_⟩
    simp only [List.range_zero, List.foldl_nil, Nat.not_lt_zero, if_false]
    rw [List.getD_eq_getElem?_getD]
    by_cases hj : j < a.dim_
    · simp [List.getElem?_replicate, hj]
    · simp [List.getElem?_replicate, hj]
  | succ n ih =>
    obtain ⟨hl, hg⟩ := ih (Nat.le_of_succ_le hn)
    rw [List.range_succ, List.foldl_append]
    simp only [List.foldl_cons, List.foldl_nil]
    refine ⟨by rw [List.length_set]; exact hl, fun j => ?_⟩
    by_cases hjn : n = j
    · subst hjn
      rw [getD_set_self _ _ _ _ (by omega), hg n]
      simp
    · rw [getD_set_ne _ _ _ _ _ hjn, hg j]
      have : (j < n + 1) = (j < n) := by
        apply propext; omega
      simp only [this]

@[simp] theorem length_copy (a : PeriodicHRectBound) : a.copy.bounds_.length = a.dim_ :=
  (copy_loop a a.dim_ le_rfl).1

theorem get_copy (a : PeriodicHRectBound) (i : ℕ) (h : i < a.dim_) :
    a.copy.get i = Range.empty.orEq (a.get i) := by
  have := (copy_loop a a.dim_ le_rfl).2 i
  simp only [h, if_true] at this
  exact this

theorem empty_orEq (r : Range) (h1 : r.lo ≤ DBL_MAX) (h2 : -DBL_MAX ≤ r.hi) :
    Range.empty.orEq r = r := by
  cases r with
  | mk lo hi =>
    simp only [Range.orEq, Range.empty, Range.mk.injEq]
    exact ⟨min_eq_right h1, max_eq_right h2⟩

theorem empty_orEq_of_isDouble (r : Range) (h : IsDouble r.lo ∧ IsDouble r.hi) :
    Range.empty.orEq r = r :=
  empty_orEq r (le_trans (le_abs_self _) h.1) (neg_le.mp (le_trans (neg_le_abs _) h.2))

@[simp] theorem dim_foldBound (box : List ℚ) (other a : PeriodicHRectBound) (i : ℕ) :
    (foldBound box other a i).dim_ = a.dim_ := by
  unfold foldBound; split_ifs <;> simp

@[simp] theorem length_foldBound (box : List ℚ) (other a : PeriodicHRectBound) (i : ℕ) :
    (foldBound box other a i).bounds_.length = a.bounds_.length := by
  unfold foldBound; split_ifs <;> simp

theorem get_foldBound_ne (box : List ℚ) (other a : PeriodicHRectBound) (i j : ℕ)
    (h : i ≠ j) : (foldBound box other a i).get j = a.get j := by
  unfold foldBound
  split_ifs <;> simp [get_setLo_ne, get_setHi_ne, h]

theorem get_foldBound_self (box : List ℚ) (other a : PeriodicHRectBound) (i : ℕ)
    (h : i < a.bounds_.length) :
    (foldBound box other a i).get i = foldRange (box.getD i 0) (other.get i) (a.get i) := by
  unfold foldBound foldRange
  split_ifs <;> simp [get_setLo_self, get_setHi_self, h]

@[simp] theorem dim_shiftBound (box : List ℚ) (a : PeriodicHRectBound) (i k : ℕ) :
    (shiftBound box a i k).dim_ = a.dim_ := by
  unfold shiftBound; split_ifs <;> simp

theorem get_shiftBound (box : List ℚ) (a : PeriodicHRectBound) (i k : ℕ)
    (h : i < a.dim_) :
    (shiftBound box a i k).get i = shiftRange (box.getD i 0) (a.get i) k := by
  unfold shiftBound shiftRange
  split_ifs <;> simp [get_setLo_self, get_setHi_self, get_copy, h]

/-! ### The bound forms, axis by axis -/

theorem split_d_get (box : List ℚ) (b : PeriodicHRectBound) (i k : ℕ) (x : ℚ)
    (h : i < b.dim_) :
    ((if k = 1 then (b.copy.setLo i x).setLo i (((b.copy.setLo i x).get i).lo + box.getD i 0)
      else if k = 2 then
        (b.copy.setLo i x).setLo i (((b.copy.setLo i x).get i).lo - box.getD i 0)
      else b.copy.setLo i x).setHi i (b.get i).hi).get i =
      ⟨shiftCoord (box.getD i 0) x k, (b.get i).hi⟩ := by
  unfold shiftCoord
  split_ifs <;> simp [get_setLo_self, get_setHi_self, h]

theorem split_c_get (box : List ℚ) (b : PeriodicHRectBound) (i k : ℕ) (x : ℚ)
    (h : i < b.dim_) :
    ((if k = 1 then (b.copy.setHi i x).setHi i (((b.copy.setHi i x).get i).hi + box.getD i 0)
      else if k = 2 then
        (b.copy.setHi i x).setHi i (((b.copy.setHi i x).get i).hi - box.getD i 0)
      else b.copy.setHi i x).setLo i (b.get i).lo).get i =
      ⟨(b.get i).lo, shiftCoord (box.getD i 0) x k⟩ := by
  unfold shiftCoord
  split_ifs <;> simp [get_setLo_self, get_setHi_self, h]

theorem MinDistanceBound_split_eq (self : PeriodicHRectBound) (box : List ℚ)
    (b : PeriodicHRectBound) (i k : ℕ) (h : i < b.dim_) :
    MinDistanceBound.split self box b i k =
      minSplit (self.get i) (box.getD i 0) (b.get i) k := by
  simp only [MinDistanceBound.split, minSplit]
  rw [split_d_get box b i k 0 h, split_c_get box b i k (box.getD i 0) h]

theorem MinDistanceBound_image_eq (self : PeriodicHRectBound) (box : List ℚ)
    (a : PeriodicHRectBound) (i : ℕ) (m : ℚ) (k : ℕ) (h : i < a.dim_) :
    MinDistanceBound.image self box a i m k =
      minImageBound (self.get i) (box.getD i 0) (a.get i) m k := by
  simp only [MinDistanceBound.image, minImageBound]
  rw [MinDistanceBound_split_eq self box _ i k (by simpa using h), get_shiftBound box a i k h]

theorem MinDistanceBound_axis_eq (self other : PeriodicHRectBound) (t : ℚ)
    (box : List ℚ) (a : PeriodicHRectBound) (i : ℕ) (hb : i < box.length)
    (hd : i < a.dim_) (hl : i < a.bounds_.length) :
    MinDistanceBound.axis self other (t, box, a) i =
      (t + minAxisBound (self.get i) (box.getD i 0) (other.get i) (a.get i),
        absBox box i, foldBound (absBox box i) other a i) := by
  have himg : MinDistanceBound.image self (absBox box i)
      (foldBound (absBox box i) other a i) i =
      minImageBound (self.get i) |box.getD i 0|
        (foldRange |box.getD i 0| (other.get i) (a.get i)) := by
    funext m k
    rw [MinDistanceBound_image_eq _ _ _ _ _ _ (by simpa using hd),
      get_foldBound_self _ _ _ _ hl, getD_absBox_self _ _ hb]
  simp only [MinDistanceBound.axis, minAxisBound, himg]

/-- The bound form of `MinDistance` is the sum of the per-axis values; `a[i]`
is still the copy of `other[i]` when iteration `i` starts. -/
theorem MinDistanceBound_eq_sum (self other : PeriodicHRectBound)
    (hbox : self.box_.length = self.dim_) (hdim : other.dim_ = self.dim_) :
    self.MinDistanceBound other =
      ∑ i ∈ Finset.range self.dim_,
        minAxisBound (self.get i) (self.box_.getD i 0) (other.get i)
          (Range.empty.orEq (other.get i)) := by
  unfold MinDistanceBound
  refine foldl_range_fst _ _
    (fun n (s : List ℚ × PeriodicHRectBound) =>
      (s.1.length = self.dim_ ∧ ∀ j, n ≤ j → s.1.getD j 0 = self.box_.getD j 0) ∧
      s.2.dim_ = self.dim_ ∧ s.2.bounds_.length = self.dim_ ∧
      ∀ j, n ≤ j → j < self.dim_ → s.2.get j = Range.empty.orEq (other.get j))
    _ _ ⟨⟨hbox, fun _ _ => rfl⟩, by simp [hdim], by simp [hdim],
      fun j _ hj => get_copy other j (by omega)⟩ ?_
  rintro n hn t ⟨box, a⟩ ⟨⟨hl, hj⟩, hd, hal, hg⟩
  simp only at hl hj hd hal hg
  rw [MinDistanceBound_axis_eq self other t box a n (by omega) (by omega) (by omega)]
  refine ⟨by simp only [hj n le_rfl, hg n le_rfl hn], ⟨by rw [length_absBox]; exact hl, fun j hnj => ?_⟩,
    by simpa using hd, by simpa using hal, fun j hnj hjd => ?_⟩
  · rw [getD_absBox_ne _ _ _ (by omega)]
    exact hj j (by omega)
  · simp only
    rw [get_foldBound_ne _ _ _ _ _ (by omega)]
    exact hg j (by omega) hjd

theorem split_d_get_max (box : List ℚ) (b : PeriodicHRectBound) (i k : ℕ)
    (h : i < b.dim_) :
    ((if k = 1 then b.copy.setLo i ((b.copy.get i).lo + box.getD i 0)
      else if k = 2 then b.copy.setLo i ((b.copy.get i).lo - box.getD i 0)
      else b.copy).setHi i (b.get i).hi).get i =
      ⟨shiftCoord (box.getD i 0) (Range.empty.orEq (b.get i)).lo k, (b.get i).hi⟩ := by
  unfold shiftCoord
  split_ifs <;> simp [get_setLo_self, get_setHi_self, get_copy, h]

theorem MaxDistanceBound_split_eq (self : PeriodicHRectBound) (box : List ℚ)
    (a b : PeriodicHRectBound) (i k : ℕ) (u : ℚ × ℚ) (h : i < b.dim_) :
    MaxDistanceBound.split self box a b i k u =
      ((let d : Range := ⟨shiftCoord (box.getD i 0) (Range.empty.orEq (b.get i)).lo k,
            (b.get i).hi⟩
        let c : Range := ⟨(b.get i).lo, shiftCoord (box.getD i 0) (box.getD i 0) k⟩
        let sumLower := u.1 + powT (maxV (self.get i) d)
        let sumHigher := u.2 + powT (maxV (self.get i) c)
        if sumLower > sumHigher then powInvT sumHigher / 4 else powInvT sumLower / 4),
        a.setLo i 0) := by
  simp only [MaxDistanceBound.split]
  rw [split_d_get_max box b i k h, split_c_get box b i k (box.getD i 0) h]

/-- One image of the maximum bound form: the new `max` and the new `a[i]` are
those of `maxImageBound`, and nothing else of `a` changes. -/
theorem MaxDistanceBound_image_spec (self : PeriodicHRectBound) (box : List ℚ) (i : ℕ)
    (u : ℕ → ℚ × ℚ) (m : ℚ) (a : PeriodicHRectBound) (k : ℕ) (hd : i < a.dim_)
    (hl : i < a.bounds_.length) :
    ((MaxDistanceBound.image self box i u (m, a) k).1,
        (MaxDistanceBound.image self box i u (m, a) k).2.get i) =
        maxImageBound (self.get i) (box.getD i 0) u (m, a.get i) k ∧
      (MaxDistanceBound.image self box i u (m, a) k).2.dim_ = a.dim_ ∧
      (MaxDistanceBound.image self box i u (m, a) k).2.bounds_.length = a.bounds_.length ∧
      ∀ j, i ≠ j → (MaxDistanceBound.image self box i u (m, a) k).2.get j = a.get j := by
  simp only [MaxDistanceBound.image, maxImageBound]
  rw [MaxDistanceBound_split_eq self box a _ i k (u k) (by simpa using hd),
    get_shiftBound box a i k hd]
  by_cases hw : (shiftRange (box.getD i 0) (a.get i) k).hi <
      (shiftRange (box.getD i 0) (a.get i) k).lo
  · simp only [hw, if_true]
    refine ⟨?_, by simp, by simp, fun j hj => get_setLo_ne _ _ _ _ hj⟩
    rw [get_setLo_self _ _ _ hl]
  · simp only [hw, if_false, and_self, implies_true]

theorem MaxDistanceBound_images_spec (self : PeriodicHRectBound) (box : List ℚ) (i : ℕ)
    (u : ℕ → ℚ × ℚ) (ks : List ℕ) (m : ℚ) (a : PeriodicHRectBound) (hd : i < a.dim_)
    (hl : i < a.bounds_.length) :
    ((ks.foldl (MaxDistanceBound.image self box i u) (m, a)).1,
        (ks.foldl (MaxDistanceBound.image self box i u) (m, a)).2.get i) =
        ks.foldl (maxImageBound (self.get i) (box.getD i 0) u) (m, a.get i) ∧
      (ks.foldl (MaxDistanceBound.image self box i u) (m, a)).2.dim_ = a.dim_ ∧
      (ks.foldl (MaxDistanceBound.image self box i u) (m, a)).2.bounds_.length =
        a.bounds_.length ∧
      ∀ j, i ≠ j → (ks.foldl (MaxDistanceBound.image self box i u) (m, a)).2.get j =
        a.get j := by
  induction ks generalizing m a with
  | nil => exact ⟨rfl, rfl, rfl, fun _ _ => rfl⟩
  | cons k ks ih =>
    have hs := MaxDistanceBound_image_spec self box i u m a k hd hl
    simp only [List.foldl_cons]
    generalize MaxDistanceBound.image self box i u (m, a) k = res at hs ⊢
    obtain ⟨m1, a1⟩ := res
    obtain ⟨h1, h2, h3, h4⟩ := hs
    simp only at h1 h2 h3 h4
    obtain ⟨g1, g2, g3, g4⟩ := ih m1 a1 (by omega) (by omega)
    refine ⟨?_, by omega, by omega, fun j hj => by rw [g4 j hj, h4 j hj]⟩
    rw [g1, ← h1]

/-- The bound form of `MaxDistance` is the sum of the per-axis values, whatever
the uninitialised sums hold. -/
theorem MaxDistanceBound_eq_sum (self other : PeriodicHRectBound) (u : ℕ → ℕ → ℚ × ℚ)
    (hbox : self.box_.length = self.dim_) (hdim : other.dim_ = self.dim_) :
    self.MaxDistanceBound other u =
      ∑ i ∈ Finset.range self.dim_,
        maxAxisBound (self.get i) (self.box_.getD i 0) (other.get i)
          (Range.empty.orEq (other.get i)) (u i) := by
  unfold MaxDistanceBound
  refine foldl_range_fst _ _
    (fun n (s : List ℚ × PeriodicHRectBound) =>
      (s.1.length = self.dim_ ∧ ∀ j, n ≤ j → s.1.getD j 0 = self.box_.getD j 0) ∧
      s.2.dim_ = self.dim_ ∧ s.2.bounds_.length = self.dim_ ∧
      ∀ j, n ≤ j → j < self.dim_ → s.2.get j = Range.empty.orEq (other.get j))
    _ _ ⟨⟨hbox, fun _ _ => rfl⟩, by simp [hdim], by simp [hdim],
      fun j _ hj => get_copy other j (by omega)⟩ ?_
  rintro n hn t ⟨box, a⟩ ⟨⟨hl, hj⟩, hd, hal, hg⟩
  simp only at hl hj hd hal hg
  obtain ⟨g1, g2, g3, g4⟩ := MaxDistanceBound_images_spec self (absBox box n) n (u n)
    (List.range 3) 0 (foldBound (absBox box n) other a n) (by simpa using by omega)
    (by simpa using by omega)
  simp only [MaxDistanceBound.axis]
  refine ⟨?_, ⟨by rw [length_absBox]; exact hl, fun j hnj => ?_⟩, ?_, ?_, fun j hnj hjd => ?_⟩
  · have := congrArg Prod.fst g1
    simp only at this
    rw [this, maxAxisBound, get_foldBound_self _ _ _ _ (by omega),
      getD_absBox_self _ _ (by omega), hj n le_rfl, hg n le_rfl hn]
  · rw [getD_absBox_ne _ _ _ (by omega)]
    exact hj j (by omega)
  · rw [g2]; simpa using hd
  · rw [g3]; simpa using hal
  · rw [g4 j (by omega), get_foldBound_ne _ _ _ _ _ (by omega)]
    exact hg j (by omega) hjd

/-! ### Scalar facts -/

theorem powT_eq (x : ℚ) : powT x = x ^ 2 := rfl

theorem powInvT_eq (s : ℚ) : powInvT s = s := by
  simp [powInvT, t_pow]

theorem minTerm_eq (x y : ℚ) : minTerm x y = ((x + |x|) + (y + |y|)) ^ 2 / 4 := by
  simp [minTerm, powT_eq, powInvT_eq]

theorem minTerm_nonneg (x y : ℚ) : 0 ≤ minTerm x y := by
  rw [minTerm_eq]
  positivity

/-- When at most one of the two one-sided gaps is positive, the `x + fabs(x)`
expression is the square of the larger gap, or 0. -/
theorem minTerm_of_add_nonpos (x y : ℚ) (h : x + y ≤ 0) :
    minTerm x y = (max (max x y) 0) ^ 2 := by
  rw [minTerm_eq]
  rcases le_total 0 x with hx | hx
  · have hy : y ≤ 0 := by linarith
    rw [abs_of_nonneg hx, abs_of_nonpos hy, max_eq_left (le_trans hy hx), max_eq_left hx]
    ring
  · rcases le_total 0 y with hy | hy
    · rw [abs_of_nonpos hx, abs_of_nonneg hy, max_eq_right (le_trans hx hy), max_eq_left hy]
      ring
    · rw [abs_of_nonpos hx, abs_of_nonpos hy, max_eq_right (max_le hx hy)]
      ring

theorem foldCoord_zero (v : ℚ) : foldCoord 0 v = v := by
  simp [foldCoord]

theorem shiftCoord_zero (x : ℚ) (k : ℕ) : shiftCoord 0 x k = x := by
  unfold shiftCoord
  split_ifs <;> simp

/-- With period 0 the three images coincide: the axis value is the smaller of
`tempMin` and the start value 100000000 of `min`. -/
theorem minAxisPoint_plain (r : Range) (v : ℚ) :
    minAxisPoint r 0 v =
      if minTerm (r.lo - v) (v - r.hi) < 100000000 then minTerm (r.lo - v) (v - r.hi)
      else 100000000 := by
  simp only [minAxisPoint, range_three, abs_zero, foldCoord_zero, shiftCoord_zero,
    List.foldl_cons, List.foldl_nil]
  split_ifs <;> rfl

theorem pointGap_nonneg (r : Range) (v : ℚ) : 0 ≤ pointGap r v := le_max_right _ _

theorem sq_le_cap (g : ℚ) (h0 : 0 ≤ g) (h : g ≤ 10000) : g ^ 2 ≤ 100000000 := by
  nlinarith

theorem minAxisPoint_plain_gap (r : Range) (v : ℚ) (hne : r.lo ≤ r.hi)
    (hgap : pointGap r v ≤ 10000) : minAxisPoint r 0 v = (pointGap r v) ^ 2 := by
  rw [minAxisPoint_plain, minTerm_of_add_nonpos _ _ (by linarith)]
  have := sq_le_cap _ (pointGap_nonneg r v) hgap
  unfold pointGap at *
  split_ifs with h
  · rfl
  · linarith

/-! ### The claims -/

/-- C1: with metric exponent 2 and every period 0, for every bound whose
intervals are all non-empty and every point of the same dimension whose per-axis
gap `max(lo_i - v_i, v_i - hi_i, 0)` is at most 10000,
`MinDistance(point)` is the sum over the axes of the squared gaps; and for the
bound `{[0,2],[1,5],[-2,2],[-5,-2],[1,2]}` and the point `(-2,0,10,3,3)` it is 95. -/
theorem MinDistance_point_plain :
    (∀ (b : PeriodicHRectBound) (point : List ℚ), b.WF → point.length = b.dim_ →
      b.Plain → b.NonEmpty →
      (∀ i, i < b.dim_ → pointGap (b.get i) (point.getD i 0) ≤ 10000) →
      b.MinDistance point =
        ∑ i ∈ Finset.range b.dim_, (pointGap (b.get i) (point.getD i 0)) ^ 2) ∧
    testBound.MinDistance testPoint = 95 := by
  refine ⟨fun b point hwf hlen hplain hne hgap => ?_, by decide!⟩
  rw [MinDistance_eq_sum b point hwf.2 hlen]
  refine Finset.sum_congr rfl fun i hi => ?_
  have hi := Finset.mem_range.mp hi
  rw [hplain i hi]
  exact minAxisPoint_plain_gap _ _ (hne i hi) (hgap i hi)

/-- Witness of C1: the bound `{[0,10],[3,4]}` with periods 0 and the point
`(12, 1)`, at per-axis gaps 2 and 2. -/
theorem MinDistance_point_plain_witness :
    (⟨[⟨0, 10⟩, ⟨3, 4⟩], 2, [0, 0]⟩ : PeriodicHRectBound).MinDistance [12, 1] =
      ∑ i ∈ Finset.range 2,
        (pointGap ((⟨[⟨0, 10⟩, ⟨3, 4⟩], 2, [0, 0]⟩ : PeriodicHRectBound).get i)
          (([12, 1] : List ℚ).getD i 0)) ^ 2 :=
  MinDistance_point_plain.1 ⟨[⟨0, 10⟩, ⟨3, 4⟩], 2, [0, 0]⟩ [12, 1] ⟨rfl, rfl⟩ rfl
    (by decide!) (by decide!) (by decide!)

/-- C2: the claim gives 253 for the bound `{[0,2],[1,5],[-2,2],[-5,-2],[1,2]}`
and the point `(-2,0,10,3,3)`, the sum of the squared distances to the farthest
corner; `MaxDistance(point)` divides every axis term by 4 and returns 253/4. -/
theorem MaxDistance_point_test_quarter :
    testBound.MaxDistance testPoint = 253 / 4 ∧
    ∑ i ∈ Finset.range testBound.dim_,
      (max (testPoint.getD i 0 - (testBound.get i).lo)
        ((testBound.get i).hi - testPoint.getD i 0)) ^ 2 = 253 := by
  constructor
  · decide!
  · decide!

theorem boundGap_nonneg (r o : Range) : 0 ≤ boundGap r o := le_max_right _ _

theorem boundGap_comm (r o : Range) : boundGap r o = boundGap o r := by
  unfold boundGap
  rw [max_comm (o.lo - r.hi)]

theorem shiftRange_zero (a : Range) (k : ℕ) (h : Range.empty.orEq a = a) :
    shiftRange 0 a k = a := by
  unfold shiftRange
  rw [h]
  split_ifs <;> simp

theorem foldRange_zero (o a : Range) : foldRange 0 o a = a := by
  simp [foldRange]

/-- With period 0 and a non-empty other range that the copy constructor
reproduces, the three images coincide and are never split. -/
theorem minAxisBound_plain (r o : Range) (hcopy : Range.empty.orEq o = o)
    (hne : o.lo ≤ o.hi) :
    minAxisBound r 0 o o =
      if minTerm (o.lo - r.hi) (r.lo - o.hi) < 100000000 then
        minTerm (o.lo - r.hi) (r.lo - o.hi)
      else 100000000 := by
  simp only [minAxisBound, range_three, abs_zero, foldRange_zero, minImageBound,
    shiftRange_zero _ _ hcopy, not_lt.mpr hne, if_false, List.foldl_cons, List.foldl_nil]
  split_ifs <;> rfl

theorem minAxisBound_plain_gap (r o : Range) (hcopy : Range.empty.orEq o = o)
    (hr : r.lo ≤ r.hi) (ho : o.lo ≤ o.hi) (hgap : boundGap r o ≤ 10000) :
    minAxisBound r 0 o o = (boundGap r o) ^ 2 := by
  rw [minAxisBound_plain r o hcopy ho, minTerm_of_add_nonpos _ _ (by linarith)]
  have := sq_le_cap _ (boundGap_nonneg r o) hgap
  unfold boundGap at *
  split_ifs with h
  · rfl
  · linarith

/-- The general part of C3, for one direction. -/
theorem MinDistanceBound_plain_sum (a b : PeriodicHRectBound) (ha : a.WF)
    (hdim : b.dim_ = a.dim_) (hplain : a.Plain) (hane : a.NonEmpty) (hbne : b.NonEmpty)
    (hfin : b.Finite)
    (hgap : ∀ i, i < a.dim_ → boundGap (a.get i) (b.get i) ≤ 10000) :
    a.MinDistanceBound b =
      ∑ i ∈ Finset.range a.dim_, (boundGap (a.get i) (b.get i)) ^ 2 := by
  rw [MinDistanceBound_eq_sum a b ha.2 hdim]
  refine Finset.sum_congr rfl fun i hi => ?_
  have hi := Finset.mem_range.mp hi
  have hc := empty_orEq_of_isDouble _ (hfin i (by omega))
  rw [hplain i hi, hc]
  exact minAxisBound_plain_gap _ _ hc (hane i hi) (hbne i (by omega)) (hgap i hi)

/-- C3: with metric exponent 2 and every period 0, for two bounds `a`, `b` of
equal dimension whose intervals are all non-empty (and hold finite doubles) and
whose per-axis gap `max(b.lo_i - a.hi_i, a.lo_i - b.hi_i, 0)` is at most 10000,
`a.MinDistance(b)` is the sum over the axes of the squared gaps and equals
`b.MinDistance(a)`; it is 0 when the intervals meet on every axis (the boxes
touch, overlap or nest); and it is 22 for the two bounds of the test. -/
theorem MinDistance_bound_plain :
    (∀ (a b : PeriodicHRectBound), a.WF → b.WF → b.dim_ = a.dim_ →
      a.Plain → b.Plain → a.NonEmpty → b.NonEmpty → a.Finite → b.Finite →
      (∀ i, i < a.dim_ → boundGap (a.get i) (b.get i) ≤ 10000) →
      a.MinDistanceBound b =
          ∑ i ∈ Finset.range a.dim_, (boundGap (a.get i) (b.get i)) ^ 2 ∧
        a.MinDistanceBound b = b.MinDistanceBound a ∧
        ((∀ i, i < a.dim_ → (b.get i).lo ≤ (a.get i).hi ∧ (a.get i).lo ≤ (b.get i).hi) →
          a.MinDistanceBound b = 0)) ∧
    testBound.MinDistanceBound testBoundC = 22 ∧
    testBoundC.MinDistanceBound testBound = 22 := by
  refine ⟨fun a b ha hb hdim hpa hpb hane hbne hfa hfb hgap => ?_, by decide!, by decide!⟩
  have h1 := MinDistanceBound_plain_sum a b ha hdim hpa hane hbne hfb hgap
  have h2 := MinDistanceBound_plain_sum b a hb hdim.symm hpb hbne hane hfa
    (fun i hi => by rw [boundGap_comm]; exact hgap i (by omega))
  refine ⟨h1, ?_, fun hmeet => ?_⟩
  · rw [h1, h2, hdim]
    exact Finset.sum_congr rfl fun i _ => by rw [boundGap_comm]
  · rw [h1]
    refine Finset.sum_eq_zero fun i hi => ?_
    obtain ⟨m1, m2⟩ := hmeet i (Finset.mem_range.mp hi)
    have : boundGap (a.get i) (b.get i) = 0 := by
      unfold boundGap
      exact max_eq_right (max_le (by linarith) (by linarith))
    rw [this]
    norm_num

/-- Witness of C3: the two 5-dimension bounds of the test. -/
theorem MinDistance_bound_plain_witness :
    testBound.MinDistanceBound testBoundC =
        ∑ i ∈ Finset.range testBound.dim_,
          (boundGap (testBound.get i) (testBoundC.get i)) ^ 2 ∧
      testBound.MinDistanceBound testBoundC = testBoundC.MinDistanceBound testBound :=
  have h := MinDistance_bound_plain.1 testBound testBoundC (by decide!) (by decide!) rfl
    (by decide!) (by decide!) (by decide!) (by decide!) (by decide!) (by decide!) (by decide!)
  ⟨h.1, h.2.1⟩

/-- With period 0 and a non-empty other range that the copy constructor
reproduces, the maximum bound form adds the squared distance between the
farthest ends, whatever the uninitialised sums hold. -/
theorem maxAxisBound_plain (r o : Range) (u : ℕ → ℚ × ℚ)
    (hcopy : Range.empty.orEq o = o) (hne : o.lo ≤ o.hi) :
    maxAxisBound r 0 o o u = (max (o.hi - r.lo) (r.hi - o.lo)) ^ 2 := by
  have hV : powInvT (0 + powT (maxV r o)) = (max (o.hi - r.lo) (r.hi - o.lo)) ^ 2 := by
    rw [powInvT_eq, powT_eq, zero_add, maxV, sq_abs]
  have h0 : (0 : ℚ) ≤ (max (o.hi - r.lo) (r.hi - o.lo)) ^ 2 := sq_nonneg _
  simp only [maxAxisBound, range_three, abs_zero, foldRange_zero, maxImageBound,
    shiftRange_zero _ _ hcopy, not_lt.mpr hne, if_false, List.foldl_cons, List.foldl_nil, hV]
  split_ifs <;> first | rfl | linarith

/-- The general part of C4, for one direction. -/
theorem MaxDistanceBound_plain_sum (a b : PeriodicHRectBound) (u : ℕ → ℕ → ℚ × ℚ)
    (ha : a.WF) (hdim : b.dim_ = a.dim_) (hplain : a.Plain) (hbne : b.NonEmpty)
    (hfin : b.Finite) :
    a.MaxDistanceBound b u =
      ∑ i ∈ Finset.range a.dim_,
        (max ((b.get i).hi - (a.get i).lo) ((a.get i).hi - (b.get i).lo)) ^ 2 := by
  rw [MaxDistanceBound_eq_sum a b u ha.2 hdim]
  refine Finset.sum_congr rfl fun i hi => ?_
  have hi := Finset.mem_range.mp hi
  have hc := empty_orEq_of_isDouble _ (hfin i (by omega))
  rw [hplain i hi, hc]
  exact maxAxisBound_plain _ _ _ hc (hbne i (by omega))

/-- C4: with metric exponent 2 and every period 0, for two bounds `a`, `b` of
equal dimension whose intervals are all non-empty (and hold finite doubles),
`a.MaxDistance(b)` is the sum over the axes of
`max(b.hi_i - a.lo_i, a.hi_i - b.lo_i)^2` and equals `b.MaxDistance(a)`; it is
210 for the two bounds of the test and 46 for the first one against itself. -/
theorem MaxDistance_bound_plain :
    (∀ (a b : PeriodicHRectBound) (u w : ℕ → ℕ → ℚ × ℚ), a.WF → b.WF → b.dim_ = a.dim_ →
      a.Plain → b.Plain → a.NonEmpty → b.NonEmpty → a.Finite → b.Finite →
      a.MaxDistanceBound b u =
          ∑ i ∈ Finset.range a.dim_,
            (max ((b.get i).hi - (a.get i).lo) ((a.get i).hi - (b.get i).lo)) ^ 2 ∧
        a.MaxDistanceBound b u = b.MaxDistanceBound a w) ∧
    (∀ u, testBound.MaxDistanceBound testBoundC u = 210) ∧
    (∀ u, testBoundC.MaxDistanceBound testBound u = 210) ∧
    (∀ u, testBound.MaxDistanceBound testBound u = 46) := by
  refine ⟨fun a b u w ha hb hdim hpa hpb hane hbne hfa hfb => ?_, fun u => ?_, fun u => ?_,
    fun u => ?_⟩
  · have h1 := MaxDistanceBound_plain_sum a b u ha hdim hpa hbne hfb
    have h2 := MaxDistanceBound_plain_sum b a w hb hdim.symm hpb hane hfa
    refine ⟨h1, ?_⟩
    rw [h1, h2, hdim]
    exact Finset.sum_congr rfl fun i _ => by rw [max_comm]
  · rw [MaxDistanceBound_plain_sum testBound testBoundC u (by decide!) rfl (by decide!)
      (by decide!) (by decide!)]
    decide!
  · rw [MaxDistanceBound_plain_sum testBoundC testBound u (by decide!) rfl (by decide!)
      (by decide!) (by decide!)]
    decide!
  · rw [MaxDistanceBound_plain_sum testBound testBound u (by decide!) rfl (by decide!)
      (by decide!) (by decide!)]
    decide!

/-- Witness of C4: the two 5-dimension bounds of the test. -/
theorem MaxDistance_bound_plain_witness :
    testBound.MaxDistanceBound testBoundC zeroInit =
        ∑ i ∈ Finset.range testBound.dim_,
          (max ((testBoundC.get i).hi - (testBound.get i).lo)
            ((testBound.get i).hi - (testBoundC.get i).lo)) ^ 2 ∧
      testBound.MaxDistanceBound testBoundC zeroInit =
        testBoundC.MaxDistanceBound testBound zeroInit :=
  MaxDistance_bound_plain.1 testBound testBoundC zeroInit zeroInit (by decide!) (by decide!)
    rfl (by decide!) (by decide!) (by decide!) (by decide!) (by decide!) (by decide!)

/-- C5: the claim makes the lower end of `a.RangeDistance(b)` equal to
`a.MinDistance(b)`; for `a = {[0,0]}` and `b = {[20000,20000]}` (periods 0)
`RangeDistance` gives the squared gap 400000000 and `MinDistance` stops at the
start value 100000000 of its running minimum. -/
theorem far_bounds_lo_ne_MinDistance :
    originBound.RangeDistanceBound farBound = some ⟨400000000, 400000000⟩ ∧
    originBound.MinDistanceBound farBound = 100000000 := by
  constructor
  · decide!
  · decide!

theorem RangeDistanceBound_eq (self other : PeriodicHRectBound)
    (h : self.dim_ = other.dim_) :
    self.RangeDistanceBound other =
      some ⟨∑ d ∈ Finset.range self.dim_,
              (RangeDistanceBound.v (self.get d) (other.get d)).1 ^ 2,
            ∑ d ∈ Finset.range self.dim_,
              (RangeDistanceBound.v (self.get d) (other.get d)).2 ^ 2⟩ := by
  unfold RangeDistanceBound
  rw [if_pos h, foldl_range_pair (RangeDistanceBound.axis self other)
    (fun d => (RangeDistanceBound.v (self.get d) (other.get d)).1 ^ 2)
    (fun d => (RangeDistanceBound.v (self.get d) (other.get d)).2 ^ 2) self.dim_
    (fun n _ s => rfl)]
  simp only [powInvT_eq]

theorem RangeDistanceBound_v_lo (r o : Range) :
    (RangeDistanceBound.v r o).1 = boundGap r o := by
  unfold RangeDistanceBound.v boundGap
  by_cases h : o.lo - r.hi ≥ r.lo - o.hi
  · rw [if_pos h, max_eq_left h]
    show (if o.lo - r.hi > 0 then o.lo - r.hi else 0) = _
    split_ifs with h1
    · exact (max_eq_left (le_of_lt h1)).symm
    · exact (max_eq_right (not_lt.mp h1)).symm
  · rw [if_neg h, max_eq_right (le_of_lt (not_le.mp h))]
    show (if r.lo - o.hi > 0 then r.lo - o.hi else 0) = _
    split_ifs with h1
    · exact (max_eq_left (le_of_lt h1)).symm
    · exact (max_eq_right (not_lt.mp h1)).symm

/-- Where no axis reaches the start value of the running minimum (gaps of at
most 10000), the lower end of `a.RangeDistance(b)` is `a.MinDistance(b)`. -/
theorem RangeDistance_bound_lo_of_gap (a b : PeriodicHRectBound) (ha : a.WF)
    (hdim : a.dim_ = b.dim_) (hplain : a.Plain) (hane : a.NonEmpty) (hbne : b.NonEmpty)
    (hfin : b.Finite)
    (hgap : ∀ i, i < a.dim_ → boundGap (a.get i) (b.get i) ≤ 10000) :
    ∃ r, a.RangeDistanceBound b = some r ∧ r.lo = a.MinDistanceBound b := by
  refine ⟨_, RangeDistanceBound_eq a b hdim, ?_⟩
  rw [MinDistanceBound_plain_sum a b ha hdim.symm hplain hane hbne hfin hgap]
  show ∑ d ∈ Finset.range a.dim_, (RangeDistanceBound.v (a.get d) (b.get d)).1 ^ 2 = _
  exact Finset.sum_congr rfl fun i _ => by rw [RangeDistanceBound_v_lo]

theorem RangeDistanceBound_v_hi (r o : Range) :
    (RangeDistanceBound.v r o).2 = max (o.hi - r.lo) (r.hi - o.lo) := by
  unfold RangeDistanceBound.v
  by_cases h : o.lo - r.hi ≥ r.lo - o.hi
  · rw [if_pos h]
    show -(r.lo - o.hi) = _
    rw [max_eq_left (by linarith)]; ring
  · rw [if_neg h]
    show -(o.lo - r.hi) = _
    rw [max_eq_right (by linarith)]; ring

/-- C6: for plain bounds `a` and `b` of equal dimension with non-empty intervals
(holding finite doubles), `a.RangeDistance(b)` returns a range whose upper end
is `a.MaxDistance(b)`. -/
theorem RangeDistance_bound_hi (a b : PeriodicHRectBound) (u : ℕ → ℕ → ℚ × ℚ)
    (ha : a.WF) (hdim : a.dim_ = b.dim_) (hplain : a.Plain) (hbne : b.NonEmpty)
    (hfin : b.Finite) :
    ∃ r, a.RangeDistanceBound b = some r ∧ r.hi = a.MaxDistanceBound b u := by
  refine ⟨_, RangeDistanceBound_eq a b hdim, ?_⟩
  rw [MaxDistanceBound_plain_sum a b u ha hdim.symm hplain hbne hfin]
  show ∑ d ∈ Finset.range a.dim_, (RangeDistanceBound.v (a.get d) (b.get d)).2 ^ 2 = _
  exact Finset.sum_congr rfl fun i _ => by rw [RangeDistanceBound_v_hi]

/-- Witness of C6: the two 5-dimension bounds of the test. -/
theorem RangeDistance_bound_hi_witness :
    ∃ r, testBound.RangeDistanceBound testBoundC = some r ∧
      r.hi = testBound.MaxDistanceBound testBoundC zeroInit :=
  RangeDistance_bound_hi testBound testBoundC zeroInit (by decide!) rfl (by decide!)
    (by decide!) (by decide!)

/-- C7: the claim makes `RangeDistance(point)` the range from
`MinDistance(point)` to `MaxDistance(point)`; for the bound `{[0,2]}` (period 0)
and the point `(1)` inside it, `RangeDistance` returns `[1, 1]` while
`MinDistance` is 0 and `MaxDistance` is 1/4. -/
theorem inside_point_RangeDistance :
    segmentBound.RangeDistance [1] = some ⟨1, 1⟩ ∧
    segmentBound.MinDistance [1] = 0 ∧
    segmentBound.MaxDistance [1] = 1 / 4 := by
  refine ⟨?_, ?_, ?_⟩
  · decide!
  · decide!
  · decide!

theorem RangeDistanceBound_v_comm (r o : Range) :
    RangeDistanceBound.v r o = RangeDistanceBound.v o r := by
  unfold RangeDistanceBound.v
  simp only
  rcases lt_trichotomy (o.lo - r.hi) (r.lo - o.hi) with h | h | h
  · rw [if_neg (not_le.mpr h), if_pos (le_of_lt h)]
  · rw [if_pos (le_of_eq h.symm), if_pos (le_of_eq h), h]
  · rw [if_pos (le_of_lt h), if_neg (not_le.mpr h)]

/-- C8: for any two bounds `a`, `b` of equal dimension, with any intervals and
any periods, `a.RangeDistance(b)` and `b.RangeDistance(a)` both return, and
return the same range (same lower end, same upper end). -/
theorem RangeDistance_bound_symm (a b : PeriodicHRectBound) (hdim : a.dim_ = b.dim_) :
    ∃ r, a.RangeDistanceBound b = some r ∧ b.RangeDistanceBound a = some r := by
  refine ⟨_, RangeDistanceBound_eq a b hdim, ?_⟩
  rw [RangeDistanceBound_eq b a hdim.symm, hdim]
  simp only [RangeDistanceBound_v_comm]

/-- Witness of C8: the two 5-dimension bounds of the test. -/
theorem RangeDistance_bound_symm_witness :
    ∃ r, testBound.RangeDistanceBound testBoundC = some r ∧
      testBoundC.RangeDistanceBound testBound = some r :=
  RangeDistance_bound_symm testBound testBoundC rfl

theorem foldCoord_of_le (B v : ℚ) (h : B ≠ 0 → |v| ≤ B) : foldCoord B v = v := by
  unfold foldCoord
  split_ifs with h1 h2
  · exact absurd h2 (not_lt.mpr (h h1))
  · rfl
  · rfl

theorem minTerm_of_nonpos (x y : ℚ) (hx : x ≤ 0) (hy : y ≤ 0) : minTerm x y = 0 := by
  rw [minTerm_eq, abs_of_nonpos hx, abs_of_nonpos hy]
  ring

/-- A point inside the range, which the coordinate folding leaves in place,
adds 0: the unshifted image is at distance 0 and no image is nearer. -/
theorem minAxisPoint_inside (r : Range) (P v : ℚ) (h1 : r.lo ≤ v) (h2 : v ≤ r.hi)
    (hcell : P ≠ 0 → |v| ≤ |P|) : minAxisPoint r P v = 0 := by
  have hf : foldCoord |P| v = v :=
    foldCoord_of_le _ _ fun hB => hcell (fun hP => hB (by rw [hP, abs_zero]))
  have h0 : minTerm (r.lo - v) (v - r.hi) = 0 :=
    minTerm_of_nonpos _ _ (by linarith) (by linarith)
  have hn1 := minTerm_nonneg (r.lo - (v + |P|)) (v + |P| - r.hi)
  have hn2 := minTerm_nonneg (r.lo - (v - |P|)) (v - |P| - r.hi)
  simp only [minAxisPoint, range_three, hf, shiftCoord, List.foldl_cons, List.foldl_nil,
    if_true, if_false, OfNat.zero_ne_ofNat, OfNat.ofNat_ne_one, h0]
  norm_num
  split_ifs <;> linarith

/-- What `Contains(point)` returning true means, axis by axis. -/
theorem Contains_iff (b : PeriodicHRectBound) (point : List ℚ) :
    b.Contains point = true ↔
      ∀ i, i < point.length → (b.get i).lo ≤ point.getD i 0 ∧ point.getD i 0 ≤ (b.get i).hi := by
  simp only [Contains, List.all_eq_true, List.mem_range, Range.Contains, Bool.and_eq_true,
    decide_eq_true_eq]

/-- C9: the claim makes `MinDistance(p)` 0 for every point `p` that
`Contains(p)` accepts.  The bound `{[5,5]}` with period 1 contains the point
`(5)`, and `RangeDistance` of that point has the lower end 0, but `MinDistance`
of it is 16: the point is folded to 0 and examined at 0, 1 and -1, while the
bound is left at 5. -/
theorem offcell_point_MinDistance_ne_zero :
    offCellBound.Contains [5] = true ∧ offCellBound.MinDistance [5] = 16 ∧
      offCellBound.MinDistance [5] ≠ 0 ∧
      offCellBound.RangeDistance [5] = some ⟨0, 0⟩ ∧
      (foldPoint (absBox offCellBound.box_ 0) [5] 0).getD 0 0 = 0 := by
  refine ⟨?_, ?_, ?_, ?_, ?_⟩ <;> decide!

/-- Where the folding leaves the point in place (`|p_i| ≤ |P_i|` on every axis
with a non-zero period), a point that `b.Contains(p)` accepts has
`b.MinDistance(p) = 0`, for any period vector. -/
theorem MinDistance_contained (b : PeriodicHRectBound) (point : List ℚ) (hwf : b.WF)
    (hlen : point.length = b.dim_) (hc : b.Contains point = true)
    (hcell : ∀ i, i < b.dim_ → b.box_.getD i 0 ≠ 0 → |point.getD i 0| ≤ |b.box_.getD i 0|) :
    b.MinDistance point = 0 := by
  rw [MinDistance_eq_sum b point hwf.2 hlen]
  refine Finset.sum_eq_zero fun i hi => ?_
  have hi := Finset.mem_range.mp hi
  obtain ⟨h1, h2⟩ := (Contains_iff b point).mp hc i (by omega)
  exact minAxisPoint_inside _ _ _ h1 h2 (hcell i hi)

/-- The bound `{[1,3],[0,4]}` with periods 10 and 0 and the point `(2, 4)`
inside it. -/
theorem MinDistance_contained_witness : cellBound.MinDistance [2, 4] = 0 :=
  MinDistance_contained cellBound [2, 4] (by decide!) rfl (by decide!) (by decide!)

theorem minSplit_nonneg (r : Range) (B : ℚ) (b : Range) (k : ℕ) : 0 ≤ minSplit r B b k := by
  simp only [minSplit, powT_eq, powInvT_eq, zero_add]
  split_ifs <;> positivity

/-- No image lowers a running minimum that is already 0. -/
theorem minImageBound_zero (r : Range) (B : ℚ) (a : Range) (k : ℕ) :
    minImageBound r B a 0 k = 0 := by
  simp only [minImageBound]
  have h1 := minSplit_nonneg r B (shiftRange B a k) k
  have h2 := minTerm_nonneg ((shiftRange B a k).lo - r.hi) (r.lo - (shiftRange B a k).hi)
  split_ifs <;> linarith

theorem foldRange_of_le (B : ℚ) (o a : Range) (h : B ≠ 0 → |o.lo| ≤ B ∧ |o.hi| ≤ B) :
    foldRange B o a = a := by
  unfold foldRange
  by_cases hB : B ≠ 0
  · obtain ⟨h1, h2⟩ := h hB
    simp only [hB, not_lt.mpr h1, not_lt.mpr h2, gt_iff_lt, if_true, if_false, ne_eq,
      not_false_eq_true]
  · simp only [hB, if_false]

/-- A non-empty range inside `[0, |P|]` (when `P` is not 0) is at distance 0
from itself: the unshifted image of its copy covers it. -/
theorem minAxisBound_self (r : Range) (P : ℚ) (hne : r.lo ≤ r.hi)
    (hcell : P ≠ 0 → 0 ≤ r.lo ∧ r.hi ≤ |P|) :
    minAxisBound r P r (Range.empty.orEq r) = 0 := by
  have hf : foldRange |P| r (Range.empty.orEq r) = Range.empty.orEq r := by
    refine foldRange_of_le _ _ _ fun hB => ?_
    obtain ⟨h1, h2⟩ := hcell (fun hP => hB (by rw [hP, abs_zero]))
    exact ⟨by rw [abs_of_nonneg h1]; linarith, by rw [abs_of_nonneg (by linarith)]; exact h2⟩
  have hlo : (Range.empty.orEq (Range.empty.orEq r)).lo ≤ r.lo :=
    le_trans (min_le_right _ _) (min_le_right _ _)
  have hhi : r.hi ≤ (Range.empty.orEq (Range.empty.orEq r)).hi :=
    le_trans (le_max_right _ _) (le_max_right _ _)
  have h0 : minImageBound r |P| (Range.empty.orEq r) 100000000 0 = 0 := by
    have hs : shiftRange |P| (Range.empty.orEq r) 0 =
        Range.empty.orEq (Range.empty.orEq r) := by
      simp [shiftRange]
    have hns : ¬ (Range.empty.orEq (Range.empty.orEq r)).hi <
        (Range.empty.orEq (Range.empty.orEq r)).lo := not_lt.mpr (by linarith)
    simp only [minImageBound, hs, hns, if_false]
    rw [minTerm_of_nonpos _ _ (by linarith) (by linarith)]
    norm_num
  simp only [minAxisBound, range_three, hf, List.foldl_cons, List.foldl_nil, h0,
    minImageBound_zero]

/-- C10: for every bound `b` whose intervals are all non-empty and which, on
every axis with a non-zero period `P_i`, lies inside `[0, |P_i|]`,
`b.MinDistance(b) = 0`. -/
theorem MinDistance_self (b : PeriodicHRectBound) (hwf : b.WF) (hne : b.NonEmpty)
    (hcell : ∀ i, i < b.dim_ → b.box_.getD i 0 ≠ 0 →
      0 ≤ (b.get i).lo ∧ (b.get i).hi ≤ |b.box_.getD i 0|) :
    b.MinDistanceBound b = 0 := by
  rw [MinDistanceBound_eq_sum b b hwf.2 rfl]
  refine Finset.sum_eq_zero fun i hi => ?_
  have hi := Finset.mem_range.mp hi
  exact minAxisBound_self _ _ (hne i hi) (hcell i hi)

/-- Witness of C10: the bound `{[1,3],[0,4]}` with periods 10 and 0. -/
theorem MinDistance_self_witness : cellBound.MinDistanceBound cellBound = 0 :=
  MinDistance_self cellBound (by decide!) (by decide!) (by decide!)

/-! ### Construction, assignment and expansion -/

/-- A loop over `0, …, n-1` that replaces entry `i` by `f i` of its old value
changes exactly the first `n` entries. -/
theorem foldl_set_range {α : Type} (f : ℕ → α → α) (d : α) (l : List α) (n : ℕ)
    (hn : n ≤ l.length) :
    ((List.range n).foldl (fun bs i => bs.set i (f i (bs.getD i d))) l).length = l.length ∧
      ∀ j, ((List.range n).foldl (fun bs i => bs.set i (f i (bs.getD i d))) l).getD j d =
        if j < n then f j (l.getD j d) else l.getD j d := by
  induction n with
  | zero => exact ⟨rfl, fun j => by simp⟩
  | succ n ih =>
    obtain ⟨hl, hg⟩ := ih (Nat.le_of_succ_le hn)
    rw [List.range_succ, List.foldl_append]
    simp only [List.foldl_cons, List.foldl_nil]
    refine ⟨by rw [List.length_set]; exact hl, fun j => ?_⟩
    by_cases hjn : n = j
    · subst hjn
      rw [getD_set_self _ _ _ _ (by omega), hg n]
      simp
    · rw [getD_set_ne _ _ _ _ _ hjn, hg j]
      have : (j < n + 1) = (j < n) := by
        apply propext; omega
      simp only [this]

theorem get_orEqPoint (b : PeriodicHRectBound) (p : List ℚ) (hl : b.bounds_.length = b.dim_)
    (hlen : p.length = b.dim_) :
    ∃ b1, b.orEqPoint p = some b1 ∧ b1.dim_ = b.dim_ ∧ b1.box_ = b.box_ ∧
      b1.bounds_.length = b.dim_ ∧
      ∀ i, i < b.dim_ → b1.get i = (b.get i).orEq (Range.ofPoint (p.getD i 0)) := by
  obtain ⟨h1, h2⟩ := foldl_set_range (fun i r => r.orEq (Range.ofPoint (p.getD i 0)))
    Range.empty b.bounds_ b.dim_ (le_of_eq hl.symm)
  rw [orEqPoint, if_pos hlen]
  refine ⟨_, rfl, rfl, rfl, h1.trans hl, fun i hi => ?_⟩
  have := h2 i
  rw [if_pos hi] at this
  exact this

theorem get_orEqBound (b c : PeriodicHRectBound) (hl : b.bounds_.length = b.dim_)
    (hdim : c.dim_ = b.dim_) :
    ∃ b1, b.orEqBound c = some b1 ∧ b1.dim_ = b.dim_ ∧ b1.box_ = b.box_ ∧
      b1.bounds_.length = b.dim_ ∧
      ∀ i, i < b.dim_ → b1.get i = (b.get i).orEq (c.get i) := by
  obtain ⟨h1, h2⟩ := foldl_set_range (fun i r => r.orEq (c.get i))
    Range.empty b.bounds_ b.dim_ (le_of_eq hl.symm)
  rw [orEqBound, if_pos hdim]
  refine ⟨_, rfl, rfl, rfl, h1.trans hl, fun i hi => ?_⟩
  have := h2 i
  rw [if_pos hi] at this
  exact this

theorem get_Clear (b : PeriodicHRectBound) (hl : b.bounds_.length = b.dim_) :
    b.Clear.bounds_.length = b.dim_ ∧ ∀ i, i < b.dim_ → b.Clear.get i = Range.empty := by
  obtain ⟨h1, h2⟩ := foldl_set_range (fun _ _ => Range.empty)
    Range.empty b.bounds_ b.dim_ (le_of_eq hl.symm)
  refine ⟨h1.trans hl, fun i hi => ?_⟩
  have := h2 i
  rw [if_pos hi] at this
  exact this

theorem empty_lo_gt_hi : Range.empty.lo > Range.empty.hi := by decide!

theorem get_ofBox (box : List ℚ) (i : ℕ) (h : i < box.length) :
    (ofBox box).get i = Range.empty := by
  simp [ofBox, PeriodicHRectBound.get, List.getD_eq_getElem?_getD, List.getElem?_replicate, h]

/-- A list of ranges that has `n` entries, all of them the empty range, is the
list of `n` empty ranges. -/
theorem eq_replicate_empty (l : List Range) (n : ℕ) (hl : l.length = n)
    (h : ∀ i, i < n → l.getD i Range.empty = Range.empty) :
    l = List.replicate n Range.empty := by
  refine List.ext_getElem (by simp [hl]) fun i h1 h2 => ?_
  have := h i (by omega)
  rw [List.getD_eq_getElem l Range.empty h1] at this
  simp [this]

/-- C14: for every bound and every point whose length is the bound's
dimension, `Contains(point)` is true exactly when `lo_i ≤ point_i ≤ hi_i` on
every axis; the ends of the intervals are inside, and one axis outside makes the
result false. -/
theorem Contains_point_iff (b : PeriodicHRectBound) (point : List ℚ)
    (hlen : point.length = b.dim_) :
    (b.Contains point = true ↔
      ∀ i, i < b.dim_ → (b.get i).lo ≤ point.getD i 0 ∧ point.getD i 0 ≤ (b.get i).hi) ∧
    ((∃ i, i < b.dim_ ∧ (point.getD i 0 < (b.get i).lo ∨ (b.get i).hi < point.getD i 0)) →
      b.Contains point = false) := by
  have h : b.Contains point = true ↔
      ∀ i, i < b.dim_ → (b.get i).lo ≤ point.getD i 0 ∧ point.getD i 0 ≤ (b.get i).hi := by
    rw [Contains_iff, hlen]
  refine ⟨h, fun ⟨i, hi, hout⟩ => ?_⟩
  rw [← Bool.not_eq_true]
  intro hc
  obtain ⟨h1, h2⟩ := h.mp hc i hi
  rcases hout with ho | ho <;> linarith

/-- Witness of C14: the bound `{[0,2],[0,2],[0,2]}` and its corner `(0,0,0)`. -/
theorem Contains_point_iff_witness :
    cubeBound.Contains [0, 0, 0] = true ↔
      ∀ i, i < cubeBound.dim_ →
        (cubeBound.get i).lo ≤ ([0, 0, 0] : List ℚ).getD i 0 ∧
          ([0, 0, 0] : List ℚ).getD i 0 ≤ (cubeBound.get i).hi :=
  (Contains_point_iff cubeBound [0, 0, 0] rfl).1

/-- C15: for every bound `b` and point `p` of equal dimension, `b |= p` returns
and leaves on each axis the interval `[min(lo_i, p_i), max(hi_i, p_i)]` (an axis
that held the default empty interval becomes `[p_i, p_i]`, for a finite double
`p_i`); the new bound contains `p` and every point of that dimension `b`
contained, and its dimension and period vector are those of `b`. -/
theorem orEq_point_spec (b : PeriodicHRectBound) (p : List ℚ) (hwf : b.WF)
    (hlen : p.length = b.dim_) :
    ∃ b1, b.orEqPoint p = some b1 ∧ b1.dim_ = b.dim_ ∧ b1.box_ = b.box_ ∧
      (∀ i, i < b.dim_ →
        b1.get i = ⟨min (b.get i).lo (p.getD i 0), max (b.get i).hi (p.getD i 0)⟩) ∧
      (∀ i, i < b.dim_ → b.get i = Range.empty → IsDouble (p.getD i 0) →
        b1.get i = ⟨p.getD i 0, p.getD i 0⟩) ∧
      b1.Contains p = true ∧
      ∀ q : List ℚ, q.length = b.dim_ → b.Contains q = true → b1.Contains q = true := by
  obtain ⟨b1, h1, hd, hbx, _, hg⟩ := get_orEqPoint b p hwf.1 hlen
  refine ⟨b1, h1, hd, hbx, fun i hi => hg i hi, fun i hi he hp => ?_, ?_, fun q hq hc => ?_⟩
  · rw [hg i hi, he]
    exact empty_orEq_of_isDouble (Range.ofPoint (p.getD i 0)) ⟨hp, hp⟩
  · rw [Contains_iff]
    intro i hi
    rw [hg i (by omega)]
    exact ⟨min_le_right _ _, le_max_right _ _⟩
  · rw [Contains_iff] at hc ⊢
    intro i hi
    obtain ⟨c1, c2⟩ := hc i hi
    rw [hg i (by omega)]
    exact ⟨le_trans (min_le_left _ _) c1, le_trans c2 (le_max_left _ _)⟩

/-- Witness of C15: the bound and the point of the expansion test; the last
axis holds the default empty interval and becomes `[6, 6]`. -/
theorem orEq_point_spec_witness :
    ∃ b1, expandBound.orEqPoint expandPoint = some b1 ∧ b1.get 4 = ⟨6, 6⟩ ∧
      b1.Contains expandPoint = true :=
  let ⟨b1, h1, _, _, _, h5, h6, _⟩ :=
    orEq_point_spec expandBound expandPoint (by decide!) rfl
  ⟨b1, h1, h5 4 (by decide) rfl (by decide!), h6⟩

/-- C16: for two bounds `b` and `c` of equal dimension, `b |= c` returns and
leaves on each axis of `b` the interval `[min(b.lo_i, c.lo_i), max(b.hi_i, c.hi_i)]`,
with the dimension and periods of `b`; `c |= b` leaves the same intervals on
`c`.  This is for all intervals, the empty ones included.  The argument `c` is
a const reference, which the call has no way to change unless it is `b` itself;
and `b |= b` leaves every interval of `b` as it was. -/
theorem orEq_bound_spec (b c : PeriodicHRectBound) (hb : b.WF) (hc : c.WF)
    (hdim : c.dim_ = b.dim_) :
    ∃ b1 c1 b2, b.orEqBound c = some b1 ∧ c.orEqBound b = some c1 ∧
      b.orEqBound b = some b2 ∧
      b1.dim_ = b.dim_ ∧ b1.box_ = b.box_ ∧
      (∀ i, i < b.dim_ →
        b1.get i = ⟨min (b.get i).lo (c.get i).lo, max (b.get i).hi (c.get i).hi⟩) ∧
      (∀ i, i < b.dim_ → c1.get i = b1.get i) ∧
      (∀ i, i < b.dim_ → b2.get i = b.get i) := by
  obtain ⟨b1, h1, hd, hbx, _, hg⟩ := get_orEqBound b c hb.1 hdim
  obtain ⟨c1, g1, _, _, _, gg⟩ := get_orEqBound c b hc.1 hdim.symm
  obtain ⟨b2, k1, _, _, _, kg⟩ := get_orEqBound b b hb.1 rfl
  refine ⟨b1, c1, b2, h1, g1, k1, hd, hbx, fun i hi => hg i hi, fun i hi => ?_,
    fun i hi => ?_⟩
  · rw [hg i hi, gg i (by omega)]
    simp only [Range.orEq, Range.mk.injEq]
    exact ⟨min_comm _ _, max_comm _ _⟩
  · rw [kg i hi]
    simp [Range.orEq]

/-- Witness of C16: the two 8-dimension bounds of the expansion test, each with
an empty interval on one axis. -/
theorem orEq_bound_spec_witness :
    ∃ b1 c1, unionBoundB.orEqBound unionBoundC = some b1 ∧
      unionBoundC.orEqBound unionBoundB = some c1 ∧
      ∀ i, i < unionBoundB.dim_ → c1.get i = b1.get i :=
  let ⟨b1, c1, _, h1, h2, _, _, _, _, h6, _⟩ :=
    orEq_bound_spec unionBoundB unionBoundC (by decide!) (by decide!) rfl
  ⟨b1, c1, h1, h2, h6⟩

/-- C17: the copy constructor gives a bound with the dimension and the period
vector of `b` and, on every axis, the interval of `b` with the same `lo` and
`hi`, for a bound `b` that holds finite doubles.  (`b` is a const reference
argument: the call has no way to change it.) -/
theorem copy_spec (b : PeriodicHRectBound) (hfin : b.Finite) :
    b.copy.dim_ = b.dim_ ∧ b.copy.box_ = b.box_ ∧ b.copy.bounds_.length = b.dim_ ∧
      ∀ i, i < b.dim_ →
        (b.copy.get i).lo = (b.get i).lo ∧ (b.copy.get i).hi = (b.get i).hi := by
  refine ⟨rfl, rfl, length_copy b, fun i hi => ?_⟩
  rw [get_copy b i hi, empty_orEq_of_isDouble _ (hfin i hi)]
  exact ⟨rfl, rfl⟩

/-- Witness of C17: the bound `{[0,2],[2,3]}` of the copy test. -/
theorem copy_spec_witness :
    twoBound.copy.dim_ = twoBound.dim_ ∧ twoBound.copy.box_ = twoBound.box_ ∧
      twoBound.copy.bounds_.length = twoBound.dim_ ∧
      ∀ i, i < twoBound.dim_ →
        (twoBound.copy.get i).lo = (twoBound.get i).lo ∧
          (twoBound.copy.get i).hi = (twoBound.get i).hi :=
  copy_spec twoBound (by decide!)

/-- C18: the claim makes `c = b` give `c` the dimension and the intervals of
`b`; the copy operator returns `*this` untouched, so a 4-dimension `c` assigned
the 2-dimension bound `{[0,2],[2,3]}` keeps dimension 4 and its empty
intervals. -/
theorem assign_keeps_target :
    ((ofBox [0, 0, 0, 0]).assign twoBound).dim_ = 4 ∧ twoBound.dim_ = 2 ∧
      ((ofBox [0, 0, 0, 0]).assign twoBound).get 0 = Range.empty ∧
      twoBound.get 0 = ⟨0, 2⟩ := by
  refine ⟨?_, ?_, ?_, ?_⟩ <;> decide!

/-- C19: the empty constructor gives dimension 0; the constructor from a period
vector of length `n` gives dimension `n`, that period vector, `n` intervals, and
on each of the `n` axes the default empty interval, whose `lo` is above its
`hi`. -/
theorem constructors_spec :
    construct.dim_ = 0 ∧
    ∀ box : List ℚ, (ofBox box).dim_ = box.length ∧ (ofBox box).box_ = box ∧
      (ofBox box).bounds_.length = box.length ∧
      ∀ i, i < box.length →
        (ofBox box).get i = Range.empty ∧ ((ofBox box).get i).lo > ((ofBox box).get i).hi := by
  refine ⟨rfl, fun box => ⟨rfl, rfl, by simp [ofBox], fun i hi => ?_⟩⟩
  rw [get_ofBox box i hi]
  exact ⟨rfl, empty_lo_gt_hi⟩

/-- Witness of C19: the period vector `(4, 5)`. -/
theorem constructors_spec_witness :
    ((ofBox [4, 5]).get 1).lo > ((ofBox [4, 5]).get 1).hi :=
  ((constructors_spec.2 [4, 5]).2.2.2 1 (by decide)).2

/-- C20: `Clear()` keeps the dimension and the period vector and leaves an
interval array of `dim_` entries, every one of them the default empty interval,
whose `lo` is above its `hi`: entry `i` of the array is set for every `i < dim_`.
Two bounds of the same dimension have the same intervals after `Clear()`,
whatever they held before. -/
theorem Clear_spec (b : PeriodicHRectBound) (hl : b.bounds_.length = b.dim_) :
    b.Clear.dim_ = b.dim_ ∧ b.Clear.box_ = b.box_ ∧
      b.Clear.bounds_.length = b.dim_ ∧
      b.Clear.bounds_ = List.replicate b.dim_ Range.empty ∧
      (∀ i, i < b.dim_ →
        b.Clear.bounds_[i]? = some Range.empty ∧
        b.Clear.get i = Range.empty ∧ (b.Clear.get i).lo > (b.Clear.get i).hi) ∧
      ∀ c : PeriodicHRectBound, c.bounds_.length = c.dim_ → c.dim_ = b.dim_ →
        c.Clear.bounds_ = b.Clear.bounds_ := by
  have hrep : b.Clear.bounds_ = List.replicate b.dim_ Range.empty :=
    eq_replicate_empty _ _ (get_Clear b hl).1 (get_Clear b hl).2
  refine ⟨rfl, rfl, (get_Clear b hl).1, hrep, fun i hi => ⟨?_, ?_⟩, fun c hc hdim => ?_⟩
  · rw [hrep, List.getElem?_replicate, if_pos hi]
  · rw [(get_Clear b hl).2 i hi]
    exact ⟨rfl, empty_lo_gt_hi⟩
  · rw [hrep, eq_replicate_empty _ _ (get_Clear c hc).1 (get_Clear c hc).2, hdim]

/-- Witness of C20: the bound `{[0,2],[2,3]}`, against the test bound
`{[1,3],[0,4]}` of the same dimension. -/
theorem Clear_spec_witness :
    twoBound.Clear.bounds_.length = 2 ∧
      twoBound.Clear.bounds_ = [Range.empty, Range.empty] ∧
      twoBound.Clear.bounds_[1]? = some Range.empty ∧
      twoBound.Clear.get 1 = Range.empty ∧ cellBound.Clear.bounds_ = twoBound.Clear.bounds_ :=
  have h := Clear_spec twoBound rfl
  ⟨h.2.2.1, h.2.2.2.1, (h.2.2.2.2.1 1 (by decide)).1, (h.2.2.2.2.1 1 (by decide)).2.1,
    h.2.2.2.2.2 cellBound rfl rfl⟩

/-! ### Periodic images -/

/-- C11 as stated fails: the single-point bound `{[0,0]}` with period 1 has
`MaxDistance` 1 to itself, since the maximum runs over the images shifted by
the period as well (no image is split, so the uninitialised sums are not
read). -/
theorem point_cell_MaxDistance_self :
    pointCellBound.MaxDistanceBound pointCellBound zeroInit = 1 ∧
      (pointCellBound.get 0).lo = (pointCellBound.get 0).hi ∧
      pointCellBound.MaxDistanceBound pointCellBound zeroInit ≠ 0 := by
  refine ⟨?_, ?_, ?_⟩ <;> decide!

/-- C11, amended: for every bound `b` with every period 0 (metric exponent 2,
finite doubles) in which every axis interval is a single point `lo_i = hi_i`,
`b.MaxDistance(b) = 0`, whatever the uninitialised sums hold. -/
theorem MaxDistance_self_point (b : PeriodicHRectBound) (u : ℕ → ℕ → ℚ × ℚ) (hwf : b.WF)
    (hplain : b.Plain) (hfin : b.Finite)
    (hpt : ∀ i, i < b.dim_ → (b.get i).lo = (b.get i).hi) :
    b.MaxDistanceBound b u = 0 := by
  rw [MaxDistanceBound_plain_sum b b u hwf rfl hplain (fun i hi => le_of_eq (hpt i hi)) hfin]
  refine Finset.sum_eq_zero fun i hi => ?_
  rw [hpt i (Finset.mem_range.mp hi)]
  simp

/-- Witness of the amended C11: the single-point bound `{[3,3]}` with period 0. -/
theorem MaxDistance_self_point_witness : pointBound.MaxDistanceBound pointBound zeroInit = 0 :=
  MaxDistance_self_point pointBound zeroInit (by decide!) (by decide!) (by decide!) (by decide!)

theorem ite_lt_eq_min (a b : ℚ) : (if a < b then a else b) = min a b := by
  split_ifs with h
  · exact (min_eq_left (le_of_lt h)).symm
  · exact (min_eq_right (not_lt.mp h)).symm

theorem sq_min (a b : ℚ) (ha : 0 ≤ a) (hb : 0 ≤ b) : (min a b) ^ 2 = min (a ^ 2) (b ^ 2) := by
  rcases le_total a b with h | h
  · rw [min_eq_left h, min_eq_left (pow_le_pow_left₀ ha h 2)]
  · rw [min_eq_right h, min_eq_right (pow_le_pow_left₀ hb h 2)]

theorem min_swap_ends (a b c : ℚ) : min a (min b c) = min c (min b a) := by
  rw [min_comm b c, min_left_comm, min_comm a b]

theorem imageGap_zero (r : Range) (P v : ℚ) : imageGap r P v 0 = pointGap r v := by
  simp [imageGap]

theorem imageGap_one (r : Range) (P v : ℚ) : imageGap r P v 1 = pointGap r (v + P) := by
  simp [imageGap]

theorem imageGap_neg_one (r : Range) (P v : ℚ) :
    imageGap r P v (-1) = pointGap r (v - P) := by
  simp [imageGap, sub_eq_add_neg]

/-- Inside one cell, the per-axis value of `MinDistance(point)` is the square
of the smallest of the three image gaps. -/
theorem minAxisPoint_toroidal (r : Range) (P v : ℚ) (hP : 0 < P) (hcap : P ≤ 10000)
    (h0 : 0 ≤ r.lo) (hne : r.lo ≤ r.hi) (hhi : r.hi ≤ P) (hv0 : 0 ≤ v) (hv : v ≤ P) :
    minAxisPoint r P v = (nearestGap r P v) ^ 2 := by
  have hf : foldCoord P v = v :=
    foldCoord_of_le _ _ fun _ => by rw [abs_of_nonneg hv0]; exact hv
  have hg0 : pointGap r v ≤ 10000 := by
    unfold pointGap
    exact max_le (max_le (by linarith) (by linarith)) (by norm_num)
  have hc := sq_le_cap _ (pointGap_nonneg r v) hg0
  simp only [minAxisPoint, range_three, abs_of_pos hP, hf, shiftCoord, List.foldl_cons,
    List.foldl_nil, if_true, if_false, OfNat.zero_ne_ofNat, OfNat.ofNat_ne_one]
  norm_num
  rw [minTerm_of_add_nonpos (r.lo - v) (v - r.hi) (by linarith),
    minTerm_of_add_nonpos (r.lo - (v + P)) (v + P - r.hi) (by linarith),
    minTerm_of_add_nonpos (r.lo - (v - P)) (v - P - r.hi) (by linarith)]
  simp only [ite_lt_eq_min, nearestGap, imageGap_zero, imageGap_one, imageGap_neg_one]
  rw [sq_min _ _ (pointGap_nonneg _ _) (le_min (pointGap_nonneg _ _) (pointGap_nonneg _ _)),
    sq_min _ _ (pointGap_nonneg _ _) (pointGap_nonneg _ _)]
  unfold pointGap at hc ⊢
  rw [min_eq_left hc]
  exact min_swap_ends _ _ _

/-- Inside one cell, no periodic image of the coordinate is nearer to the
range than the nearest of the three images `n = 0, 1, -1`. -/
theorem nearestGap_isLeast (r : Range) (P v : ℚ) (hP : 0 < P) (h0 : 0 ≤ r.lo)
    (hne : r.lo ≤ r.hi) (hhi : r.hi ≤ P) (hv0 : 0 ≤ v) (hv : v ≤ P) :
    IsLeast {x | ∃ n : ℤ, x = imageGap r P v n} (nearestGap r P v) := by
  constructor
  · unfold nearestGap
    rcases min_choice (imageGap r P v 0) (min (imageGap r P v 1) (imageGap r P v (-1)))
      with h | h
    · exact ⟨0, h⟩
    · rcases min_choice (imageGap r P v 1) (imageGap r P v (-1)) with g | g
      · exact ⟨1, by rw [h, g]⟩
      · exact ⟨-1, by rw [h, g]⟩
  · rintro x ⟨n, rfl⟩
    rcases lt_trichotomy n 0 with hn | hn | hn
    · have hn1 : (n : ℚ) ≤ -1 := by exact_mod_cast Int.le_sub_one_of_lt hn
      have h1 : imageGap r P v (-1) ≤ r.lo - (v - P) := by
        rw [imageGap_neg_one]
        unfold pointGap
        exact max_le (max_le le_rfl (by linarith)) (by linarith)
      have h2 : r.lo - (v + n * P) ≤ imageGap r P v n := by
        unfold imageGap pointGap
        exact le_trans (le_max_left _ _) (le_max_left _ _)
      have h3 : (n : ℚ) * P ≤ -P := by nlinarith
      calc nearestGap r P v ≤ imageGap r P v (-1) :=
            le_trans (min_le_right _ _) (min_le_right _ _)
        _ ≤ r.lo - (v - P) := h1
        _ ≤ r.lo - (v + n * P) := by linarith
        _ ≤ imageGap r P v n := h2
    · subst hn
      exact min_le_left _ _
    · have hn1 : (1 : ℚ) ≤ n := by exact_mod_cast Int.add_one_le_of_lt hn
      have h1 : imageGap r P v 1 ≤ v + P - r.hi := by
        rw [imageGap_one]
        unfold pointGap
        exact max_le (max_le (by linarith) le_rfl) (by linarith)
      have h2 : v + n * P - r.hi ≤ imageGap r P v n := by
        unfold imageGap pointGap
        exact le_trans (le_max_right _ _) (le_max_left _ _)
      have h3 : P ≤ (n : ℚ) * P := by nlinarith
      calc nearestGap r P v ≤ imageGap r P v 1 :=
            le_trans (min_le_right _ _) (min_le_left _ _)
        _ ≤ v + P - r.hi := h1
        _ ≤ v + n * P - r.hi := by linarith
        _ ≤ imageGap r P v n := h2

/-- C12: with metric exponent 2, for every bound and point of equal dimension
such that on every axis `0 < P_i ≤ 10000`, `0 ≤ lo_i ≤ hi_i ≤ P_i` and
`0 ≤ v_i ≤ P_i`, `MinDistance(point)` is the sum over the axes of the square of
the nearest of the three image gaps, and that gap is the least of the gaps
`max(lo_i - (v_i + n P_i), (v_i + n P_i) - hi_i, 0)` over all integers `n`: the
three images examined contain the nearest periodic image. -/
theorem MinDistance_point_toroidal (b : PeriodicHRectBound) (point : List ℚ) (hwf : b.WF)
    (hlen : point.length = b.dim_)
    (hcell : ∀ i, i < b.dim_ →
      0 < b.box_.getD i 0 ∧ b.box_.getD i 0 ≤ 10000 ∧
      0 ≤ (b.get i).lo ∧ (b.get i).lo ≤ (b.get i).hi ∧ (b.get i).hi ≤ b.box_.getD i 0 ∧
      0 ≤ point.getD i 0 ∧ point.getD i 0 ≤ b.box_.getD i 0) :
    b.MinDistance point =
        ∑ i ∈ Finset.range b.dim_,
          (nearestGap (b.get i) (b.box_.getD i 0) (point.getD i 0)) ^ 2 ∧
      ∀ i, i < b.dim_ →
        IsLeast {x | ∃ n : ℤ, x = imageGap (b.get i) (b.box_.getD i 0) (point.getD i 0) n}
          (nearestGap (b.get i) (b.box_.getD i 0) (point.getD i 0)) := by
  constructor
  · rw [MinDistance_eq_sum b point hwf.2 hlen]
    refine Finset.sum_congr rfl fun i hi => ?_
    obtain ⟨h1, h2, h3, h4, h5, h6, h7⟩ := hcell i (Finset.mem_range.mp hi)
    exact minAxisPoint_toroidal _ _ _ h1 h2 h3 h4 h5 h6 h7
  · intro i hi
    obtain ⟨h1, _, h3, h4, h5, h6, h7⟩ := hcell i hi
    exact nearestGap_isLeast _ _ _ h1 h3 h4 h5 h6 h7

/-- Witness of C12: the bound `{[2,3],[0,1]}` with periods 4 and 5 and the
point `(0, 3)`; the nearest images are the one shifted by `+4` on the first
axis and the unshifted one (or the one shifted by `-5`) on the second. -/
theorem MinDistance_point_toroidal_witness :
    torusBound.MinDistance [0, 3] =
        ∑ i ∈ Finset.range torusBound.dim_,
          (nearestGap (torusBound.get i) (torusBound.box_.getD i 0)
            (([0, 3] : List ℚ).getD i 0)) ^ 2 ∧
      ∀ i, i < torusBound.dim_ →
        IsLeast {x | ∃ n : ℤ, x = imageGap (torusBound.get i) (torusBound.box_.getD i 0)
            (([0, 3] : List ℚ).getD i 0) n}
          (nearestGap (torusBound.get i) (torusBound.box_.getD i 0)
            (([0, 3] : List ℚ).getD i 0)) :=
  MinDistance_point_toroidal torusBound [0, 3] (by decide!) rfl (by decide!)

/-! ### The folded coordinate -/

theorem fmod_of_nonneg (x y : ℚ) (hy : 0 < y) (hx : 0 ≤ x) :
    0 ≤ fmod x y ∧ fmod x y < y := by
  have hq : 0 ≤ x / y := div_nonneg hx (le_of_lt hy)
  have hxy : x / y * y = x := div_mul_cancel₀ x (ne_of_gt hy)
  have h1 : ((⌊x / y⌋ : ℤ) : ℚ) ≤ x / y := Int.floor_le _
  have h2 : x / y < (⌊x / y⌋ : ℤ) + 1 := Int.lt_floor_add_one _
  simp only [fmod, trunc, if_pos hq]
  constructor
  · nlinarith
  · nlinarith

theorem fmod_of_neg (x y : ℚ) (hy : 0 < y) (hx : x < 0) :
    -y < fmod x y ∧ fmod x y ≤ 0 := by
  have hq : ¬ 0 ≤ x / y := not_le.mpr (div_neg_of_neg_of_pos hx hy)
  have hxy : x / y * y = x := div_mul_cancel₀ x (ne_of_gt hy)
  have h1 : x / y ≤ ((⌈x / y⌉ : ℤ) : ℚ) := Int.le_ceil _
  have h2 : ((⌈x / y⌉ : ℤ) : ℚ) < x / y + 1 := Int.ceil_lt_add_one _
  simp only [fmod, trunc, if_neg hq]
  constructor
  · nlinarith
  · nlinarith

/-- C13: the claim puts the folded coordinate in `[0, P)`.  With period 2 the
coordinate -3 (`|-3| > 2`) is folded to -1, which is below 0: `fmod` keeps the
sign of the coordinate.  The effect on the distance: for the bound `{[9,10]}`
with period 10 the coordinates 11 and -19, which differ by three periods, are
folded to 1 and to -9, and `MinDistance` is 1 for the first and 64 for the
second, the images examined being -9, 1 and -19. -/
theorem folded_negative_coordinate :
    |([-3] : List ℚ).getD 0 0| > ([2] : List ℚ).getD 0 0 ∧
      (foldPoint (absBox [2] 0) [-3] 0).getD 0 0 = -1 ∧
      ¬ (0 ≤ (foldPoint (absBox [2] 0) [-3] 0).getD 0 0) ∧
      (foldPoint (absBox edgeBound.box_ 0) [11] 0).getD 0 0 = 1 ∧
      (foldPoint (absBox edgeBound.box_ 0) [-19] 0).getD 0 0 = -9 ∧
      edgeBound.MinDistance [11] = 1 ∧
      edgeBound.MinDistance [-19] = 64 := by
  refine ⟨?_, ?_, ?_, ?_, ?_, ?_, ?_⟩ <;> decide!

/-- What the fold does in general: for a period `P > 0` and a coordinate `v`
with `|v| > P`, the folded coordinate differs from `v` by a multiple of `P` and
lies in `[0, P)` for `v > P` and in `(-P, 0]` for `v < -P`. -/
theorem folded_coordinate_range (box point : List ℚ) (i : ℕ) (hb : i < box.length)
    (hp : i < point.length) (hP : 0 < box.getD i 0)
    (hv : |point.getD i 0| > box.getD i 0) :
    (∃ n : ℤ, (foldPoint (absBox box i) point i).getD i 0 =
        point.getD i 0 - n * box.getD i 0) ∧
      -box.getD i 0 < (foldPoint (absBox box i) point i).getD i 0 ∧
      (foldPoint (absBox box i) point i).getD i 0 < box.getD i 0 ∧
      (0 < point.getD i 0 → 0 ≤ (foldPoint (absBox box i) point i).getD i 0) ∧
      (point.getD i 0 < 0 → (foldPoint (absBox box i) point i).getD i 0 ≤ 0) := by
  have hx : (foldPoint (absBox box i) point i).getD i 0 =
      fmod (point.getD i 0) (box.getD i 0) := by
    rw [getD_foldPoint _ _ _ hp, getD_absBox_self _ _ hb, abs_of_pos hP, foldCoord,
      if_pos (ne_of_gt hP), if_pos hv]
  rw [hx]
  refine ⟨⟨trunc (point.getD i 0 / box.getD i 0), rfl⟩, ?_⟩
  rcases le_or_lt 0 (point.getD i 0) with h | h
  · obtain ⟨f1, f2⟩ := fmod_of_nonneg _ _ hP h
    exact ⟨by linarith, f2, fun _ => f1, fun hn => absurd hn (not_lt.mpr h)⟩
  · obtain ⟨f1, f2⟩ := fmod_of_neg _ _ hP h
    exact ⟨f1, by linarith, fun hn => absurd hn (not_lt.mpr (le_of_lt h)), fun _ => f2⟩

/-- Period 2 and the coordinate 7, folded to 1. -/
theorem folded_coordinate_range_witness :
    -([2] : List ℚ).getD 0 0 < (foldPoint (absBox [2] 0) [7] 0).getD 0 0 ∧
      (foldPoint (absBox [2] 0) [7] 0).getD 0 0 < ([2] : List ℚ).getD 0 0 ∧
      0 ≤ (foldPoint (absBox [2] 0) [7] 0).getD 0 0 :=
  have h := folded_coordinate_range [2] [7] 0 (by decide) (by decide) (by decide!) (by decide!)
  ⟨h.2.1, h.2.2.1, h.2.2.2.1 (by decide!)⟩

/-! ### Intervals -/

theorem Centroid_eq_map (b : PeriodicHRectBound) (centroid : List ℚ) (junk : ℕ → ℚ) :
    b.Centroid centroid junk = (List.range b.dim_).map fun i => (b.get i).Mid := by
  have hs : (if ¬ (centroid.length = b.dim_) then (List.range b.dim_).map junk
      else centroid).length = b.dim_ := by
    by_cases h : centroid.length = b.dim_
    · rw [if_neg (not_not.mpr h)]; exact h
    · rw [if_pos h]; simp
  obtain ⟨h1, h2⟩ := foldl_set_range (fun i _ => (b.get i).Mid) 0
    (if ¬ (centroid.length = b.dim_) then (List.range b.dim_).map junk else centroid)
    b.dim_ (le_of_eq hs.symm)
  unfold Centroid
  refine List.ext_getElem (by rw [h1, hs]; simp) fun i hi1 hi2 => ?_
  have hi : i < b.dim_ := by simpa using hi2
  have := h2 i
  rw [if_pos hi, List.getD_eq_getElem _ _ hi1] at this
  rw [this]
  simp

/-- C22: for every bound of dimension `d` and every output vector, of any
length and content, `Centroid` leaves the vector with exactly `d` entries, entry
`i` being `(lo_i + hi_i) / 2`; for `{[0,5],[-2,-1],[-10,50]}` the result is
`(2.5, -1.5, 20)`.  (`Centroid` is a const member: it has no way to change the
bound.) -/
theorem Centroid_spec :
    (∀ (b : PeriodicHRectBound) (centroid : List ℚ) (junk : ℕ → ℚ),
      (b.Centroid centroid junk).length = b.dim_ ∧
        ∀ i, i < b.dim_ →
          (b.Centroid centroid junk).getD i 0 = ((b.get i).lo + (b.get i).hi) / 2) ∧
    ∀ (centroid : List ℚ) (junk : ℕ → ℚ),
      centroidBound.Centroid centroid junk = [5 / 2, -3 / 2, 20] := by
  refine ⟨fun b centroid junk => ⟨?_, fun i hi => ?_⟩, fun centroid junk => ?_⟩
  · rw [Centroid_eq_map]; simp
  · rw [Centroid_eq_map, List.getD_eq_getElem _ _ (by simpa using hi)]
    simp [Range.Mid]
  · rw [Centroid_eq_map]
    decide!

/-- C23: interval union is a commutative monoid: `a | b = b | a` and
`(a | b) | c = a | (b | c)` for all ranges, the empty ones included, with equal
`lo` and `hi`; and the default empty range `e` satisfies `a | e = e | a = a`
for every range `a` of finite doubles. -/
theorem Range_union_monoid :
    (∀ a b : Range, a.orOp b = b.orOp a) ∧
    (∀ a b c : Range, (a.orOp b).orOp c = a.orOp (b.orOp c)) ∧
    (∀ a : Range, IsDouble a.lo → IsDouble a.hi →
      a.orOp Range.empty = a ∧ Range.empty.orOp a = a) := by
  refine ⟨fun a b => ?_, fun a b c => ?_, fun a h1 h2 => ?_⟩
  · simp only [Range.orOp, Range.mk.injEq]
    exact ⟨min_comm _ _, max_comm _ _⟩
  · simp only [Range.orOp, Range.mk.injEq]
    exact ⟨min_assoc _ _ _, max_assoc _ _ _⟩
  · have hlo : a.lo ≤ DBL_MAX := le_trans (le_abs_self _) h1
    have hhi : -DBL_MAX ≤ a.hi := neg_le.mp (le_trans (neg_le_abs _) h2)
    cases a with
    | mk lo hi =>
      simp only [Range.orOp, Range.empty, Range.mk.injEq]
      exact ⟨⟨min_eq_left hlo, max_eq_left hhi⟩, ⟨min_eq_right hlo, max_eq_right hhi⟩⟩

/-- Witness of C23: the range `[1, 3]` and, as an empty range of finite
doubles, the default range itself. -/
theorem Range_union_monoid_witness :
    ((⟨1, 3⟩ : Range).orOp Range.empty = ⟨1, 3⟩ ∧ Range.empty.orOp ⟨1, 3⟩ = ⟨1, 3⟩) ∧
      (Range.empty.orOp Range.empty = Range.empty ∧
        Range.empty.orOp Range.empty = Range.empty) :=
  ⟨Range_union_monoid.2.2 ⟨1, 3⟩ (by decide!) (by decide!),
    Range_union_monoid.2.2 Range.empty (by decide!) (by decide!)⟩

/-- C24: for all non-empty ranges `a` and `b`, `a & b` is
`[max(a.lo, b.lo), min(a.hi, b.hi)]`; it has `lo > hi` exactly when `a` and `b`
are disjoint, that is when `a.Contains(b)` is false, and `lo ≤ hi` otherwise. -/
theorem Range_inter_empty_iff (a b : Range) (ha : a.lo ≤ a.hi) (hb : b.lo ≤ b.hi) :
    a.andOp b = ⟨max a.lo b.lo, min a.hi b.hi⟩ ∧
      ((a.andOp b).lo > (a.andOp b).hi ↔ a.ContainsRange b = false) ∧
      (a.ContainsRange b = true → (a.andOp b).lo ≤ (a.andOp b).hi) := by
  have key : a.ContainsRange b = true ↔ max a.lo b.lo ≤ min a.hi b.hi := by
    simp only [Range.ContainsRange, Bool.and_eq_true, decide_eq_true_eq, max_le_iff,
      le_min_iff]
    constructor
    · rintro ⟨h1, h2⟩
      exact ⟨⟨ha, h2⟩, ⟨h1, hb⟩⟩
    · rintro ⟨⟨_, h2⟩, ⟨h1, _⟩⟩
      exact ⟨h1, h2⟩
  refine ⟨rfl, ?_, fun h => key.mp h⟩
  show max a.lo b.lo > min a.hi b.hi ↔ _
  rw [← Bool.not_eq_true, key, not_le]

/-- Witness of C24: the disjoint ranges `[0, 1]` and `[2, 3]`. -/
theorem Range_inter_empty_iff_witness :
    ((⟨0, 1⟩ : Range).andOp ⟨2, 3⟩).lo > ((⟨0, 1⟩ : Range).andOp ⟨2, 3⟩).hi :=
  (Range_inter_empty_iff ⟨0, 1⟩ ⟨2, 3⟩ (by decide!) (by decide!)).2.1.mpr (by decide!)

/-- C25: for all non-empty ranges `a` and `b`, exactly one of `a < b`, `a > b`
and `a.Contains(b)` holds: `Contains` is symmetric, it is true exactly when
neither `a < b` nor `a > b`, and `a < b` and `a > b` never hold together. -/
theorem Range_order_trichotomy (a b : Range) (ha : a.lo ≤ a.hi) (hb : b.lo ≤ b.hi) :
    (a.ContainsRange b = b.ContainsRange a) ∧
      (a.ContainsRange b = true ↔ a.lt b = false ∧ a.gt b = false) ∧
      ¬ (a.lt b = true ∧ a.gt b = true) ∧
      ((a.lt b = true ∧ a.gt b = false ∧ a.ContainsRange b = false) ∨
        (a.lt b = false ∧ a.gt b = true ∧ a.ContainsRange b = false) ∨
        (a.lt b = false ∧ a.gt b = false ∧ a.ContainsRange b = true)) := by
  simp only [Range.ContainsRange, Range.lt, Range.gt, Bool.and_eq_true, decide_eq_true_eq,
    decide_eq_false_iff_not, not_lt, gt_iff_lt, Bool.and_eq_false_iff, not_le]
  refine ⟨?_, ?_, ?_, ?_⟩
  · rw [Bool.and_comm]
  · constructor
    · rintro ⟨h1, h2⟩; exact ⟨h2, h1⟩
    · rintro ⟨h1, h2⟩; exact ⟨h2, h1⟩
  · rintro ⟨h1, h2⟩; linarith
  · rcases lt_or_le a.hi b.lo with h | h
    · exact Or.inl ⟨h, by linarith, Or.inr h⟩
    · rcases lt_or_le b.hi a.lo with g | g
      · exact Or.inr (Or.inl ⟨h, g, Or.inl g⟩)
      · exact Or.inr (Or.inr ⟨h, g, g, h⟩)

/-- Witness of C25: the overlapping ranges `[0, 2]` and `[1, 3]`. -/
theorem Range_order_trichotomy_witness :
    (⟨0, 2⟩ : Range).ContainsRange ⟨1, 3⟩ = true ↔
      (⟨0, 2⟩ : Range).lt ⟨1, 3⟩ = false ∧ (⟨0, 2⟩ : Range).gt ⟨1, 3⟩ = false :=
  (Range_order_trichotomy ⟨0, 2⟩ ⟨1, 3⟩ (by decide!) (by decide!)).2.1

/-! ### Dimension checks -/

/-- C26 as stated fails: `Contains`, `MinDistance` and `MaxDistance` carry no
assertion and return a result for an operand of another dimension.  The
3-dimension bound `{[0,2],[0,2],[0,2]}` answers `true` for the 1-dimension
point `(1)`, and the 1-dimension bound `{[0,0]}` gives distances for the
2-dimension point `(3, 5)`; every index these calls use is valid. -/
theorem no_assert_on_mismatch :
    ([1] : List ℚ).length ≠ cubeBound.dim_ ∧ cubeBound.Contains [1] = true ∧
      ([3, 5] : List ℚ).length ≠ originBound.dim_ ∧ originBound.MinDistance [3, 5] = 9 ∧
      originBound.MaxDistance [3, 5] = 9 / 4 := by
  refine ⟨?_, ?_, ?_, ?_, ?_⟩ <;> decide!

/-- C26, amended: `RangeDistance` (to a point or to a bound) and `|=` (with a
point or with a bound) fail with an assertion whenever the operand's dimension
differs from the bound's dimension, instead of returning a result. -/
theorem assert_on_mismatch :
    (∀ (b : PeriodicHRectBound) (p : List ℚ), p.length ≠ b.dim_ →
      b.RangeDistance p = none ∧ b.orEqPoint p = none) ∧
    (∀ b c : PeriodicHRectBound, c.dim_ ≠ b.dim_ →
      b.RangeDistanceBound c = none ∧ b.orEqBound c = none) := by
  refine ⟨fun b p h => ⟨?_, ?_⟩, fun b c h => ⟨?_, ?_⟩⟩
  · rw [RangeDistance, if_neg h]
  · rw [orEqPoint, if_neg h]
  · rw [RangeDistanceBound, if_neg (fun e => h e.symm)]
  · rw [orEqBound, if_neg h]

/-- Witness of the amended C26: the 3-dimension test bound against the
1-dimension point `(1)` and the 1-dimension bound `{[0,0]}`. -/
theorem assert_on_mismatch_witness :
    (cubeBound.RangeDistance [1] = none ∧ cubeBound.orEqPoint [1] = none) ∧
      (cubeBound.RangeDistanceBound originBound = none ∧
        cubeBound.orEqBound originBound = none) :=
  ⟨assert_on_mismatch.1 cubeBound [1] (by decide),
    assert_on_mismatch.2 cubeBound originBound (by decide)⟩

/-! ### Ball bound -/

theorem distSq_comm (x y : List ℝ) : distSq x y = distSq y x := by
  unfold distSq
  induction x generalizing y with
  | nil => cases y <;> rfl
  | cons a x ih =>
    cases y with
    | nil => rfl
    | cons b y =>
      simp only [List.zipWith_cons_cons, List.sum_cons]
      rw [ih y]
      ring

theorem distSq_nonneg (x y : List ℝ) : 0 ≤ distSq x y := by
  unfold distSq
  induction x generalizing y with
  | nil => cases y <;> simp
  | cons a x ih =>
    cases y with
    | nil => simp
    | cons b y =>
      simp only [List.zipWith_cons_cons, List.sum_cons]
      exact add_nonneg (sq_nonneg _) (ih y)

/-- C30: for two ball bounds with real coordinates and radii `r1`, `r2` that are
not negative, with `d` the Euclidean distance of the centres (`d ≥ 0` and `d^2`
the sum of the squared coordinate differences, which is `Real.sqrt` of that
sum), the square root of `MinDistanceSq` is `max(0, d - r1 - r2)` and the square
root of `MaxDistanceSq` is `d + r1 + r2`, and both are the same in the two
directions; for the centres `(1,2,3)` and `(1,2,4)` with radii 0.3 and 0.4 the
distance is 1 and the two values are 0.3 and 1.7. -/
theorem BallBound_distances :
    (∀ (b1 b2 : BallBound ℝ) (d : ℝ), 0 ≤ b1.radius → 0 ≤ b2.radius →
      0 ≤ d → d ^ 2 = distSq b1.center b2.center →
      d = Real.sqrt (distSq b1.center b2.center) ∧
        Real.sqrt (BallBound.MinDistanceSq Real.sqrt b1 b2) =
          max 0 (d - b1.radius - b2.radius) ∧
        Real.sqrt (BallBound.MaxDistanceSq Real.sqrt b1 b2) = d + b1.radius + b2.radius ∧
        BallBound.MinDistanceSq Real.sqrt b2 b1 = BallBound.MinDistanceSq Real.sqrt b1 b2 ∧
        BallBound.MaxDistanceSq Real.sqrt b2 b1 = BallBound.MaxDistanceSq Real.sqrt b1 b2) ∧
    (∀ b1 b2 : BallBound ℝ, ∃ d : ℝ, 0 ≤ d ∧ d ^ 2 = distSq b1.center b2.center) ∧
    (Real.sqrt (distSq (ballOne ℝ).center (ballTwo ℝ).center) = 1 ∧
      Real.sqrt (BallBound.MinDistanceSq Real.sqrt (ballOne ℝ) (ballTwo ℝ)) = 3 / 10 ∧
      Real.sqrt (BallBound.MaxDistanceSq Real.sqrt (ballOne ℝ) (ballTwo ℝ)) = 17 / 10 ∧
      Real.sqrt (BallBound.MinDistanceSq Real.sqrt (ballTwo ℝ) (ballOne ℝ)) = 3 / 10 ∧
      Real.sqrt (BallBound.MaxDistanceSq Real.sqrt (ballTwo ℝ) (ballOne ℝ)) = 17 / 10) := by
  have gen : ∀ (b1 b2 : BallBound ℝ) (d : ℝ), 0 ≤ b1.radius → 0 ≤ b2.radius →
      0 ≤ d → d ^ 2 = distSq b1.center b2.center →
      d = Real.sqrt (distSq b1.center b2.center) ∧
        Real.sqrt (BallBound.MinDistanceSq Real.sqrt b1 b2) =
          max 0 (d - b1.radius - b2.radius) ∧
        Real.sqrt (BallBound.MaxDistanceSq Real.sqrt b1 b2) = d + b1.radius + b2.radius ∧
        BallBound.MinDistanceSq Real.sqrt b2 b1 = BallBound.MinDistanceSq Real.sqrt b1 b2 ∧
        BallBound.MaxDistanceSq Real.sqrt b2 b1 = BallBound.MaxDistanceSq Real.sqrt b1 b2 := by
    intro b1 b2 d hr1 hr2 hd hsq
    have hdist : Real.sqrt (distSq b1.center b2.center) = d := by
      rw [← hsq]
      exact Real.sqrt_sq hd
    have hclamp : ∀ x : ℝ, (if x < 0 then 0 else x) = max 0 x := fun x => by
      split_ifs with h
      · exact (max_eq_left (le_of_lt h)).symm
      · exact (max_eq_right (not_lt.mp h)).symm
    refine ⟨hdist.symm, ?_, ?_, ?_, ?_⟩
    · simp only [BallBound.MinDistanceSq, hclamp, hdist]
      rw [Real.sqrt_sq (le_max_left _ _)]
      congr 1
      ring
    · simp only [BallBound.MaxDistanceSq, hdist]
      rw [Real.sqrt_sq (by linarith)]
      ring
    · simp only [BallBound.MinDistanceSq, distSq_comm b2.center b1.center,
        add_comm b2.radius b1.radius]
    · simp only [BallBound.MaxDistanceSq, distSq_comm b2.center b1.center,
        add_comm b2.radius b1.radius]
  have hone : (1 : ℝ) ^ 2 = distSq (ballOne ℝ).center (ballTwo ℝ).center := by
    norm_num [distSq, ballOne, ballTwo]
  have hr1 : (0 : ℝ) ≤ (ballOne ℝ).radius := by norm_num [ballOne]
  have hr2 : (0 : ℝ) ≤ (ballTwo ℝ).radius := by norm_num [ballTwo]
  obtain ⟨g0, g1, g2, g3, g4⟩ := gen (ballOne ℝ) (ballTwo ℝ) 1 hr1 hr2 zero_le_one hone
  have e1 : max 0 ((1 : ℝ) - (ballOne ℝ).radius - (ballTwo ℝ).radius) = 3 / 10 := by
    norm_num [ballOne, ballTwo]
  have e2 : (1 : ℝ) + (ballOne ℝ).radius + (ballTwo ℝ).radius = 17 / 10 := by
    norm_num [ballOne, ballTwo]
  rw [e1] at g1
  rw [e2] at g2
  refine ⟨gen, fun b1 b2 => ⟨Real.sqrt (distSq b1.center b2.center), Real.sqrt_nonneg _,
    Real.sq_sqrt (distSq_nonneg _ _)⟩, g0.symm, g1, g2, ?_, ?_⟩
  · rw [g3]; exact g1
  · rw [g4]; exact g2

/-- Witness of C30: the balls with centres `(0,0)` and `(1,1)` and radii 1 and
2, at the distance `√2`: they overlap, so the smallest distance is 0 and the
largest is `√2 + 3`. -/
theorem BallBound_distances_witness :
    Real.sqrt (BallBound.MinDistanceSq Real.sqrt (ballDiag ℝ).1 (ballDiag ℝ).2) =
        max 0 (Real.sqrt 2 - (ballDiag ℝ).1.radius - (ballDiag ℝ).2.radius) ∧
      Real.sqrt (BallBound.MaxDistanceSq Real.sqrt (ballDiag ℝ).1 (ballDiag ℝ).2) =
        Real.sqrt 2 + (ballDiag ℝ).1.radius + (ballDiag ℝ).2.radius :=
  have h := BallBound_distances.1 (ballDiag ℝ).1 (ballDiag ℝ).2 (Real.sqrt 2)
    (by norm_num [ballDiag]) (by norm_num [ballDiag]) (Real.sqrt_nonneg 2)
    (by rw [Real.sq_sqrt (by norm_num)]; norm_num [distSq, ballDiag])
  ⟨h.2.1, h.2.2.1⟩

/-! ### The start value of the running minimum -/

theorem min_step_bounds (t m : ℚ) (ht : 0 ≤ t) (hm : 0 ≤ m ∧ m ≤ 100000000) :
    0 ≤ (if t < m then t else m) ∧ (if t < m then t else m) ≤ 100000000 := by
  split_ifs with h
  · exact ⟨ht, le_trans (le_of_lt h) hm.2⟩
  · exact hm

theorem minAxisPoint_bounds (r : Range) (P v : ℚ) :
    0 ≤ minAxisPoint r P v ∧ minAxisPoint r P v ≤ 100000000 := by
  simp only [minAxisPoint, range_three, List.foldl_cons, List.foldl_nil]
  exact min_step_bounds _ _ (minTerm_nonneg _ _)
    (min_step_bounds _ _ (minTerm_nonneg _ _)
      (min_step_bounds _ _ (minTerm_nonneg _ _) ⟨by norm_num, le_refl _⟩))

theorem minImageBound_bounds (r : Range) (B : ℚ) (a : Range) (m : ℚ) (k : ℕ)
    (hm : 0 ≤ m ∧ m ≤ 100000000) :
    0 ≤ minImageBound r B a m k ∧ minImageBound r B a m k ≤ 100000000 := by
  simp only [minImageBound]
  refine min_step_bounds _ _ ?_ hm
  split_ifs
  · exact minSplit_nonneg _ _ _ _
  · exact minTerm_nonneg _ _

theorem minAxisBound_bounds (r : Range) (P : ℚ) (o a : Range) :
    0 ≤ minAxisBound r P o a ∧ minAxisBound r P o a ≤ 100000000 := by
  simp only [minAxisBound, range_three, List.foldl_cons, List.foldl_nil]
  exact minImageBound_bounds _ _ _ _ _
    (minImageBound_bounds _ _ _ _ _
      (minImageBound_bounds _ _ _ _ _ ⟨by norm_num, le_refl _⟩))

/-- The `x + fabs(x)` expression is at least the square of the larger one-sided
gap, whatever the signs. -/
theorem sq_gap_le_minTerm (x y : ℚ) : (max (max x y) 0) ^ 2 ≤ minTerm x y := by
  have hx : x + |x| = 2 * max x 0 := by
    rcases le_total 0 x with h | h
    · rw [abs_of_nonneg h, max_eq_left h]; ring
    · rw [abs_of_nonpos h, max_eq_right h]; ring
  have hy : y + |y| = 2 * max y 0 := by
    rcases le_total 0 y with h | h
    · rw [abs_of_nonneg h, max_eq_left h]; ring
    · rw [abs_of_nonpos h, max_eq_right h]; ring
  have hm : max (max x y) 0 = max (max x 0) (max y 0) := by
    rw [max_max_max_comm, max_self]
  have h1 : 0 ≤ max x 0 := le_max_right _ _
  have h2 : 0 ≤ max y 0 := le_max_right _ _
  have h3 : max (max x 0) (max y 0) ≤ max x 0 + max y 0 :=
    max_le (by linarith) (by linarith)
  have h4 : 0 ≤ max (max x 0) (max y 0) := le_trans h1 (le_max_left _ _)
  rw [minTerm_eq, hx, hy, hm]
  nlinarith

theorem sum_axis_bounds (f : ℕ → ℚ) (n : ℕ)
    (h : ∀ i, i < n → 0 ≤ f i ∧ f i ≤ 100000000) :
    0 ≤ ∑ i ∈ Finset.range n, f i ∧ ∑ i ∈ Finset.range n, f i ≤ 100000000 * n := by
  constructor
  · exact Finset.sum_nonneg fun i hi => (h i (Finset.mem_range.mp hi)).1
  · have := Finset.sum_le_card_nsmul (Finset.range n) f 100000000
      fun i hi => (h i (Finset.mem_range.mp hi)).2
    rw [Finset.card_range, nsmul_eq_mul] at this
    linarith

/-- C31: in both forms of `MinDistance` (any periods, metric exponent 2) each
axis adds a value between 0 and 100000000, so `0 ≤ MinDistance ≤ 100000000 * dim`
for an operand of the bound's dimension; with period 0 an axis whose squared gap
exceeds 100000000 adds exactly 100000000 (for a bound operand, the gap to a
non-empty interval of finite doubles); the bound `{[0,0]}` and the point `20000`
give 100000000, not 400000000. -/
theorem MinDistance_capped :
    (∀ (r : Range) (P v : ℚ), 0 ≤ minAxisPoint r P v ∧ minAxisPoint r P v ≤ 100000000) ∧
    (∀ (r : Range) (P : ℚ) (o a : Range),
      0 ≤ minAxisBound r P o a ∧ minAxisBound r P o a ≤ 100000000) ∧
    (∀ (b : PeriodicHRectBound) (point : List ℚ), b.WF → point.length = b.dim_ →
      b.MinDistance point =
          ∑ i ∈ Finset.range b.dim_,
            minAxisPoint (b.get i) (b.box_.getD i 0) (point.getD i 0) ∧
        0 ≤ b.MinDistance point ∧ b.MinDistance point ≤ 100000000 * b.dim_) ∧
    (∀ (a b : PeriodicHRectBound), a.WF → b.dim_ = a.dim_ →
      a.MinDistanceBound b =
          ∑ i ∈ Finset.range a.dim_,
            minAxisBound (a.get i) (a.box_.getD i 0) (b.get i) (Range.empty.orEq (b.get i)) ∧
        0 ≤ a.MinDistanceBound b ∧ a.MinDistanceBound b ≤ 100000000 * a.dim_) ∧
    (∀ (r : Range) (v : ℚ), (pointGap r v) ^ 2 > 100000000 →
      minAxisPoint r 0 v = 100000000) ∧
    (∀ (r o : Range), IsDouble o.lo → IsDouble o.hi → o.lo ≤ o.hi →
      (boundGap r o) ^ 2 > 100000000 →
      minAxisBound r 0 o (Range.empty.orEq o) = 100000000) ∧
    originBound.MinDistance [20000] = 100000000 ∧
    (pointGap (originBound.get 0) 20000) ^ 2 = 400000000 := by
  refine ⟨minAxisPoint_bounds, minAxisBound_bounds, fun b point hwf hlen => ?_,
    fun a b hwf hdim => ?_, fun r v h => ?_, fun r o h1 h2 hne h => ?_, by decide!, by decide!⟩
  · rw [MinDistance_eq_sum b point hwf.2 hlen]
    exact ⟨rfl, sum_axis_bounds _ _ fun i _ => minAxisPoint_bounds _ _ _⟩
  · rw [MinDistanceBound_eq_sum a b hwf.2 hdim]
    exact ⟨rfl, sum_axis_bounds _ _ fun i _ => minAxisBound_bounds _ _ _ _⟩
  · rw [minAxisPoint_plain, if_neg]
    have := sq_gap_le_minTerm (r.lo - v) (v - r.hi)
    unfold pointGap at h
    linarith
  · rw [empty_orEq_of_isDouble o ⟨h1, h2⟩,
      minAxisBound_plain r o (empty_orEq_of_isDouble o ⟨h1, h2⟩) hne, if_neg]
    have := sq_gap_le_minTerm (o.lo - r.hi) (r.lo - o.hi)
    unfold boundGap at h
    linarith

/-- Witness of C31: the bound `{[0,0]}` and the point `20000`, at squared gap
400000000. -/
theorem MinDistance_capped_witness :
    0 ≤ originBound.MinDistance [20000] ∧
      originBound.MinDistance [20000] ≤ 100000000 * originBound.dim_ ∧
      minAxisPoint (originBound.get 0) 0 20000 = 100000000 :=
  ⟨(MinDistance_capped.2.2.1 originBound [20000] (by decide!) (by decide)).2.1,
    (MinDistance_capped.2.2.1 originBound [20000] (by decide!) (by decide)).2.2,
    MinDistance_capped.2.2.2.2.1 (originBound.get 0) 20000 (by decide!)⟩

/-! ### A point as a bound -/

theorem foldCoord_isDouble (B v : ℚ) (hB : 0 ≤ B) (hv : IsDouble v) :
    IsDouble (foldCoord B v) := by
  unfold foldCoord
  split_ifs with h1 h2
  · have hpos : 0 < B := lt_of_le_of_ne hB (Ne.symm h1)
    unfold IsDouble at *
    rcases le_or_lt 0 v with h | h
    · obtain ⟨f1, f2⟩ := fmod_of_nonneg v B hpos h
      rw [abs_of_nonneg f1]
      linarith [le_of_lt h2]
    · obtain ⟨f1, f2⟩ := fmod_of_neg v B hpos h
      rw [abs_of_nonpos f2]
      linarith [le_of_lt h2]
  · exact hv
  · exact hv

theorem foldRange_point (B x : ℚ) :
    foldRange B ⟨x, x⟩ ⟨x, x⟩ = ⟨foldCoord B x, foldCoord B x⟩ := by
  unfold foldRange foldCoord
  by_cases h1 : B ≠ 0
  · by_cases h2 : |x| > B
    · simp only [h1, h2, if_true, ne_eq, not_false_eq_true]
    · simp only [h1, h2, if_true, if_false, ne_eq, not_false_eq_true]
  · simp only [h1, if_false]

theorem shiftRange_point (B y : ℚ) (k : ℕ) (hy : IsDouble y) :
    shiftRange B ⟨y, y⟩ k = ⟨shiftCoord B y k, shiftCoord B y k⟩ := by
  unfold shiftRange shiftCoord
  rw [empty_orEq_of_isDouble ⟨y, y⟩ ⟨hy, hy⟩]
  split_ifs <;> rfl

theorem minTerm_comm (x y : ℚ) : minTerm x y = minTerm y x := by
  rw [minTerm_eq, minTerm_eq]
  ring

/-- On a single-point range the minimum bound form adds what the point form
adds. -/
theorem minAxisBound_point (r : Range) (P x : ℚ) (hx : IsDouble x) :
    minAxisBound r P ⟨x, x⟩ (Range.empty.orEq ⟨x, x⟩) = minAxisPoint r P x := by
  have hy : IsDouble (foldCoord |P| x) := foldCoord_isDouble _ _ (abs_nonneg P) hx
  have hstep : minImageBound r |P| ⟨foldCoord |P| x, foldCoord |P| x⟩ = fun m k =>
      let z := shiftCoord |P| (foldCoord |P| x) k
      let t := minTerm (r.lo - z) (z - r.hi)
      if t < m then t else m := by
    funext m k
    simp only [minImageBound, shiftRange_point _ _ _ hy, lt_irrefl, if_false]
    rw [minTerm_comm]
  rw [minAxisBound, minAxisPoint, empty_orEq_of_isDouble ⟨x, x⟩ ⟨hx, hx⟩, foldRange_point,
    hstep]

theorem maxImageBound_point (r : Range) (B : ℚ) (u : ℕ → ℚ × ℚ) (m y : ℚ) (k : ℕ)
    (hy : IsDouble y) :
    maxImageBound r B u (4 * m, ⟨y, y⟩) k =
      (4 * (if maxTermPoint r (shiftCoord B y k) > m then maxTermPoint r (shiftCoord B y k)
        else m), ⟨y, y⟩) := by
  simp only [maxImageBound, shiftRange_point _ _ _ hy, lt_irrefl, if_false, maxV,
    maxTermPoint, powInvT_eq, powT_eq, zero_add]
  refine Prod.ext ?_ rfl
  simp only []
  split_ifs with h1 h2 h2
  · ring
  · exfalso; apply h2; linarith
  · exfalso; apply h1; linarith
  · rfl

theorem maxImages_point (r : Range) (B : ℚ) (u : ℕ → ℚ × ℚ) (y : ℚ) (hy : IsDouble y)
    (ks : List ℕ) (m : ℚ) :
    ks.foldl (maxImageBound r B u) (4 * m, ⟨y, y⟩) =
      (4 * ks.foldl (fun m k =>
          let t := maxTermPoint r (shiftCoord B y k)
          if t > m then t else m) m, ⟨y, y⟩) := by
  induction ks generalizing m with
  | nil => rfl
  | cons k ks ih =>
    rw [List.foldl_cons, maxImageBound_point r B u m y k hy, ih, List.foldl_cons]

/-- On a single-point range the maximum bound form adds four times what the
point form adds, whatever the uninitialised sums hold: the range is never
split. -/
theorem maxAxisBound_point (r : Range) (P x : ℚ) (u : ℕ → ℚ × ℚ) (hx : IsDouble x) :
    maxAxisBound r P ⟨x, x⟩ (Range.empty.orEq ⟨x, x⟩) u = 4 * maxAxisPoint r P x := by
  have hy : IsDouble (foldCoord |P| x) := foldCoord_isDouble _ _ (abs_nonneg P) hx
  have h := maxImages_point r |P| u (foldCoord |P| x) hy (List.range 3) 0
  rw [mul_zero] at h
  rw [maxAxisBound, empty_orEq_of_isDouble ⟨x, x⟩ ⟨hx, hx⟩, foldRange_point, h]
  rfl

/-- C32: for every bound `b` (any periods, metric exponent 2), every point `v`
of the same dimension (finite doubles) and the single-point bound `s` with
intervals `[v_i, v_i]` (any periods of its own), `b.MaxDistance(s)` is exactly
four times `b.MaxDistance(v)`, whatever the uninitialised sums hold: the point
form divides each axis term by 4 and the bound form does not. -/
theorem MaxDistance_point_as_bound (b s : PeriodicHRectBound) (v : List ℚ)
    (u : ℕ → ℕ → ℚ × ℚ) (hwf : b.WF) (hlen : v.length = b.dim_) (hdim : s.dim_ = b.dim_)
    (hs : ∀ i, i < b.dim_ → s.get i = ⟨v.getD i 0, v.getD i 0⟩)
    (hfin : ∀ i, i < b.dim_ → IsDouble (v.getD i 0)) :
    b.MaxDistanceBound s u = 4 * b.MaxDistance v := by
  rw [MaxDistanceBound_eq_sum b s u hwf.2 hdim, MaxDistance_eq_sum b v hwf.2 hlen,
    Finset.mul_sum]
  refine Finset.sum_congr rfl fun i hi => ?_
  have hi1 := Finset.mem_range.mp hi
  rw [hs i hi1]
  exact maxAxisBound_point _ _ _ _ (hfin i hi1)

/-- Witness of C32: the bound `{[2,3],[0,1]}` with periods 4 and 5, the point
`(7, -1)` and the bound `{[7,7],[-1,-1]}` with periods 0. -/
theorem MaxDistance_point_as_bound_witness :
    torusBound.MaxDistanceBound ⟨[⟨7, 7⟩, ⟨-1, -1⟩], 2, [0, 0]⟩ zeroInit =
      4 * torusBound.MaxDistance [7, -1] :=
  MaxDistance_point_as_bound torusBound ⟨[⟨7, 7⟩, ⟨-1, -1⟩], 2, [0, 0]⟩ [7, -1] zeroInit
    (by decide!) (by decide) (by decide) (by decide!) (by decide!)

/-- C33: for every bound `b` (any periods, metric exponent 2), every point `v`
of the same dimension (finite doubles) and the single-point bound `s` with
intervals `[v_i, v_i]`, whatever the period vector of `s`,
`b.MinDistance(v) = b.MinDistance(s)`. -/
theorem MinDistance_point_as_bound (b s : PeriodicHRectBound) (v : List ℚ)
    (hwf : b.WF) (hlen : v.length = b.dim_) (hdim : s.dim_ = b.dim_)
    (hs : ∀ i, i < b.dim_ → s.get i = ⟨v.getD i 0, v.getD i 0⟩)
    (hfin : ∀ i, i < b.dim_ → IsDouble (v.getD i 0)) :
    b.MinDistance v = b.MinDistanceBound s := by
  rw [MinDistanceBound_eq_sum b s hwf.2 hdim, MinDistance_eq_sum b v hwf.2 hlen]
  refine Finset.sum_congr rfl fun i hi => ?_
  have hi1 := Finset.mem_range.mp hi
  rw [hs i hi1]
  exact (minAxisBound_point _ _ _ (hfin i hi1)).symm

/-- Witness of C33: the bound `{[2,3],[0,1]}` with periods 4 and 5, the point
`(7, -1)` and the bound `{[7,7],[-1,-1]}` with periods 9 and 9. -/
theorem MinDistance_point_as_bound_witness :
    torusBound.MinDistance [7, -1] =
      torusBound.MinDistanceBound ⟨[⟨7, 7⟩, ⟨-1, -1⟩], 2, [9, 9]⟩ :=
  MinDistance_point_as_bound torusBound ⟨[⟨7, 7⟩, ⟨-1, -1⟩], 2, [9, 9]⟩ [7, -1]
    (by decide!) (by decide) (by decide) (by decide!) (by decide!)

/-! ### The range of distances between two bounds -/

theorem RangeDistanceBound_v_order (r o : Range) (hr : r.lo ≤ r.hi) (ho : o.lo ≤ o.hi) :
    0 ≤ (RangeDistanceBound.v r o).1 ∧
      (RangeDistanceBound.v r o).1 ≤ (RangeDistanceBound.v r o).2 := by
  rw [RangeDistanceBound_v_lo, RangeDistanceBound_v_hi]
  refine ⟨boundGap_nonneg r o, ?_⟩
  unfold boundGap
  refine max_le (max_le ?_ ?_) ?_
  · exact le_trans (by linarith) (le_max_left _ _)
  · exact le_trans (by linarith) (le_max_right _ _)
  · rcases le_total r.lo o.lo with h | h
    · exact le_trans (by linarith) (le_max_left _ _)
    · exact le_trans (by linarith) (le_max_right _ _)

theorem boundGap_eq_zero_iff (r o : Range) :
    boundGap r o = 0 ↔ o.lo ≤ r.hi ∧ r.lo ≤ o.hi := by
  unfold boundGap
  constructor
  · intro h
    have h1 : max (o.lo - r.hi) (r.lo - o.hi) ≤ 0 := by
      rw [← h]; exact le_max_left _ _
    exact ⟨by linarith [le_trans (le_max_left _ _) h1],
      by linarith [le_trans (le_max_right _ _) h1]⟩
  · rintro ⟨h1, h2⟩
    exact max_eq_right (max_le (by linarith) (by linarith))

/-- C34: for any two bounds of equal dimension whose intervals are all
non-empty (metric exponent 2), `RangeDistance(bound)` returns a range with
`0 ≤ lo ≤ hi`, and `lo = 0` exactly when the two intervals touch or overlap on
every axis. -/
theorem RangeDistance_bound_order (a b : PeriodicHRectBound) (hdim : a.dim_ = b.dim_)
    (ha : a.NonEmpty) (hb : b.NonEmpty) :
    ∃ r, a.RangeDistanceBound b = some r ∧ 0 ≤ r.lo ∧ r.lo ≤ r.hi ∧
      (r.lo = 0 ↔
        ∀ i, i < a.dim_ → (b.get i).lo ≤ (a.get i).hi ∧ (a.get i).lo ≤ (b.get i).hi) := by
  have hv : ∀ i, i < a.dim_ →
      0 ≤ (RangeDistanceBound.v (a.get i) (b.get i)).1 ∧
        (RangeDistanceBound.v (a.get i) (b.get i)).1 ≤
          (RangeDistanceBound.v (a.get i) (b.get i)).2 := fun i hi =>
    RangeDistanceBound_v_order _ _ (ha i hi) (hb i (hdim ▸ hi))
  refine ⟨_, RangeDistanceBound_eq a b hdim, ?_, ?_, ?_⟩
  · show (0 : ℚ) ≤ ∑ d ∈ Finset.range a.dim_, (RangeDistanceBound.v (a.get d) (b.get d)).1 ^ 2
    exact Finset.sum_nonneg fun i _ => sq_nonneg _
  · show (∑ d ∈ Finset.range a.dim_, (RangeDistanceBound.v (a.get d) (b.get d)).1 ^ 2) ≤
      ∑ d ∈ Finset.range a.dim_, (RangeDistanceBound.v (a.get d) (b.get d)).2 ^ 2
    refine Finset.sum_le_sum fun i hi => ?_
    obtain ⟨h1, h2⟩ := hv i (Finset.mem_range.mp hi)
    exact pow_le_pow_left₀ h1 h2 2
  · show (∑ d ∈ Finset.range a.dim_, (RangeDistanceBound.v (a.get d) (b.get d)).1 ^ 2) = 0 ↔ _
    rw [Finset.sum_eq_zero_iff_of_nonneg fun i _ => sq_nonneg _]
    constructor
    · intro h i hi
      have := h i (Finset.mem_range.mpr hi)
      rw [RangeDistanceBound_v_lo] at this
      exact (boundGap_eq_zero_iff _ _).mp (pow_eq_zero_iff (by norm_num) |>.mp this)
    · intro h i hi
      rw [RangeDistanceBound_v_lo, (boundGap_eq_zero_iff _ _).mpr (h i (Finset.mem_range.mp hi))]
      norm_num

/-- Witness of C34: the two 5-dimension bounds of the test. -/
theorem RangeDistance_bound_order_witness :
    ∃ r, testBound.RangeDistanceBound testBoundC = some r ∧ 0 ≤ r.lo ∧ r.lo ≤ r.hi ∧
      (r.lo = 0 ↔
        ∀ i, i < testBound.dim_ →
          (testBoundC.get i).lo ≤ (testBound.get i).hi ∧
            (testBound.get i).lo ≤ (testBoundC.get i).hi) :=
  RangeDistance_bound_order testBound testBoundC (by decide) (by decide!) (by decide!)

end bound

namespace tree

open math

/-! ### Tree construction -/

theorem buildAux_spec (leafSize dim : ℕ) :
    ∀ (fuel begin_ : ℕ) (pts : List (ℕ × List ℚ)), pts.length < fuel →
      ∃ t q, buildAux fuel leafSize dim begin_ pts = some (t, q) ∧ q.Perm pts ∧
        t.count = pts.length ∧ t.CountsOK := by
  intro fuel
  induction fuel with
  | zero => intro _ _ h; exact absurd h (Nat.not_lt_zero _)
  | succ fuel ih =>
    intro begin_ pts h
    rw [buildAux]
    simp only []
    by_cases hle : pts.length ≤ leafSize
    · rw [if_pos hle]
      exact ⟨_, _, rfl, List.Perm.refl _, rfl, rfl⟩
    · rw [if_neg hle]
      generalize splitAxis (enclose dim (pts.map Prod.snd)) = d
      generalize ((enclose dim (pts.map Prod.snd)).getD d Range.empty).Mid = v
      have hlen := List.length_eq_length_filter_add (l := pts)
        (fun p : ℕ × List ℚ => decide (p.2.getD d 0 < v))
      have hperm := List.filter_append_perm (fun p : ℕ × List ℚ => decide (p.2.getD d 0 < v)) pts
      beta_reduce at hlen hperm
      generalize pts.filter (fun p : ℕ × List ℚ => decide (p.2.getD d 0 < v)) = l at hlen hperm ⊢
      generalize pts.filter (fun p : ℕ × List ℚ => !decide (p.2.getD d 0 < v)) = r at hlen hperm ⊢
      by_cases hemp : (l.isEmpty || r.isEmpty) = true
      · rw [if_pos hemp]
        exact ⟨_, _, rfl, List.Perm.refl _, rfl, rfl⟩
      · rw [if_neg hemp]
        simp only [Bool.or_eq_true, List.isEmpty_iff, not_or] at hemp
        have hl : 0 < l.length := List.length_pos.mpr hemp.1
        have hr : 0 < r.length := List.length_pos.mpr hemp.2
        obtain ⟨tl, pl, el, pml, cl, okl⟩ := ih begin_ l (by omega)
        obtain ⟨tr, pr, er, pmr, cr, okr⟩ := ih (begin_ + l.length) r (by omega)
        rw [el, er]
        refine ⟨_, _, rfl, (pml.append pmr).trans hperm, rfl, ?_⟩
        exact ⟨by rw [cl, cr]; exact hlen, okl, okr⟩

theorem index_maps (orig : List (List ℚ)) (q : List (ℕ × List ℚ)) (hq : q.Perm orig.enum) :
    (q.map Prod.fst).Perm (List.range orig.length) ∧
      ((List.range orig.length).map fun i => (q.map Prod.fst).indexOf i).Perm
        (List.range orig.length) ∧
      (q.map Prod.snd).length = orig.length ∧
      ∀ i, i < orig.length →
        ((List.range orig.length).map fun i => (q.map Prod.fst).indexOf i).getD
            ((q.map Prod.fst).getD i 0) 0 = i ∧
          (q.map Prod.fst).getD
            (((List.range orig.length).map fun i => (q.map Prod.fst).indexOf i).getD i 0) 0 = i ∧
          (q.map Prod.snd)[i]? = orig[(q.map Prod.fst).getD i 0]? ∧
          (q.map Prod.snd)[((List.range orig.length).map fun i =>
            (q.map Prod.fst).indexOf i).getD i 0]? = orig[i]? := by
  have hN : (q.map Prod.fst).Perm (List.range orig.length) := by
    have h := hq.map Prod.fst
    rwa [List.enum_map_fst] at h
  have hqlen : q.length = orig.length := by
    have h := hq.length_eq
    rwa [List.enum_length] at h
  have hNlen : (q.map Prod.fst).length = orig.length := by rw [List.length_map, hqlen]
  have hNnodup : (q.map Prod.fst).Nodup := hN.nodup_iff.mpr (List.nodup_range _)
  have hmem : ∀ i, i < orig.length → i ∈ q.map Prod.fst := fun i hi =>
    hN.mem_iff.mpr (List.mem_range.mpr hi)
  have hidx : ∀ i, i < orig.length → (q.map Prod.fst).indexOf i < orig.length := fun i hi => by
    rw [← hNlen]
    exact List.indexOf_lt_length.mpr (hmem i hi)
  have hO : ∀ i, i < orig.length →
      ((List.range orig.length).map fun i => (q.map Prod.fst).indexOf i).getD i 0 =
        (q.map Prod.fst).indexOf i := fun i hi => by
    rw [List.getD_eq_getElem _ _ (by rw [List.length_map, List.length_range]; exact hi)]
    rw [List.getElem_map, List.getElem_range]
  have hNget : ∀ i (hi : i < q.length), (q.map Prod.fst).getD i 0 = q[i].1 := fun i hi => by
    rw [List.getD_eq_getElem _ _ (by rw [List.length_map]; exact hi), List.getElem_map]
  have hNlt : ∀ i, i < orig.length → (q.map Prod.fst).getD i 0 < orig.length := fun i hi => by
    have hiq : i < q.length := by rw [hqlen]; exact hi
    rw [hNget i hiq]
    exact List.mem_range.mp (hN.mem_iff.mp (List.mem_map_of_mem Prod.fst (List.getElem_mem hiq)))
  have hA : ∀ i, i < orig.length → (q.map Prod.snd)[i]? = orig[(q.map Prod.fst).getD i 0]? := by
    intro i hi
    have hiq : i < q.length := by rw [hqlen]; exact hi
    have hin : q[i] ∈ orig.enum := hq.mem_iff.mp (List.getElem_mem hiq)
    have hsome : orig[q[i].1]? = some q[i].2 := List.mk_mem_enum_iff_getElem?.mp hin
    rw [hNget i hiq, hsome, List.getElem?_map, List.getElem?_eq_getElem hiq]
    rfl
  have hback : ∀ i, i < orig.length →
      (q.map Prod.fst).getD ((q.map Prod.fst).indexOf i) 0 = i := fun i hi => by
    rw [List.getD_eq_getElem _ _ (List.indexOf_lt_length.mpr (hmem i hi))]
    exact List.getElem_indexOf _
  refine ⟨hN, ?_, by rw [List.length_map, hqlen], fun i hi => ⟨?_, ?_, hA i hi, ?_⟩⟩
  · refine List.Subperm.perm_of_length_le (List.Nodup.subperm ?_ ?_) ?_
    · refine List.Nodup.map_on ?_ (List.nodup_range _)
      intro x hx y hy hxy
      exact (List.indexOf_inj (hmem x (List.mem_range.mp hx))
        (hmem y (List.mem_range.mp hy))).mp hxy
    · intro x hx
      obtain ⟨i, hi, rfl⟩ := List.mem_map.mp hx
      exact List.mem_range.mpr (hidx i (List.mem_range.mp hi))
    · rw [List.length_map]
  · have hlt : i < (q.map Prod.fst).length := by rw [hNlen]; exact hi
    rw [hO _ (hNlt i hi), List.getD_eq_getElem _ _ hlt]
    exact List.indexOf_getElem hNnodup i hlt
  · rw [hO i hi]
    exact hback i hi
  · rw [hO i hi, hA _ (hidx i hi), hback i hi]

theorem build_eq (n_rows : ℕ) (dataset : List (List ℚ)) (leafSize : ℕ) :
    ∃ (t : BinarySpaceTree) (q : List (ℕ × List ℚ)), build n_rows dataset leafSize = some
        { root := t, dataset := q.map Prod.snd, newToOld := q.map Prod.fst,
          oldToNew := (List.range dataset.length).map fun i => (q.map Prod.fst).indexOf i } ∧
      q.Perm dataset.enum ∧ t.count = dataset.length ∧ t.CountsOK := by
  obtain ⟨t, q, e, hq, hc, hok⟩ := buildAux_spec leafSize n_rows (dataset.length + 1) 0
    dataset.enum (by rw [List.enum_length]; exact Nat.lt_succ_self _)
  refine ⟨t, q, ?_, hq, ?_, hok⟩
  · rw [build, e]
    rfl
  · rw [hc, List.enum_length]

/-! ### The claims on the tree -/

/-- C27: for every dataset and every leaf size, construction returns a tree in
which the root's `count()` is the number of points, every internal node's
`count()` is `left().count() + right().count()`, and every leaf's count is the
length of its point range. -/
theorem build_counts (n_rows : ℕ) (dataset : List (List ℚ)) (leafSize : ℕ) :
    ∃ b, build n_rows dataset leafSize = some b ∧ b.root.count = dataset.length ∧
      b.root.CountsOK := by
  obtain ⟨t, q, e, _, hc, hok⟩ := build_eq n_rows dataset leafSize
  exact ⟨_, e, hc, hok⟩

/-- C28: for every dataset, construction returns maps `newToOld` and `oldToNew`
that are permutations of the point indices, inverse to each other, such that
column `i` of the reordered dataset is column `newToOld[i]` of the original and
column `oldToNew[i]` of the reordered dataset is column `i` of the original. -/
theorem build_index_maps (n_rows : ℕ) (dataset : List (List ℚ)) (leafSize : ℕ) :
    ∃ b, build n_rows dataset leafSize = some b ∧
      b.newToOld.Perm (List.range dataset.length) ∧
      b.oldToNew.Perm (List.range dataset.length) ∧
      b.dataset.length = dataset.length ∧
      ∀ i, i < dataset.length →
        b.oldToNew.getD (b.newToOld.getD i 0) 0 = i ∧
          b.newToOld.getD (b.oldToNew.getD i 0) 0 = i ∧
          b.dataset[i]? = dataset[b.newToOld.getD i 0]? ∧
          b.dataset[b.oldToNew.getD i 0]? = dataset[i]? := by
  obtain ⟨t, q, e, hq, _, _⟩ := build_eq n_rows dataset leafSize
  exact ⟨_, e, index_maps dataset q hq⟩

/-- C29: for the six columns `(2,3)`, `(5,4)`, `(9,6)`, `(4,7)`, `(8,1)`,
`(7,2)` in 2 dimensions and leaf size 1, the tree has root count 6, left 3,
left.left 2, left.left.left 1, left.left.right 1, left.right 1, right 3,
right.left 2, right.left.left 1, right.left.right 1 and right.right 1. -/
theorem six_point_counts :
    ∃ b, build 2 sixPoints 1 = some b ∧
      b.root.count = 6 ∧
      b.root.left.map BinarySpaceTree.count = some 3 ∧
      (b.root.left.bind BinarySpaceTree.left).map BinarySpaceTree.count = some 2 ∧
      ((b.root.left.bind BinarySpaceTree.left).bind BinarySpaceTree.left).map
        BinarySpaceTree.count = some 1 ∧
      ((b.root.left.bind BinarySpaceTree.left).bind BinarySpaceTree.right).map
        BinarySpaceTree.count = some 1 ∧
      (b.root.left.bind BinarySpaceTree.right).map BinarySpaceTree.count = some 1 ∧
      b.root.right.map BinarySpaceTree.count = some 3 ∧
      (b.root.right.bind BinarySpaceTree.left).map BinarySpaceTree.count = some 2 ∧
      ((b.root.right.bind BinarySpaceTree.left).bind BinarySpaceTree.left).map
        BinarySpaceTree.count = some 1 ∧
      ((b.root.right.bind BinarySpaceTree.left).bind BinarySpaceTree.right).map
        BinarySpaceTree.count = some 1 ∧
      (b.root.right.bind BinarySpaceTree.right).map BinarySpaceTree.count = some 1 := by
  have key : (build 2 sixPoints 1).map (fun b =>
      [some b.root.count,
        b.root.left.map BinarySpaceTree.count,
        (b.root.left.bind BinarySpaceTree.left).map BinarySpaceTree.count,
        ((b.root.left.bind BinarySpaceTree.left).bind BinarySpaceTree.left).map
          BinarySpaceTree.count,
        ((b.root.left.bind BinarySpaceTree.left).bind BinarySpaceTree.right).map
          BinarySpaceTree.count,
        (b.root.left.bind BinarySpaceTree.right).map BinarySpaceTree.count,
        b.root.right.map BinarySpaceTree.count,
        (b.root.right.bind BinarySpaceTree.left).map BinarySpaceTree.count,
        ((b.root.right.bind BinarySpaceTree.left).bind BinarySpaceTree.left).map
          BinarySpaceTree.count,
        ((b.root.right.bind BinarySpaceTree.left).bind BinarySpaceTree.right).map
          BinarySpaceTree.count,
        (b.root.right.bind BinarySpaceTree.right).map BinarySpaceTree.count]) =
      some [some 6, some 3, some 2, some 1, some 1, some 1, some 3, some 2, some 1, some 1,
        some 1] := by decide!
  obtain ⟨t, q, hb, _⟩ := build_eq 2 sixPoints 1
  refine ⟨_, hb, ?_⟩
  rw [hb, Option.map_some'] at key
  have key2 := Option.some.inj key
  simp only [List.cons.injEq, Option.some.injEq, and_true] at key2
  exact key2

end tree

namespace optimization

/-! ### Test functions of the augmented Lagrangian optimizer -/

theorem foldl_sub_eq (f : ℕ → ℚ) (l : List ℕ) (a : ℚ) :
    l.foldl (fun obj i => obj - f i) a = a - (l.map f).sum := by
  induction l generalizing a with
  | nil => simp
  | cons x l ih =>
    rw [List.foldl_cons, ih, List.map_cons, List.sum_cons]
    ring

/-- C37: `AugLagrangianTestFunction::Gradient` and `GockenbachFunction::Gradient`
return the gradient of the respective `Evaluate` at every input:
`(12 x1 + 4 x2, 4 x1 + 6 x2)` for `6 x1^2 + 4 x1 x2 + 3 x2^2` and
`(2 (x1 - 1), 4 (x2 + 2), 6 (x3 + 3))` for `(x1 - 1)^2 + 2 (x2 + 2)^2 + 3 (x3 + 3)^2`.
Each entry is the derivative of `Evaluate` in its coordinate, and `Evaluate` at
`x + h` is `Evaluate` at `x` plus the product of the gradient with `h` plus a
term of second order in `h`. -/
theorem Gradient_exact :
    (∀ x1 x2 : ℚ,
      AugLagrangianTestFunction.Evaluate [x1, x2] = 6 * x1 ^ 2 + 4 * x1 * x2 + 3 * x2 ^ 2 ∧
      AugLagrangianTestFunction.Gradient [x1, x2] = [12 * x1 + 4 * x2, 4 * x1 + 6 * x2] ∧
      HasDerivAt (fun t => AugLagrangianTestFunction.Evaluate [t, x2])
        ((AugLagrangianTestFunction.Gradient [x1, x2]).getD 0 0) x1 ∧
      HasDerivAt (fun t => AugLagrangianTestFunction.Evaluate [x1, t])
        ((AugLagrangianTestFunction.Gradient [x1, x2]).getD 1 0) x2 ∧
      ∀ h1 h2 : ℚ,
        AugLagrangianTestFunction.Evaluate [x1 + h1, x2 + h2] =
          AugLagrangianTestFunction.Evaluate [x1, x2] +
            ((AugLagrangianTestFunction.Gradient [x1, x2]).getD 0 0 * h1 +
              (AugLagrangianTestFunction.Gradient [x1, x2]).getD 1 0 * h2) +
            (6 * h1 ^ 2 + 4 * h1 * h2 + 3 * h2 ^ 2)) ∧
    (∀ x1 x2 x3 : ℚ,
      GockenbachFunction.Evaluate [x1, x2, x3] =
        (x1 - 1) ^ 2 + 2 * (x2 + 2) ^ 2 + 3 * (x3 + 3) ^ 2 ∧
      GockenbachFunction.Gradient [x1, x2, x3] =
        [2 * (x1 - 1), 4 * (x2 + 2), 6 * (x3 + 3)] ∧
      HasDerivAt (fun t => GockenbachFunction.Evaluate [t, x2, x3])
        ((GockenbachFunction.Gradient [x1, x2, x3]).getD 0 0) x1 ∧
      HasDerivAt (fun t => GockenbachFunction.Evaluate [x1, t, x3])
        ((GockenbachFunction.Gradient [x1, x2, x3]).getD 1 0) x2 ∧
      HasDerivAt (fun t => GockenbachFunction.Evaluate [x1, x2, t])
        ((GockenbachFunction.Gradient [x1, x2, x3]).getD 2 0) x3 ∧
      ∀ h1 h2 h3 : ℚ,
        GockenbachFunction.Evaluate [x1 + h1, x2 + h2, x3 + h3] =
          GockenbachFunction.Evaluate [x1, x2, x3] +
            ((GockenbachFunction.Gradient [x1, x2, x3]).getD 0 0 * h1 +
              (GockenbachFunction.Gradient [x1, x2, x3]).getD 1 0 * h2 +
              (GockenbachFunction.Gradient [x1, x2, x3]).getD 2 0 * h3) +
            (h1 ^ 2 + 2 * h2 ^ 2 + 3 * h3 ^ 2)) := by
  constructor
  · intro x1 x2
    refine ⟨?_, rfl, ?_, ?_, ?_⟩
    · simp [AugLagrangianTestFunction.Evaluate]; ring
    · have h : (fun t : ℚ => AugLagrangianTestFunction.Evaluate [t, x2]) =
          fun t => 6 * t ^ 2 + 4 * (t * x2) + 3 * x2 ^ 2 := by
        funext t; simp [AugLagrangianTestFunction.Evaluate]
      rw [h]
      have h1 : HasDerivAt (fun t : ℚ => t) 1 x1 := hasDerivAt_id x1
      have h2 := (((h1.pow 2).const_mul 6).add ((h1.mul_const x2).const_mul 4)).add_const
        (3 * x2 ^ 2)
      convert h2 using 1
      simp [AugLagrangianTestFunction.Gradient]; ring
    · have h : (fun t : ℚ => AugLagrangianTestFunction.Evaluate [x1, t]) =
          fun t => 6 * x1 ^ 2 + 4 * (x1 * t) + 3 * t ^ 2 := by
        funext t; simp [AugLagrangianTestFunction.Evaluate]
      rw [h]
      have h1 : HasDerivAt (fun t : ℚ => t) 1 x2 := hasDerivAt_id x2
      have h2 := (((h1.const_mul x1).const_mul 4).const_add (6 * x1 ^ 2)).add
        ((h1.pow 2).const_mul 3)
      convert h2 using 1
      simp [AugLagrangianTestFunction.Gradient]; ring
    · intro h1 h2
      simp [AugLagrangianTestFunction.Evaluate, AugLagrangianTestFunction.Gradient]
      ring
  · intro x1 x2 x3
    refine ⟨?_, rfl, ?_, ?_, ?_, ?_⟩
    · simp [GockenbachFunction.Evaluate]
    · have h : (fun t : ℚ => GockenbachFunction.Evaluate [t, x2, x3]) =
          fun t => (t - 1) ^ 2 + (2 * (x2 + 2) ^ 2 + 3 * (x3 + 3) ^ 2) := by
        funext t; simp [GockenbachFunction.Evaluate]; ring
      rw [h]
      have h1 : HasDerivAt (fun t : ℚ => t - 1) 1 x1 := (hasDerivAt_id x1).sub_const 1
      have h2 := (h1.pow 2).add_const (2 * (x2 + 2) ^ 2 + 3 * (x3 + 3) ^ 2)
      convert h2 using 1
      simp [GockenbachFunction.Gradient]
    · have h : (fun t : ℚ => GockenbachFunction.Evaluate [x1, t, x3]) =
          fun t => 2 * (t + 2) ^ 2 + ((x1 - 1) ^ 2 + 3 * (x3 + 3) ^ 2) := by
        funext t; simp [GockenbachFunction.Evaluate]; ring
      rw [h]
      have h1 : HasDerivAt (fun t : ℚ => t + 2) 1 x2 := (hasDerivAt_id x2).add_const 2
      have h2 := ((h1.pow 2).const_mul 2).add_const ((x1 - 1) ^ 2 + 3 * (x3 + 3) ^ 2)
      convert h2 using 1
      simp [GockenbachFunction.Gradient]; ring
    · have h : (fun t : ℚ => GockenbachFunction.Evaluate [x1, x2, t]) =
          fun t => 3 * (t + 3) ^ 2 + ((x1 - 1) ^ 2 + 2 * (x2 + 2) ^ 2) := by
        funext t; simp [GockenbachFunction.Evaluate]; ring
      rw [h]
      have h1 : HasDerivAt (fun t : ℚ => t + 3) 1 x3 := (hasDerivAt_id x3).add_const 3
      have h2 := ((h1.pow 2).const_mul 3).add_const ((x1 - 1) ^ 2 + 2 * (x2 + 2) ^ 2)
      convert h2 using 1
      simp [GockenbachFunction.Gradient]; ring
    · intro h1 h2 h3
      simp [GockenbachFunction.Evaluate, GockenbachFunction.Gradient]
      ring

/-- C38: the claim makes `LovaszThetaSDP::Evaluate(R)` the negative of the sum
of all entries of `R^T R`; the loop subtracts the products of each column with
itself only, which is the negative of the trace of `R^T R`.  For the 1 x 2
matrix `(1 1)` the result is -2 and the negative sum of all entries is -4. -/
theorem Evaluate_negTrace :
    (∀ R : List (List ℚ), LovaszThetaSDP.Evaluate R = LovaszThetaSDP.negTraceGram R) ∧
    LovaszThetaSDP.Evaluate LovaszThetaSDP.onesRow = -2 ∧
    LovaszThetaSDP.negSumGram LovaszThetaSDP.onesRow = -4 := by
  refine ⟨fun R => ?_, by decide!, by decide!⟩
  rw [LovaszThetaSDP.Evaluate, foldl_sub_eq, zero_sub]
  rfl

/-- C39: `EvaluateConstraint` returns 0 and `GradientConstraint` the zero
vector for every index that names no constraint: other than 0 for
`AugLagrangianTestFunction`, other than 0 and 1 for `GockenbachFunction`; and
constraint 1 of `GockenbachFunction` is `min(0, x3 - x1^2)`, never positive, and
0 exactly when `x3 >= x1^2`. -/
theorem invalid_constraint_index :
    (∀ (index : ℤ) (coordinates : List ℚ), index ≠ 0 →
      AugLagrangianTestFunction.EvaluateConstraint index coordinates = 0 ∧
        AugLagrangianTestFunction.GradientConstraint index coordinates = [0, 0]) ∧
    (∀ (index : ℤ) (coordinates : List ℚ), index ≠ 0 → index ≠ 1 →
      GockenbachFunction.EvaluateConstraint index coordinates = 0 ∧
        GockenbachFunction.GradientConstraint index coordinates = [0, 0, 0]) ∧
    (∀ coordinates : List ℚ,
      GockenbachFunction.EvaluateConstraint 1 coordinates =
          min 0 (coordinates.getD 2 0 - (coordinates.getD 0 0) ^ 2) ∧
        GockenbachFunction.EvaluateConstraint 1 coordinates ≤ 0 ∧
        (GockenbachFunction.EvaluateConstraint 1 coordinates = 0 ↔
          coordinates.getD 2 0 ≥ (coordinates.getD 0 0) ^ 2)) := by
  refine ⟨fun index c h => ?_, fun index c h0 h1 => ?_, fun c => ?_⟩
  · simp [AugLagrangianTestFunction.EvaluateConstraint,
      AugLagrangianTestFunction.GradientConstraint, h]
  · simp [GockenbachFunction.EvaluateConstraint, GockenbachFunction.GradientConstraint, h0, h1]
  · have e : GockenbachFunction.EvaluateConstraint 1 c =
        min 0 (c.getD 2 0 - (c.getD 0 0) ^ 2) := by
      simp [GockenbachFunction.EvaluateConstraint]
    rw [e]
    refine ⟨rfl, min_le_left _ _, ?_⟩
    rw [min_eq_left_iff]
    constructor <;> intro h <;> linarith

/-- Witness of C39: the index 7 on both functions, and the point `(2, 0, 5)`,
for which `x3 >= x1^2`. -/
theorem invalid_constraint_index_witness :
    (AugLagrangianTestFunction.EvaluateConstraint 7 [1, 2] = 0 ∧
        AugLagrangianTestFunction.GradientConstraint 7 [1, 2] = [0, 0]) ∧
      (GockenbachFunction.EvaluateConstraint 7 [2, 0, 5] = 0 ∧
        GockenbachFunction.GradientConstraint 7 [2, 0, 5] = [0, 0, 0]) ∧
      GockenbachFunction.EvaluateConstraint 1 [2, 0, 5] = 0 :=
  ⟨invalid_constraint_index.1 7 [1, 2] (by decide),
    invalid_constraint_index.2.1 7 [2, 0, 5] (by decide) (by decide),
    (invalid_constraint_index.2.2 [2, 0, 5]).2.2.mpr (by decide!)⟩

end optimization

namespace kmeans

/-! ### Empty-cluster policy of k-means -/

theorem furthest_spec (data centroids : List (List ℚ)) (assignments : List ℕ) (mv : ℕ) :
    (furthest data centroids assignments mv).1 = data.length ∨
      ((furthest data centroids assignments mv).1 < data.length ∧
        assignments.getD (furthest data centroids assignments mv).1 0 = mv) := by
  have key : ∀ m, m ≤ data.length →
      ((List.range m).foldl
        (fun (st : ℕ × ℚ) i =>
          if assignments.getD i 0 = mv then
            let diff := colSub (data.getD i []) (centroids.getD mv [])
            let distance := var diff
            if distance > st.2 then (i, distance) else st
          else st) (data.length, 0)).1 = data.length ∨
      (((List.range m).foldl
        (fun (st : ℕ × ℚ) i =>
          if assignments.getD i 0 = mv then
            let diff := colSub (data.getD i []) (centroids.getD mv [])
            let distance := var diff
            if distance > st.2 then (i, distance) else st
          else st) (data.length, 0)).1 < data.length ∧
        assignments.getD ((List.range m).foldl
          (fun (st : ℕ × ℚ) i =>
            if assignments.getD i 0 = mv then
              let diff := colSub (data.getD i []) (centroids.getD mv [])
              let distance := var diff
              if distance > st.2 then (i, distance) else st
            else st) (data.length, 0)).1 0 = mv) := by
    intro m
    induction m with
    | zero => intro _; exact Or.inl rfl
    | succ m ih =>
      intro hm
      rw [List.range_succ, List.foldl_append, List.foldl_cons, List.foldl_nil]
      have ih1 := ih (by omega)
      simp only []
      split_ifs with h1 h2
      · exact Or.inr ⟨by omega, h1⟩
      · exact ih1
      · exact ih1
  exact key data.length (le_refl _)

theorem count_set (l : List ℕ) (i a e c : ℕ) (hi : i < l.length) (ha : l.getD i 0 = a) :
    (l.set i e).count c + (if a = c then 1 else 0) =
      l.count c + (if e = c then 1 else 0) := by
  induction l generalizing i with
  | nil => exact absurd hi (Nat.not_lt_zero _)
  | cons x t ih =>
    cases i with
    | zero =>
      have hx : x = a := by simpa using ha
      subst hx
      simp only [List.set_cons_zero, List.count_cons, beq_iff_eq]
      omega
    | succ i =>
      have hi1 : i < t.length := by simpa using hi
      have ha1 : t.getD i 0 = a := by simpa using ha
      have := ih i hi1 ha1
      simp only [List.set_cons_succ, List.count_cons, beq_iff_eq]
      omega

theorem sum_indicator_range (x k : ℕ) :
    ((List.range k).map fun c => if x = c then 1 else 0).sum = if x < k then 1 else 0 := by
  induction k with
  | zero => simp
  | succ k ih =>
    rw [List.range_succ, List.map_append, List.sum_append, ih]
    simp only [List.map_cons, List.map_nil, List.sum_cons, List.sum_nil, add_zero]
    split_ifs <;> omega

theorem tally_sum (l : List ℕ) (k : ℕ) (h : ∀ x ∈ l, x < k) : (tally l k).sum = l.length := by
  induction l with
  | nil => simp [tally]
  | cons x t ih =>
    have hx : x < k := h x (List.mem_cons_self _ _)
    have ht := ih fun y hy => h y (List.mem_cons_of_mem _ hy)
    have e : tally (x :: t) k =
        (List.range k).map fun c => t.count c + (if x = c then 1 else 0) := by
      unfold tally
      refine List.map_congr_left fun c _ => ?_
      simp only [List.count_cons, beq_iff_eq]
    rw [e, List.sum_map_add, sum_indicator_range, if_pos hx]
    unfold tally at ht
    rw [ht, List.length_cons]

theorem getD_tally (l : List ℕ) (k c : ℕ) (hc : c < k) : (tally l k).getD c 0 = l.count c := by
  unfold tally
  rw [List.getD_eq_getElem _ _ (by rw [List.length_map, List.length_range]; exact hc),
    List.getElem_map, List.getElem_range]

/-- When the second loop finds a point (some point of the maximum-variance
cluster has a positive `var(diff)`), `EmptyCluster` does what its description
says: it returns 1, moves that point from the maximum-variance cluster to the
empty cluster, and keeps `clusterCounts` the tally of the assignments. -/
theorem EmptyCluster_moves_point (data centroids : List (List ℚ)) (emptyCluster : ℕ)
    (clusterCounts assignments : List ℕ)
    (hlen : assignments.length = data.length) (hsize : data.length < 2 ^ 64)
    (hcounts : clusterCounts = tally assignments clusterCounts.length)
    (hvalid : ∀ x ∈ assignments, x < clusterCounts.length)
    (hempty : emptyCluster < clusterCounts.length)
    (he0 : clusterCounts.getD emptyCluster 0 = 0)
    (hfp : (furthest data centroids assignments
      (maxIndex (variances data centroids clusterCounts assignments))).1 < data.length) :
    (EmptyCluster data emptyCluster centroids clusterCounts assignments).changed = 1 ∧
      assignments.getD (furthest data centroids assignments
        (maxIndex (variances data centroids clusterCounts assignments))).1 0 =
          maxIndex (variances data centroids clusterCounts assignments) ∧
      maxIndex (variances data centroids clusterCounts assignments) ≠ emptyCluster ∧
      (EmptyCluster data emptyCluster centroids clusterCounts assignments).assignments =
        assignments.set (furthest data centroids assignments
          (maxIndex (variances data centroids clusterCounts assignments))).1 emptyCluster ∧
      (EmptyCluster data emptyCluster centroids clusterCounts assignments).clusterCounts =
        tally (EmptyCluster data emptyCluster centroids clusterCounts assignments).assignments
          clusterCounts.length ∧
      (EmptyCluster data emptyCluster centroids clusterCounts assignments).clusterCounts.sum =
        clusterCounts.sum := by
  have hspec := furthest_spec data centroids assignments
    (maxIndex (variances data centroids clusterCounts assignments))
  simp only [EmptyCluster]
  generalize maxIndex (variances data centroids clusterCounts assignments) = mv at *
  generalize (furthest data centroids assignments mv).1 = fp at *
  have hfa : assignments.getD fp 0 = mv := by
    rcases hspec with h | h
    · omega
    · exact h.2
  have hfpl : fp < assignments.length := by omega
  have hmem : mv ∈ assignments := by
    rw [← hfa, List.getD_eq_getElem _ _ hfpl]
    exact List.getElem_mem _
  have hmvk : mv < clusterCounts.length := hvalid mv hmem
  have hcnt : ∀ c, c < clusterCounts.length → clusterCounts.getD c 0 = assignments.count c := by
    intro c hc
    have := congrArg (fun l => l.getD c 0) hcounts
    simp only [getD_tally _ _ _ hc] at this
    exact this
  have hcmv : 0 < assignments.count mv := List.count_pos_iff.mpr hmem
  have hcle : assignments.count mv ≤ assignments.length := List.count_le_length _ _
  have hce : assignments.count emptyCluster = 0 := by rw [← hcnt _ hempty]; exact he0
  have hne : mv ≠ emptyCluster := by
    intro h
    rw [h] at hcmv
    omega
  have h1 : (clusterCounts.getD mv 0 + 2 ^ 64 - 1) % 2 ^ 64 = assignments.count mv - 1 := by
    rw [hcnt mv hmvk]
    have : assignments.count mv + 2 ^ 64 - 1 = (assignments.count mv - 1) + 2 ^ 64 := by omega
    rw [this, Nat.add_mod_right, Nat.mod_eq_of_lt (by omega)]
  have h2 : ((clusterCounts.set mv (assignments.count mv - 1)).getD emptyCluster 0 + 1) % 2 ^ 64
      = 1 := by
    rw [bound.getD_set_ne _ _ _ _ _ hne, he0]
    rfl
  rw [h1, h2]
  have htally : (clusterCounts.set mv (assignments.count mv - 1)).set emptyCluster 1 =
      tally (assignments.set fp emptyCluster) clusterCounts.length := by
    refine List.ext_getElem (by simp [tally]) fun c hc1 hc2 => ?_
    have hc : c < clusterCounts.length := by simpa using hc1
    have hcc : clusterCounts[c] = assignments.count c := by
      rw [← hcnt c hc, List.getD_eq_getElem _ _ hc]
    have hset := count_set assignments fp mv emptyCluster c hfpl hfa
    simp only [tally, List.getElem_set, List.getElem_map, List.getElem_range, hcc]
    by_cases hce1 : emptyCluster = c
    · subst hce1
      have : ¬ mv = emptyCluster := hne
      simp only [if_true, this, if_false] at hset ⊢
      omega
    · by_cases hcm : mv = c
      · subst hcm
        simp only [hce1, if_false, if_true] at hset ⊢
        omega
      · simp only [hce1, hcm, if_false] at hset ⊢
        omega
  have hs1 : (tally (assignments.set fp emptyCluster) clusterCounts.length).sum =
      assignments.length := by
    rw [tally_sum _ _ ?_, List.length_set]
    intro x hx
    rcases List.mem_or_eq_of_mem_set hx with h | h
    · exact hvalid x h
    · rw [h]; exact hempty
  have hs2 : clusterCounts.sum = assignments.length := by
    conv_lhs => rw [hcounts]
    exact tally_sum _ _ hvalid
  refine ⟨?_, hfa, hne, ?_, htally, ?_⟩
  · trivial
  · trivial
  · rw [htally, hs1, hs2]

/-- C36: the claim holds where the second loop finds a point, and fails where
it finds none.  For inputs as the claim describes (a valid assignment vector,
`clusterCounts` its tally, `emptyCluster` a cluster with count 0, fewer than
`2^64` points), if some point of the maximum-variance cluster has a positive
`var(diff)`, so that `furthestPoint` is a point, then `EmptyCluster` returns 1,
moves that point from the maximum-variance cluster to `emptyCluster`, changes
no other assignment, and `clusterCounts` is again the tally, with the same
total.  For the points `(1,1)` and `(3,3)` in cluster 0 with centroid `(2,2)`
every `var(diff)` is 0: `furthestPoint` stays `data.n_cols`, no assignment
changes, and `clusterCounts` becomes `(1, 1)` while the tally is `(2, 0)`. -/
theorem EmptyCluster_tally :
    (∀ (data centroids : List (List ℚ)) (emptyCluster : ℕ)
      (clusterCounts assignments : List ℕ),
      assignments.length = data.length → data.length < 2 ^ 64 →
      clusterCounts = tally assignments clusterCounts.length →
      (∀ x ∈ assignments, x < clusterCounts.length) →
      emptyCluster < clusterCounts.length → clusterCounts.getD emptyCluster 0 = 0 →
      (furthest data centroids assignments
        (maxIndex (variances data centroids clusterCounts assignments))).1 < data.length →
      (EmptyCluster data emptyCluster centroids clusterCounts assignments).changed = 1 ∧
        assignments.getD (furthest data centroids assignments
          (maxIndex (variances data centroids clusterCounts assignments))).1 0 =
            maxIndex (variances data centroids clusterCounts assignments) ∧
        maxIndex (variances data centroids clusterCounts assignments) ≠ emptyCluster ∧
        (EmptyCluster data emptyCluster centroids clusterCounts assignments).assignments =
          assignments.set (furthest data centroids assignments
            (maxIndex (variances data centroids clusterCounts assignments))).1 emptyCluster ∧
        (EmptyCluster data emptyCluster centroids clusterCounts assignments).clusterCounts =
          tally (EmptyCluster data emptyCluster centroids clusterCounts assignments).assignments
            clusterCounts.length ∧
        (EmptyCluster data emptyCluster centroids clusterCounts assignments).clusterCounts.sum =
          clusterCounts.sum) ∧
    ([2, 0] = tally [0, 0] 2 ∧
      (furthest diagData diagCentroids [0, 0]
        (maxIndex (variances diagData diagCentroids [2, 0] [0, 0]))).1 = diagData.length ∧
      EmptyCluster diagData 1 diagCentroids [2, 0] [0, 0] =
        { changed := 1, clusterCounts := [1, 1], assignments := [0, 0] } ∧
      (EmptyCluster diagData 1 diagCentroids [2, 0] [0, 0]).clusterCounts ≠
        tally (EmptyCluster diagData 1 diagCentroids [2, 0] [0, 0]).assignments 2) := by
  refine ⟨EmptyCluster_moves_point, ?_, ?_, ?_, ?_⟩ <;> decide!

/-- Witness of C36: four points, three of them in cluster 0 around the
centroid `(1,1)`, cluster 2 empty; the point `(4,-2)` is moved to cluster 2. -/
theorem EmptyCluster_tally_witness :
    (EmptyCluster spreadData 2 spreadCentroids [3, 1, 0] [0, 0, 0, 1]).assignments =
        [0, 0, 2, 1] ∧
      (EmptyCluster spreadData 2 spreadCentroids [3, 1, 0] [0, 0, 0, 1]).clusterCounts =
        tally (EmptyCluster spreadData 2 spreadCentroids [3, 1, 0] [0, 0, 0, 1]).assignments 3 :=
  have h := EmptyCluster_tally.1 spreadData spreadCentroids 2 [3, 1, 0] [0, 0, 0, 1]
    (by decide) (by decide) (by decide) (by decide) (by decide) (by decide) (by decide!)
  ⟨h.2.2.2.1.trans (by decide!), h.2.2.2.2.1⟩

end kmeans

namespace sparse_coding

/-! ### Row removal of sparse coding -/

theorem sorted_getD_lt (rows : List ℕ) (hs : rows.Sorted (· < ·)) (i j : ℕ) (hij : i < j)
    (hj : j < rows.length) : rows.getD i 0 < rows.getD j 0 := by
  rw [List.getD_eq_getElem _ _ (lt_trans hij hj), List.getD_eq_getElem _ _ hj]
  exact List.pairwise_iff_getElem.mp hs i j (lt_trans hij hj) hj hij

theorem mem_rows_iff (rows : List ℕ) (x : ℕ) :
    x ∈ rows ↔ ∃ i, i < rows.length ∧ rows.getD i 0 = x := by
  constructor
  · intro h
    obtain ⟨i, hi, e⟩ := List.mem_iff_getElem.mp h
    exact ⟨i, hi, by rw [List.getD_eq_getElem _ _ hi]; exact e⟩
  · rintro ⟨i, hi, e⟩
    rw [← e, List.getD_eq_getElem _ _ hi]
    exact List.getElem_mem _

/-- No index strictly between two neighbours of a strictly increasing list is
in the list. -/
theorem not_mem_between (rows : List ℕ) (hs : rows.Sorted (· < ·)) (j x : ℕ)
    (hj : j + 1 < rows.length) (h1 : rows.getD j 0 < x) (h2 : x < rows.getD (j + 1) 0) :
    x ∉ rows := by
  intro hx
  obtain ⟨i, hi, e⟩ := (mem_rows_iff rows x).mp hx
  rcases Nat.lt_or_ge i (j + 1) with h | h
  · rcases Nat.lt_or_ge i j with g | g
    · have := sorted_getD_lt rows hs i j g (by omega)
      omega
    · have : i = j := by omega
      subst this
      omega
  · rcases Nat.lt_or_ge (j + 1) i with g | g
    · have := sorted_getD_lt rows hs (j + 1) i g hi
      omega
    · have : i = j + 1 := by omega
      subst this
      omega

theorem not_mem_below_first (rows : List ℕ) (hs : rows.Sorted (· < ·)) (x : ℕ)
    (h : x < rows.getD 0 0) : x ∉ rows := by
  intro hx
  obtain ⟨i, hi, e⟩ := (mem_rows_iff rows x).mp hx
  rcases Nat.eq_zero_or_pos i with g | g
  · subst g; omega
  · have := sorted_getD_lt rows hs 0 i g hi
    omega

theorem not_mem_above_last (rows : List ℕ) (hs : rows.Sorted (· < ·)) (x : ℕ)
    (h : rows.getD (rows.length - 1) 0 < x) : x ∉ rows := by
  intro hx
  obtain ⟨i, hi, e⟩ := (mem_rows_iff rows x).mp hx
  rcases Nat.lt_or_ge i (rows.length - 1) with g | g
  · have := sorted_getD_lt rows hs i (rows.length - 1) g (by omega)
    omega
  · have : i = rows.length - 1 := by omega
    subst this
    omega

theorem keptBelow_of_not_mem (rows : List ℕ) (b : ℕ) (h : ∀ x, x < b → x ∉ rows) :
    keptBelow rows b = List.range b := by
  unfold keptBelow
  refine List.filter_eq_self.mpr fun x hx => ?_
  simpa using h x (List.mem_range.mp hx)

theorem keptBelow_append (rows : List ℕ) (a b : ℕ) (hab : a < b) (ha : a ∈ rows)
    (h : ∀ x, a < x → x < b → x ∉ rows) :
    keptBelow rows b = keptBelow rows a ++ List.range' (a + 1) (b - a - 1) := by
  unfold keptBelow
  have e : List.range b = List.range a ++ (a :: List.range' (a + 1) (b - a - 1)) := by
    rw [List.range_eq_range', List.range_eq_range', ← List.range'_succ,
      show b - a - 1 + 1 = b - a by omega]
    have := List.range'_append 0 a (b - a) 1
    simp only [one_mul, mul_one, zero_add] at this
    rw [this, show b - a + a = b by omega]
  rw [e, List.filter_append, List.filter_cons]
  have h1 : (!rows.contains a) = false := by simpa using ha
  rw [h1]
  simp only [Bool.false_eq_true, if_false]
  congr 1
  refine List.filter_eq_self.mpr fun x hx => ?_
  have hx1 := List.mem_range'_1.mp hx
  simpa using h x (by omega) (by omega)

theorem length_keptBelow_le (rows : List ℕ) (a b : ℕ) (hab : a ≤ b) :
    (keptBelow rows a).length ≤ (keptBelow rows b).length := by
  unfold keptBelow
  have e : List.range b = List.range a ++ List.range' a (b - a) := by
    rw [List.range_eq_range', List.range_eq_range']
    have := List.range'_append 0 a (b - a) 1
    simp only [one_mul, mul_one, zero_add] at this
    rw [this, show b - a + a = b by omega]
  rw [e, List.filter_append, List.length_append]
  omega

theorem length_keptBelow (rows : List ℕ) (n : ℕ) (hs : rows.Sorted (· < ·))
    (hb : ∀ r ∈ rows, r < n) : (keptBelow rows n).length = n - rows.length := by
  have hnd : rows.Nodup := hs.nodup
  have hperm : ((List.range n).filter fun i => rows.contains i).Perm rows := by
    refine (List.perm_ext_iff_of_nodup ((List.nodup_range n).filter _) hnd).mpr fun x => ?_
    simp only [List.mem_filter, List.mem_range, List.contains_eq_any_beq, List.any_eq_true,
      beq_iff_eq]
    exact ⟨fun h => by obtain ⟨_, y, hy, rfl⟩ := h; exact hy, fun h => ⟨hb x h, x, h, rfl⟩⟩
  have hsum := List.length_eq_length_filter_add (l := List.range n) fun i => rows.contains i
  rw [List.length_range, hperm.length_eq] at hsum
  unfold keptBelow
  omega

theorem map_range'_getD (X : List (List ℚ)) (c h : ℕ) (hc : c + h ≤ X.length) :
    (List.range' c h).map (fun i => X.getD i []) = (X.drop c).take h := by
  refine List.ext_getElem ?_ fun i h1 h2 => ?_
  · simp only [List.length_map, List.length_range', List.length_take, List.length_drop]
    omega
  · have hi : i < h := by simpa using h1
    simp only [List.getElem_map, List.getElem_range', one_mul, List.getElem_take,
      List.getElem_drop]
    have hlt : c + i < X.length := by omega
    rw [List.getD_eq_getElem X [] hlt]

theorem assignRows_spec (M X : List (List ℚ)) (c0 h src b d : ℕ) (hh : 0 < h)
    (hM : c0 + h ≤ M.length) (hX : src + h ≤ X.length) (hb : b = c0 + h - 1)
    (hd : d = src + h - 1) :
    ∃ M1, assignRows M c0 b X src d = some M1 ∧ M1.length = M.length ∧
      M1.take (c0 + h) = M.take c0 ++ (List.range' src h).map (fun i => X.getD i []) := by
  subst hb hd
  have hcond : c0 ≤ c0 + h - 1 ∧ c0 + h - 1 < M.length ∧ src ≤ src + h - 1 ∧
      src + h - 1 < X.length ∧ c0 + h - 1 - c0 = src + h - 1 - src := by omega
  rw [assignRows, if_pos hcond, show src + h - 1 - src + 1 = h by omega,
    show c0 + h - 1 + 1 = c0 + h by omega, map_range'_getD X src h hX]
  refine ⟨_, rfl, ?_, ?_⟩
  · simp only [List.length_append, List.length_take, List.length_drop]
    omega
  · refine List.take_left' ?_
    simp only [List.length_append, List.length_take, List.length_drop]
    omega

theorem length_keptBelow_bound (rows : List ℕ) (n b : ℕ) (hs : rows.Sorted (· < ·))
    (hb : ∀ r ∈ rows, r < n) (hbn : b ≤ n) :
    (keptBelow rows b).length ≤ n - rows.length := by
  rw [← length_keptBelow rows n hs hb]
  exact length_keptBelow_le rows b n hbn

theorem getD_mem_rows (rows : List ℕ) (j : ℕ) (hj : j < rows.length) :
    rows.getD j 0 ∈ rows :=
  (mem_rows_iff rows _).mpr ⟨j, hj, rfl⟩

theorem RemoveRows_first (X : List (List ℚ)) (rows : List ℕ) (junk : ℕ → List ℚ)
    (hs : rows.Sorted (· < ·)) (hb : ∀ r ∈ rows, r < X.length) (hm : 0 < rows.length) :
    ∃ M c,
      (if rows.getD 0 0 > 0 then
        (assignRows ((List.range (X.length - rows.length)).map junk) 0
          (0 + rows.getD 0 0 - 1) X 0 (rows.getD 0 0 - 1)).map
            fun M => (M, 0 + rows.getD 0 0)
      else some ((List.range (X.length - rows.length)).map junk, 0)) = some (M, c) ∧
      M.length = X.length - rows.length ∧
      c = (keptBelow rows (rows.getD 0 0)).length ∧
      M.take c = (keptBelow rows (rows.getD 0 0)).map (fun i => X.getD i []) := by
  have hk : keptBelow rows (rows.getD 0 0) = List.range (rows.getD 0 0) :=
    keptBelow_of_not_mem rows _ fun x hx => not_mem_below_first rows hs x hx
  have hr0 : rows.getD 0 0 < X.length := hb _ (getD_mem_rows rows 0 hm)
  have hbound := length_keptBelow_bound rows X.length (rows.getD 0 0) hs hb (le_of_lt hr0)
  rw [hk, List.length_range] at hbound
  by_cases h0 : rows.getD 0 0 > 0
  · rw [if_pos h0]
    obtain ⟨M1, e, hl, ht⟩ := assignRows_spec ((List.range (X.length - rows.length)).map junk) X
      0 (rows.getD 0 0) 0 (0 + rows.getD 0 0 - 1) (rows.getD 0 0 - 1) h0
      (by simp only [List.length_map, List.length_range]; omega) (by omega) rfl (by omega)
    refine ⟨M1, 0 + rows.getD 0 0, by rw [e]; rfl, ?_, ?_, ?_⟩
    · rw [hl]; simp
    · rw [hk, List.length_range, zero_add]
    · rw [ht, hk, List.take_zero, List.nil_append, List.range_eq_range']
  · rw [if_neg h0]
    have hz : rows.getD 0 0 = 0 := by omega
    refine ⟨_, 0, rfl, by simp, ?_, ?_⟩
    · rw [hz]; rfl
    · rw [hz]; rfl

theorem RemoveRows_step (X : List (List ℚ)) (rows : List ℕ)
    (hs : rows.Sorted (· < ·)) (hb : ∀ r ∈ rows, r < X.length) (j : ℕ)
    (hj : j + 1 < rows.length) (M : List (List ℚ)) (c : ℕ)
    (hl : M.length = X.length - rows.length)
    (hc : c = (keptBelow rows (rows.getD j 0)).length)
    (ht : M.take c = (keptBelow rows (rows.getD j 0)).map (fun i => X.getD i [])) :
    ∃ M1 c1, RemoveRows.step X rows (some (M, c)) j = some (M1, c1) ∧
      M1.length = X.length - rows.length ∧
      c1 = (keptBelow rows (rows.getD (j + 1) 0)).length ∧
      M1.take c1 = (keptBelow rows (rows.getD (j + 1) 0)).map (fun i => X.getD i []) := by
  have hlt : rows.getD j 0 < rows.getD (j + 1) 0 :=
    sorted_getD_lt rows hs j (j + 1) (Nat.lt_succ_self j) hj
  have hr1 : rows.getD (j + 1) 0 < X.length := hb _ (getD_mem_rows rows (j + 1) hj)
  have hk : keptBelow rows (rows.getD (j + 1) 0) =
      keptBelow rows (rows.getD j 0) ++
        List.range' (rows.getD j 0 + 1) (rows.getD (j + 1) 0 - rows.getD j 0 - 1) :=
    keptBelow_append rows _ _ hlt (getD_mem_rows rows j (by omega))
      fun x h1 h2 => not_mem_between rows hs j x hj h1 h2
  have hbound := length_keptBelow_bound rows X.length (rows.getD (j + 1) 0) hs hb (le_of_lt hr1)
  rw [hk, List.length_append, List.length_range', ← hc] at hbound
  simp only [RemoveRows.step, Option.some_bind]
  by_cases hh : rows.getD (j + 1) 0 - rows.getD j 0 - 1 > 0
  · rw [if_pos hh]
    obtain ⟨M1, e, hl1, ht1⟩ := assignRows_spec M X c
      (rows.getD (j + 1) 0 - rows.getD j 0 - 1) (rows.getD j 0 + 1)
      (c + (rows.getD (j + 1) 0 - rows.getD j 0 - 1) - 1) (rows.getD (j + 1) 0 - 1) hh
      (by omega) (by omega) rfl (by omega)
    refine ⟨M1, c + (rows.getD (j + 1) 0 - rows.getD j 0 - 1), by rw [e]; rfl, ?_, ?_, ?_⟩
    · rw [hl1, hl]
    · rw [hk, List.length_append, List.length_range', ← hc]
    · rw [ht1, ht, hk, List.map_append]
  · rw [if_neg hh]
    have hz : rows.getD (j + 1) 0 - rows.getD j 0 - 1 = 0 := by omega
    rw [hz, List.range'_zero, List.append_nil] at hk
    exact ⟨M, c, rfl, hl, by rw [hk]; exact hc, by rw [hk]; exact ht⟩

theorem RemoveRows_loop (X : List (List ℚ)) (rows : List ℕ)
    (hs : rows.Sorted (· < ·)) (hb : ∀ r ∈ rows, r < X.length)
    (first : Option (List (List ℚ) × ℕ))
    (hfirst : ∃ M c, first = some (M, c) ∧ M.length = X.length - rows.length ∧
      c = (keptBelow rows (rows.getD 0 0)).length ∧
      M.take c = (keptBelow rows (rows.getD 0 0)).map (fun i => X.getD i [])) :
    ∀ j, j + 1 ≤ rows.length →
      ∃ M c, (List.range j).foldl (RemoveRows.step X rows) first = some (M, c) ∧
        M.length = X.length - rows.length ∧
        c = (keptBelow rows (rows.getD j 0)).length ∧
        M.take c = (keptBelow rows (rows.getD j 0)).map (fun i => X.getD i []) := by
  intro j
  induction j with
  | zero => intro _; exact hfirst
  | succ j ih =>
    intro hj
    obtain ⟨M, c, e, hl, hc, ht⟩ := ih (by omega)
    rw [List.range_succ, List.foldl_append, List.foldl_cons, List.foldl_nil, e]
    exact RemoveRows_step X rows hs hb j (by omega) M c hl hc ht

theorem RemoveRows_eq (X : List (List ℚ)) (rows : List ℕ) (junk : ℕ → List ℚ)
    (hs : rows.Sorted (· < ·)) (hb : ∀ r ∈ rows, r < X.length) :
    RemoveRows X rows junk = some (rowsKept X rows) := by
  by_cases hm : rows.length = 0
  · have hnil : rows = [] := List.length_eq_zero.mp hm
    subst hnil
    simp only [RemoveRows, List.length_nil, if_true, rowsKept]
    rw [keptBelow_of_not_mem [] _ fun x _ => List.not_mem_nil x]
    congr 1
    refine List.ext_getElem (by simp) fun i h1 h2 => ?_
    simp only [List.getElem_map, List.getElem_range]
    exact (List.getD_eq_getElem _ _ h1).symm
  · have hpos : 0 < rows.length := Nat.pos_of_ne_zero hm
    obtain ⟨M, c, e, hl, hc, ht⟩ := RemoveRows_loop X rows hs hb _
      (RemoveRows_first X rows junk hs hb hpos) (rows.length - 1) (by omega)
    have hlast : rows.getD (rows.length - 1) 0 < X.length :=
      hb _ (getD_mem_rows rows _ (by omega))
    have hlen := length_keptBelow rows X.length hs hb
    simp only [RemoveRows, if_neg hm]
    rw [e, Option.some_bind]
    simp only []
    by_cases hf : rows.getD (rows.length - 1) 0 < X.length - 1
    · rw [if_pos hf]
      have hk : keptBelow rows X.length =
          keptBelow rows (rows.getD (rows.length - 1) 0) ++
            List.range' (rows.getD (rows.length - 1) 0 + 1)
              (X.length - rows.getD (rows.length - 1) 0 - 1) :=
        keptBelow_append rows _ _ hlast (getD_mem_rows rows _ (by omega))
          fun x h1 _ => not_mem_above_last rows hs x h1
      have hcount := hlen
      rw [hk, List.length_append, List.length_range', ← hc] at hcount
      obtain ⟨M1, e1, hl1, ht1⟩ := assignRows_spec M X c
        (X.length - rows.getD (rows.length - 1) 0 - 1) (rows.getD (rows.length - 1) 0 + 1)
        (X.length - rows.length - 1) (X.length - 1) (by omega) (by omega) (by omega)
        (by omega) (by omega)
      rw [e1]
      congr 1
      have hfull : c + (X.length - rows.getD (rows.length - 1) 0 - 1) = M1.length := by
        rw [hl1, hl]; exact hcount
      rw [hfull, List.take_length] at ht1
      rw [ht1, ht, rowsKept, hk, List.map_append]
    · rw [if_neg hf]
      have hz : rows.getD (rows.length - 1) 0 = X.length - 1 := by omega
      have hk : keptBelow rows X.length = keptBelow rows (rows.getD (rows.length - 1) 0) := by
        have := keptBelow_append rows _ _ hlast (getD_mem_rows rows _ (by omega))
          fun x h1 _ => not_mem_above_last rows hs x h1
        rw [show X.length - rows.getD (rows.length - 1) 0 - 1 = 0 by omega, List.range'_zero,
          List.append_nil] at this
        exact this
      congr 1
      have hfull : c = M.length := by rw [hl, hc, ← hk, hlen]
      rw [hfull, List.take_length] at ht
      rw [ht, rowsKept, hk]

/-- C35: for every matrix `X` and every strictly increasing list of row
indices, all below the number of rows of `X`, `RemoveRows` returns a matrix with
as many rows as `X` less the length of the list, which holds exactly the rows
of `X` whose index is not in the list, whole and in their original order,
whatever `X_mod` held before; with an empty list the result is `X`, and with all
rows listed it has no rows. -/
theorem RemoveRows_spec :
    (∀ (X : List (List ℚ)) (rows : List ℕ) (junk : ℕ → List ℚ),
      rows.Sorted (· < ·) → (∀ r ∈ rows, r < X.length) →
      ∃ X_mod, RemoveRows X rows junk = some X_mod ∧
        X_mod.length = X.length - rows.length ∧
        X_mod = ((List.range X.length).filter fun i => !rows.contains i).map
          fun i => X.getD i []) ∧
    (∀ (X : List (List ℚ)) (junk : ℕ → List ℚ), RemoveRows X [] junk = some X) ∧
    (∀ (X : List (List ℚ)) (junk : ℕ → List ℚ),
      RemoveRows X (List.range X.length) junk = some []) := by
  have gen : ∀ (X : List (List ℚ)) (rows : List ℕ) (junk : ℕ → List ℚ),
      rows.Sorted (· < ·) → (∀ r ∈ rows, r < X.length) →
      ∃ X_mod, RemoveRows X rows junk = some X_mod ∧
        X_mod.length = X.length - rows.length ∧
        X_mod = ((List.range X.length).filter fun i => !rows.contains i).map
          fun i => X.getD i [] := by
    intro X rows junk hs hb
    refine ⟨_, RemoveRows_eq X rows junk hs hb, ?_, rfl⟩
    rw [rowsKept, List.length_map]
    exact length_keptBelow rows X.length hs hb
  refine ⟨gen, fun X junk => rfl, fun X junk => ?_⟩
  obtain ⟨X_mod, e, hl, _⟩ := gen X (List.range X.length) junk (List.sorted_lt_range _)
    fun r hr => List.mem_range.mp hr
  rw [List.length_range, Nat.sub_self] at hl
  rw [e, List.length_eq_zero.mp hl]

/-- Witness of C35: the rows 1 and 3 of a 5 x 2 matrix are removed. -/
theorem RemoveRows_spec_witness :
    ∃ X_mod, RemoveRows fiveRows [1, 3] noRows = some X_mod ∧
      X_mod.length = fiveRows.length - ([1, 3] : List ℕ).length ∧
      X_mod = ((List.range fiveRows.length).filter fun i => !([1, 3] : List ℕ).contains i).map
        fun i => fiveRows.getD i [] :=
  RemoveRows_spec.1 fiveRows [1, 3] noRows (by decide) (by decide)

end sparse_coding

end mlpack
